import Mathlib

/-!
# fsnet: `grace` (src/grace/sub_process.go) and `fstypes` (src/fstypes/string.go)

The file has the definitions of both packages first, then the theorems about
them.

## grace: the subprocess side of a graceful restart

A shallow embedding of `subProcess.Start` and `subProcess.Stop`.

The two methods are concurrent Go code.  They are embedded as labelled
transition systems: a state records the program counters of the calling
goroutine and of every goroutine it launched, the contents of the channels
and the WaitGroup counter; an action names which goroutine (or which part of
the environment: the caller cancelling its context, the operating system
delivering a signal, the clock) moves next.  A schedule is a list of actions
and `run` replays it; a blocked operation is a step that returns `none`.

Go semantics used (package documentation of the language and of `context`,
`fmt`, `os/signal`, `sync`):
* a send to or a receive from a nil channel blocks for ever;
* a send to a buffered channel blocks while the buffer is full, a receive
  while it is empty; values leave in the order they entered;
* `context.WithTimeout(parent, d)` is done as soon as `parent` is done and
  never outlives the deadline of `parent`;
* `signal.Notify` relays the listed signals with a non-blocking send.
-/

namespace grace

/-! ## Values -/

/-- Go `error` values, identified by their message; `none` is the nil error. -/
abbrev GoError := Option String

/-- Operating-system signals the process may be sent. -/
inductive Signal where
  | SIGHUP
  | SIGINT
  | SIGQUIT
  | SIGTERM
  deriving DecidableEq, Repr

/-- The text `fmt` prints for a `syscall.Signal` under `%v` (its `String()`). -/
def Signal.text : Signal → String
  | .SIGHUP => "hangup"
  | .SIGINT => "interrupt"
  | .SIGQUIT => "quit"
  | .SIGTERM => "terminated"

/-- The signals of `signal.Notify(ch, syscall.SIGINT, syscall.SIGTERM, syscall.SIGQUIT)`
(line 56). -/
def notifySignals : List Signal := [.SIGINT, .SIGTERM, .SIGQUIT]

/-! ## Package `context` -/

/-- A `context.Context` as the program observes it: `err` is `ctx.Err()`
(non-nil exactly when `ctx.Done()` is closed), `deadline` is `ctx.Deadline()`
on a logical clock. -/
structure Context where
  err : GoError
  deadline : Option Int
  deriving DecidableEq, Repr

/-- The message of `context.Canceled`. -/
def Canceled : String := "context canceled"

/-- The message of `context.DeadlineExceeded`. -/
def DeadlineExceeded : String := "context deadline exceeded"

/-- Whether `ctx.Done()` is closed. -/
def Context.isDone (c : Context) : Bool := c.err.isSome

/-- The timer context `WithDeadline` builds when the new deadline `d` is the
earlier one: cancelled at once with the error of a parent that is already
done, else at once with `DeadlineExceeded` when `d` is not in the future. -/
def timerCtx (parent : Context) (d now : Int) : Context :=
  { err := if parent.err.isSome then parent.err
           else if d - now ≤ 0 then some DeadlineExceeded else none,
    deadline := some d }

/-- The context `context.WithTimeout(parent, timeout)` returns when called at
time `now`, that is `WithDeadline(parent, now + timeout)`: when the parent
already has an earlier deadline it is `WithCancel(parent)`. -/
def WithTimeout (parent : Context) (timeout now : Int) : Context :=
  match parent.deadline with
  | some cur =>
    if cur < now + timeout then { err := parent.err, deadline := some cur }
    else timerCtx parent (now + timeout) now
  | none => timerCtx parent (now + timeout) now

/-! ## Channels -/

/-- An allocated channel: its capacity and the values buffered in it, oldest
first. -/
structure Chan (α : Type) where
  cap : Nat
  buf : List α
  deriving DecidableEq, Repr

/-- A channel variable; `none` is the nil channel, the zero value of a
declaration such as `var errChan chan error`. -/
abbrev ChanVar (α : Type) := Option (Chan α)

/-- The value of `make(chan T, cap)`. -/
def makeChan (α : Type) (cap : Nat) : ChanVar α := some { cap := cap, buf := [] }

/-- A send `c <- v` with no receiver waiting: `none` when the send blocks
(nil channel, or no room in the buffer), else the channel afterwards. -/
def chanSend {α : Type} (c : ChanVar α) (v : α) : Option (ChanVar α) :=
  match c with
  | none => none
  | some ch =>
    if ch.buf.length < ch.cap then some (some { ch with buf := ch.buf ++ [v] })
    else none

/-- A receive `<-c` with no sender waiting: `none` when the receive blocks
(nil channel, or nothing buffered), else the value and the channel
afterwards. -/
def chanRecv {α : Type} (c : ChanVar α) : Option (α × ChanVar α) :=
  match c with
  | none => none
  | some ch =>
    match ch.buf with
    | [] => none
    | v :: rest => some (v, some { ch with buf := rest })

/-! ## Resources and the coordinator -/

/-- The `Resource` capability the coordinator consumes; the interface is
declared outside the file, so a resource is given by what its methods
answer: `name` is `String()`, `start` the outcome of `Start(ctx)` (`none`: the
call blocks and never returns by itself), `stop c` the outcome of `Stop(c)`
(`none`: the call never returns). -/
structure Resource where
  name : String
  start : Option GoError
  stop : Context → Option GoError

/-- The type `subProcess` (lines 23-27), without its logger. -/
structure subProcess where
  shutDownTimeout : Int
  resources : List Resource

/-! ## `subProcess.Stop` (lines 77-113) -/

/-- What `fmt.Errorf("resource[%d] (%) Stop error: %w", idx, res.String(), err)`
(line 92) produces.  The verb `%)` is not one `fmt` knows: for the string
operand it prints `%!)(string=` followed by the operand and `)`. -/
def stopErrorf (idx : Nat) (name err : String) : String :=
  "resource[" ++ toString idx ++ "] (%!)(string=" ++ name ++ ") Stop error: " ++ err

/-- Program counter of the goroutine launched for one resource by `Stop`
(lines 88-96). -/
inductive StopTask where
  /-- launched by `go`, has not run yet -/
  | spawned
  /-- inside `res.Stop(ctx)` (line 91) -/
  | inStop
  /-- about to send `e` on `errChans` (line 92 or 94) -/
  | sending (e : GoError)
  /-- has sent; the deferred `wg.Done()` (line 89) is still to run -/
  | deferred
  /-- finished -/
  | exited
  deriving DecidableEq, Repr

/-- State of one call of `Stop`. -/
structure StopState where
  /-- the number of iterations of the loop of line 85 already done -/
  idx : Nat
  /-- the counter of `wg` -/
  wg : Int
  /-- the channel `errChans` of line 84 -/
  errChans : ChanVar GoError
  /-- the goroutines launched so far, by resource index -/
  tasks : List StopTask
  /-- history: the calls `res.Stop(ctx)` made so far, oldest first -/
  calls : List (Nat × Context)
  /-- history: the resource indices in the order of their sends on `errChans` -/
  sends : List Nat
  /-- the result `errStop` once `Stop` has returned -/
  errStop : Option GoError
  deriving DecidableEq, Repr

/-- The moves of a call of `Stop`. -/
inductive StopAction where
  /-- one iteration of the loop: `wg.Add(1)` and the `go` statement -/
  | spawn
  /-- goroutine `i` calls `res.Stop(ctx)` -/
  | call (i : Nat)
  /-- `res.Stop(ctx)` returns in goroutine `i` -/
  | ret (i : Nat)
  /-- goroutine `i` sends on `errChans` -/
  | send (i : Nat)
  /-- goroutine `i` runs the deferred `wg.Done()` -/
  | done (i : Nat)
  /-- `wg.Wait()` returns; lines 100-112 follow -/
  | finish
  deriving DecidableEq, Repr

/-- The builder `bd` after the loop of lines 103-108 over the values
received from the closed channel. -/
def drain (buf : List GoError) : String :=
  buf.foldl (fun bd err =>
    match err with
    | some m => bd ++ m ++ ";"
    | none => bd) ""

/-- Lines 109-112. -/
def errStopOf (bd : String) : GoError :=
  if bd.length = 0 then none else some bd

/-- State on entry to `Stop`, after lines 83-84. -/
def Stop.init (sp : subProcess) : StopState :=
  { idx := 0, wg := 0, errChans := makeChan GoError sp.resources.length,
    tasks := [], calls := [], sends := [], errStop := none }

/-- One move of `Stop(ctx)`; `none` when the move is not possible in `s`. -/
def Stop.step (sp : subProcess) (ctx : Context) (s : StopState) :
    StopAction → Option StopState
  | .spawn =>
    if s.errStop.isNone ∧ s.idx < sp.resources.length then
      some { s with idx := s.idx + 1, wg := s.wg + 1, tasks := s.tasks ++ [.spawned] }
    else none
  | .call i =>
    match s.tasks[i]? with
    | some .spawned =>
      some { s with tasks := s.tasks.set i .inStop, calls := s.calls ++ [(i, ctx)] }
    | _ => none
  | .ret i =>
    match s.tasks[i]?, sp.resources[i]? with
    | some .inStop, some res =>
      match res.stop ctx with
      | some (some err) =>
        some { s with tasks := s.tasks.set i (.sending (some (stopErrorf i res.name err))) }
      | some none => some { s with tasks := s.tasks.set i (.sending none) }
      | none => none
    | _, _ => none
  | .send i =>
    match s.tasks[i]? with
    | some (.sending e) =>
      match chanSend s.errChans e with
      | some ch =>
        some { s with errChans := ch, tasks := s.tasks.set i .deferred, sends := s.sends ++ [i] }
      | none => none
    | _ => none
  | .done i =>
    match s.tasks[i]? with
    | some .deferred => some { s with tasks := s.tasks.set i .exited, wg := s.wg - 1 }
    | _ => none
  | .finish =>
    if s.errStop.isNone ∧ s.idx = sp.resources.length ∧ s.wg = 0 then
      match s.errChans with
      | some ch =>
        some { s with errChans := some { ch with buf := [] },
                      errStop := some (errStopOf (drain ch.buf)) }
      | none => none
    else none

/-- Replays a schedule of `Stop(ctx)` from `s`; `none` when some move of it is
not possible. -/
def Stop.run (sp : subProcess) (ctx : Context) : StopState → List StopAction → Option StopState
  | s, [] => some s
  | s, a :: as =>
    match Stop.step sp ctx s a with
    | some t => Stop.run sp ctx t as
    | none => none

/-! ## `subProcess.Start` (lines 34-75) -/

/-- Program counter of the goroutine launched for one resource by `Start`
(lines 50-52): `errChan <- res.Start(ctx)`. -/
inductive StartTask where
  /-- launched by `go`, has not run yet -/
  | spawned
  /-- inside `res.Start(ctx)` -/
  | inStart
  /-- `res.Start(ctx)` has returned `e`; about to send it on `errChan` -/
  | sending (e : GoError)
  /-- has sent and finished -/
  | exited
  deriving DecidableEq, Repr

/-- Program counter of the goroutine that called `Start`. -/
inductive StartPc where
  /-- in the loop of lines 46-53, or just after it -/
  | loop
  /-- waiting in the `select` of line 60 -/
  | select
  /-- a case of the `select` has run and set `err`; line 69 is next -/
  | selected (err : GoError)
  /-- inside `sp.Stop(ctx)` (line 72) -/
  | stopping (err : GoError)
  /-- `Start` has returned `errLast` -/
  | returned (errLast : GoError)
  deriving DecidableEq, Repr

/-- State of one call of `Start`. -/
structure StartState where
  /-- the logical clock -/
  now : Int
  /-- the context the caller passed, as it is now -/
  ctx : Context
  /-- the number of iterations of the loop of line 46 already done -/
  idx : Nat
  /-- history: the calls `s.SetFile(os.NewFile(fd, ""))`, as (resource index, fd) -/
  files : List (Nat × Nat)
  /-- the goroutines launched so far, by resource index -/
  tasks : List StartTask
  /-- the channel variable `errChan` of line 45 -/
  errChan : ChanVar GoError
  /-- the channel variable `ch` of line 55 -/
  ch : ChanVar Signal
  /-- the signals package `signal` relays to `ch` -/
  relay : List Signal
  /-- where the calling goroutine is -/
  pc : StartPc
  /-- the context passed to `sp.Stop` at line 72 and the state of that call -/
  stop : Option (Context × StopState)
  deriving DecidableEq, Repr

/-- The moves of a call of `Start`: of the environment, of the calling
goroutine and of the goroutines it launched. -/
inductive StartAction where
  /-- time passes -/
  | tick
  /-- the caller cancels the context it passed -/
  | cancel
  /-- the deadline of the context the caller passed is reached -/
  | expire
  /-- the operating system delivers `sig` to the process -/
  | signal (sig : Signal)
  /-- one iteration of the loop of lines 46-53 -/
  | spawn
  /-- lines 55-56, after the loop -/
  | notify
  /-- goroutine `i` calls `res.Start(ctx)` -/
  | startCall (i : Nat)
  /-- `res.Start(ctx)` returns in goroutine `i` -/
  | startRet (i : Nat)
  /-- goroutine `i` sends what `res.Start(ctx)` returned on `errChan` -/
  | sendErr (i : Nat)
  /-- the case `<-ctx.Done()` of the `select` runs (lines 61-62) -/
  | selCtx
  /-- the case `e1 := <-errChan` of the `select` runs (lines 63-64) -/
  | selErr
  /-- the case `sig := <-ch` of the `select` runs (lines 65-66) -/
  | selSig
  /-- line 69 and the call of line 72 -/
  | derive
  /-- a move of the call `sp.Stop(ctx)` of line 72 -/
  | stop (a : StopAction)
  /-- `sp.Stop(ctx)` has returned; line 74 -/
  | ret
  deriving DecidableEq, Repr

/-- What `fmt.Errorf("exit by signal(%v)", sig)` (line 66) produces. -/
def signalErrorf (sig : Signal) : String :=
  "exit by signal(" ++ sig.text ++ ")"

/-- State on entry to `Start(ctx)` at time `now`, after line 45: `errChan` is
declared and not assigned, so it holds the nil channel. -/
def Start.init (ctx : Context) (now : Int) : StartState :=
  { now := now, ctx := ctx, idx := 0, files := [], tasks := [], errChan := none,
    ch := none, relay := [], pc := .loop, stop := none }

/-- One move of `Start`; `none` when the move is not possible in `s`.  A
signal that is not relayed to `ch` has its default disposition, which ends
the process: that is not a move of this system. -/
def Start.step (sp : subProcess) (s : StartState) : StartAction → Option StartState
  | .tick => some { s with now := s.now + 1 }
  | .cancel =>
    if s.ctx.err.isNone then some { s with ctx := { s.ctx with err := some Canceled } }
    else none
  | .expire =>
    match s.ctx.deadline with
    | some d =>
      if s.ctx.err.isNone ∧ d ≤ s.now then
        some { s with ctx := { s.ctx with err := some DeadlineExceeded } }
      else none
    | none => none
  | .signal sig =>
    if sig ∈ s.relay then
      match chanSend s.ch sig with
      | some c => some { s with ch := c }
      | none => some s
    else none
  | .spawn =>
    if s.pc = .loop ∧ s.idx < sp.resources.length then
      some { s with idx := s.idx + 1, files := s.files ++ [(s.idx, 3 + s.idx)],
                    tasks := s.tasks ++ [.spawned] }
    else none
  | .notify =>
    if s.pc = .loop ∧ s.idx = sp.resources.length then
      some { s with ch := makeChan Signal 1, relay := notifySignals, pc := .select }
    else none
  | .startCall i =>
    match s.tasks[i]? with
    | some .spawned => some { s with tasks := s.tasks.set i .inStart }
    | _ => none
  | .startRet i =>
    match s.tasks[i]?, sp.resources[i]? with
    | some .inStart, some res =>
      match res.start with
      | some e => some { s with tasks := s.tasks.set i (.sending e) }
      | none => none
    | _, _ => none
  | .sendErr i =>
    match s.tasks[i]? with
    | some (.sending e) =>
      match chanSend s.errChan e with
      | some c => some { s with errChan := c, tasks := s.tasks.set i .exited }
      | none => none
    | _ => none
  | .selCtx =>
    if s.pc = .select ∧ s.ctx.err.isSome then some { s with pc := .selected s.ctx.err }
    else none
  | .selErr =>
    if s.pc = .select then
      match chanRecv s.errChan with
      | some (e1, c) => some { s with errChan := c, pc := .selected e1 }
      | none => none
    else none
  | .selSig =>
    if s.pc = .select then
      match chanRecv s.ch with
      | some (sig, c) => some { s with ch := c, pc := .selected (some (signalErrorf sig)) }
      | none => none
    else none
  | .derive =>
    match s.pc with
    | .selected err =>
      some { s with pc := .stopping err,
                    stop := some (WithTimeout s.ctx sp.shutDownTimeout s.now, Stop.init sp) }
    | _ => none
  | .stop a =>
    match s.pc, s.stop with
    | .stopping _, some (c, st) =>
      match Stop.step sp c st a with
      | some st2 => some { s with stop := some (c, st2) }
      | none => none
    | _, _ => none
  | .ret =>
    match s.pc, s.stop with
    | .stopping err, some (_, st) =>
      if st.errStop.isSome then some { s with pc := .returned err } else none
    | _, _ => none

/-- Replays a schedule of `Start` from `s`; `none` when some move of it is not
possible. -/
def Start.run (sp : subProcess) : StartState → List StartAction → Option StartState
  | s, [] => some s
  | s, a :: as =>
    match Start.step sp s a with
    | some t => Start.run sp t as
    | none => none

/-! ## What a call of `Stop` maintains -/

/-- How far a goroutine of `Stop` has got. -/
def StopTask.rank : StopTask → Nat
  | .spawned => 0
  | .inStop => 1
  | .sending _ => 2
  | .deferred => 3
  | .exited => 4

/-- Goroutine `i` exists and has got at least as far as rank `k`. -/
def reached (tasks : List StopTask) (k i : Nat) : Prop :=
  ∃ t, tasks[i]? = some t ∧ k ≤ t.rank

/-- The value the goroutine of resource `i` sends on `errChans` (lines 91-95). -/
def sentValue (sp : subProcess) (ctx : Context) (i : Nat) : GoError :=
  match sp.resources[i]? with
  | some res =>
    match res.stop ctx with
    | some (some err) => some (stopErrorf i res.name err)
    | _ => none
  | none => none

/-- The call `Stop(ctx)` of resource `i` returns. -/
def stopReturns (sp : subProcess) (ctx : Context) (i : Nat) : Prop :=
  ∃ res e, sp.resources[i]? = some res ∧ res.stop ctx = some e

/-- What holds of every state a call `Stop(ctx)` can be in. -/
structure Stop.Inv (sp : subProcess) (ctx : Context) (s : StopState) : Prop where
  len : s.tasks.length = s.idx
  le : s.idx ≤ sp.resources.length
  chan : ∃ buf, s.errChans = some { cap := sp.resources.length, buf := buf } ∧
    (s.errStop = none → buf = s.sends.map (sentValue sp ctx))
  calls_nodup : (s.calls.map Prod.fst).Nodup
  calls_mem : ∀ i, i ∈ s.calls.map Prod.fst ↔ reached s.tasks 1 i
  calls_ctx : ∀ p ∈ s.calls, p.2 = ctx
  rets : ∀ i, reached s.tasks 2 i → stopReturns sp ctx i
  sending : ∀ i e, s.tasks[i]? = some (.sending e) → e = sentValue sp ctx i
  sends_nodup : s.sends.Nodup
  sends_mem : ∀ i, i ∈ s.sends ↔ reached s.tasks 3 i
  wg : ∃ D : List Nat, D.Nodup ∧ (∀ i, i ∈ D ↔ reached s.tasks 4 i) ∧
    s.wg + D.length = s.idx
  fin : ∀ r, s.errStop = some r → s.idx = sp.resources.length ∧ s.wg = 0 ∧
    (∀ i, i < s.idx → reached s.tasks 4 i) ∧
    r = errStopOf (drain (s.sends.map (sentValue sp ctx)))

/-- The schedule of `Stop` in which each goroutine runs to its end as soon as
it is launched: `k` resources from index `i` on, then the return. -/
def Stop.inOrder : Nat → Nat → List StopAction
  | _, 0 => [.finish]
  | i, k + 1 => [.spawn, .call i, .ret i, .send i, .done i] ++ Stop.inOrder (i + 1) k

/-! ## Reading an error message -/

/-- The text `sub` occurs in `s`. -/
def occursIn (sub s : String) : Prop := ∃ a b, s = a ++ sub ++ b

/-- The composite error of the specification: the failures in launch order,
that is by increasing resource index. -/
def launchOrderError (sp : subProcess) (ctx : Context) : GoError :=
  errStopOf (drain ((List.range sp.resources.length).map (sentValue sp ctx)))

/-! ## Example inputs -/

/-- The context `context.Background()`. -/
def background : Context := { err := none, deadline := none }

/-- Two resources whose `Start` blocks and whose `Stop` fails. -/
def twoFailing : subProcess :=
  { shutDownTimeout := 5,
    resources := [{ name := "http", start := none, stop := fun _ => some (some "busy") },
                  { name := "rpc", start := none, stop := fun _ => some (some "stuck") }] }

/-- A resource that stops cleanly and one whose `Stop` fails. -/
def oneFailing : subProcess :=
  { shutDownTimeout := 5,
    resources := [{ name := "http", start := none, stop := fun _ => some none },
                  { name := "rpc", start := none, stop := fun _ => some (some "stuck") }] }

/-- A schedule of `Stop` for two resources on which the goroutine of resource 1
sends before the goroutine of resource 0. -/
def secondFirst : List StopAction :=
  [.spawn, .spawn, .call 0, .call 1, .ret 0, .ret 1, .send 1, .send 0, .done 0, .done 1,
   .finish]

/-- The state `secondFirst` leaves `Stop(background)` of `twoFailing` in. -/
def twoFailingEnd : StopState :=
  { idx := 2, wg := 0, errChans := some { cap := 2, buf := [] },
    tasks := [.exited, .exited], calls := [(0, background), (1, background)],
    sends := [1, 0],
    errStop := some (some
      "resource[1] (%!)(string=rpc) Stop error: stuck;resource[0] (%!)(string=http) Stop error: busy;") }

/-- The state `secondFirst` leaves `Stop(background)` of `oneFailing` in. -/
def oneFailingEnd : StopState :=
  { idx := 2, wg := 0, errChans := some { cap := 2, buf := [] },
    tasks := [.exited, .exited], calls := [(0, background), (1, background)],
    sends := [1, 0],
    errStop := some (some "resource[1] (%!)(string=rpc) Stop error: stuck;") }

/-! ## What a call of `Start` maintains -/

/-- The calling goroutine has not yet reached the call of `Stop` (line 72). -/
def StartPc.early : StartPc → Bool
  | .loop => true
  | .select => true
  | .selected _ => true
  | .stopping _ => false
  | .returned _ => false

/-- The value of the variable `err` once a case of the `select` has run. -/
def StartPc.err? : StartPc → Option GoError
  | .loop => none
  | .select => none
  | .selected e => some e
  | .stopping e => some e
  | .returned e => some e

/-- What holds of every state a call of `Start` can be in. -/
structure Start.Inv (sp : subProcess) (s : StartState) : Prop where
  errChan : s.errChan = none
  early : s.pc.early = true → s.stop = none
  late : s.pc.early = false → ∃ c st, s.stop = some (c, st) ∧ Stop.Inv sp c st
  ret : ∀ r, s.pc = .returned r → ∃ c st r2, s.stop = some (c, st) ∧ st.errStop = some r2
  unsub : s.pc = .loop → s.ch = none ∧ s.relay = []
  sub : s.pc ≠ .loop → s.relay = notifySignals ∧
    ∃ buf, s.ch = some { cap := 1, buf := buf } ∧ ∀ x ∈ buf, x ∈ notifySignals

/-- The move is the delivery of a signal. -/
def StartAction.isSignal : StartAction → Bool
  | .signal _ => true
  | _ => false

/-- The move is one of the outside events the `select` waits for besides a
resource outcome: the caller's context becoming done, or a signal. -/
def StartAction.isTrigger : StartAction → Bool
  | .cancel => true
  | .expire => true
  | .signal _ => true
  | _ => false

/-- No signal has been relayed to `ch` so far: `ch` holds nothing, an `err`
already set is the error of the caller's context, which is done, and so is a
context already handed to `Stop`. -/
structure Start.Quiet (s : StartState) : Prop where
  errChan : s.errChan = none
  ch : ∀ c, s.ch = some c → c.buf = []
  err : ∀ e, s.pc.err? = some e → e = s.ctx.err ∧ e.isSome = true
  stop : ∀ c st, s.stop = some (c, st) → c.err = s.ctx.err ∧ c.err.isSome = true

/-- Nothing the `select` waits for has happened: the caller's context is not
done, `ch` holds nothing, and the calling goroutine has not got past the
`select`. -/
structure Start.Waiting (s : StartState) : Prop where
  errChan : s.errChan = none
  ctx : s.ctx.err = none
  ch : ∀ c, s.ch = some c → c.buf = []
  stop : s.stop = none
  pc : s.pc = .loop ∨ s.pc = .select

/-- One resource whose `Start` returns the error `boom` by itself. -/
def failingStart : subProcess :=
  { shutDownTimeout := 5,
    resources := [{ name := "http", start := some (some "boom"), stop := fun _ => some none }] }

/-- A schedule of `Start` for one resource: the loop and lines 55-56 run, then
the goroutine calls the `Start` of its resource, which returns. -/
def startReturns : List StartAction := [.spawn, .notify, .startCall 0, .startRet 0]

/-- The state `startReturns` leaves `Start(background)` of `failingStart` in. -/
def failingStartState : StartState :=
  { now := 0, ctx := background, idx := 1, files := [(0, 3)],
    tasks := [.sending (some "boom")], errChan := none,
    ch := some { cap := 1, buf := [] }, relay := notifySignals, pc := .select, stop := none }

/-- A schedule of `Start` for two resources up to the `select`. -/
def untilSelect : List StartAction := [.spawn, .spawn, .notify]

/-- The state `untilSelect` leaves `Start(background)` of `oneFailing` in. -/
def waitingState : StartState :=
  { now := 0, ctx := background, idx := 2, files := [(0, 3), (1, 4)],
    tasks := [.spawned, .spawned], errChan := none,
    ch := some { cap := 1, buf := [] }, relay := notifySignals, pc := .select, stop := none }

/-- A schedule of `Start` for two resources on which the caller cancels the
context and the `select` takes that case. -/
def cancelled : List StartAction := [.spawn, .spawn, .notify, .cancel, .selCtx]

/-- The state `cancelled` leaves `Start(background)` of `oneFailing` in. -/
def cancelledState : StartState :=
  { now := 0, ctx := { err := some Canceled, deadline := none }, idx := 2,
    files := [(0, 3), (1, 4)], tasks := [.spawned, .spawned], errChan := none,
    ch := some { cap := 1, buf := [] }, relay := notifySignals,
    pc := .selected (some Canceled), stop := none }

/-- The context `Start` of `oneFailing` hands to `Stop` after `cancelled`. -/
def cancelledStopCtx : Context := { err := some Canceled, deadline := some 5 }

/-- The state of `Start(background)` of `oneFailing` after `cancelled` and
line 69. -/
def cancelledDerived : StartState :=
  { cancelledState with pc := .stopping (some Canceled),
                        stop := some (cancelledStopCtx, Stop.init oneFailing) }

/-- The rest of a schedule of `Start` for two resources once the `select` has
run: line 69, the call of `Stop` on the schedule `secondFirst`, the return. -/
def stopAndReturn : List StartAction :=
  [.derive] ++ secondFirst.map StartAction.stop ++ [.ret]

/-- The state `cancelled` followed by `stopAndReturn` leaves `Start(background)`
of `oneFailing` in. -/
def cancelledEnd : StartState :=
  { cancelledState with
    pc := .returned (some Canceled),
    stop := some (cancelledStopCtx,
      { idx := 2, wg := 0, errChans := some { cap := 2, buf := [] },
        tasks := [.exited, .exited],
        calls := [(0, cancelledStopCtx), (1, cancelledStopCtx)], sends := [1, 0],
        errStop := some (some "resource[1] (%!)(string=rpc) Stop error: stuck;") }) }

/-- Two coordinators that differ at most in what the `Stop` calls of their
resources answer. -/
def sameButStop (sp1 sp2 : subProcess) : Prop :=
  sp1.shutDownTimeout = sp2.shutDownTimeout ∧
  sp1.resources.map (fun r => (r.name, r.start)) =
    sp2.resources.map (fun r => (r.name, r.start))

/-- The state `cancelled` followed by `stopAndReturn` leaves `Start(background)`
of `twoFailing` in. -/
def cancelledEndTwo : StartState :=
  { cancelledState with
    pc := .returned (some Canceled),
    stop := some (cancelledStopCtx,
      { idx := 2, wg := 0, errChans := some { cap := 2, buf := [] },
        tasks := [.exited, .exited],
        calls := [(0, cancelledStopCtx), (1, cancelledStopCtx)], sends := [1, 0],
        errStop := some (some
          "resource[1] (%!)(string=rpc) Stop error: stuck;resource[0] (%!)(string=http) Stop error: busy;") }) }

/-- The state of `Start(background)` of `oneFailing` after `untilSelect`, the
delivery of `SIGTERM`, the case `sig := <-ch` of the `select` and
`stopAndReturn`. -/
def signalledEnd : StartState :=
  { waitingState with
    pc := .returned (some "exit by signal(terminated)"),
    stop := some ({ err := none, deadline := some 5 },
      { idx := 2, wg := 0, errChans := some { cap := 2, buf := [] },
        tasks := [.exited, .exited],
        calls := [(0, { err := none, deadline := some 5 }),
                  (1, { err := none, deadline := some 5 })], sends := [1, 0],
        errStop := some (some "resource[1] (%!)(string=rpc) Stop error: stuck;") }) }

/-- The descriptors `Start` has bound so far: resource `i` to descriptor
`3 + i`, in the order of the loop of lines 46-53, one goroutine launched for
each, and all of them once the loop is over. -/
structure Start.Bound (sp : subProcess) (s : StartState) : Prop where
  files : s.files = (List.range s.idx).map (fun i => (i, 3 + i))
  len : s.tasks.length = s.idx
  le : s.idx ≤ sp.resources.length
  past : s.pc ≠ .loop → s.idx = sp.resources.length

end grace

namespace fstypes

/-!
# fstypes: splitting a string into a slice of values (src/fstypes/string.go)

Go strings are taken to be valid UTF-8 and are embedded as lists of
characters; a slice is an `Option (List α)`, `none` being the nil slice.
The functions of the packages `strings` and `strconv` that the file calls are
embedded from their source in the Go distribution.
-/

/-! ## Package `strings` -/

/-- The function `unicode.IsSpace`. -/
def isSpace (c : Char) : Bool :=
  c.toNat = 9 || c.toNat = 10 || c.toNat = 11 || c.toNat = 12 || c.toNat = 13 ||
  c.toNat = 32 || c.toNat = 0x85 || c.toNat = 0xA0 || c.toNat = 0x1680 ||
  (0x2000 ≤ c.toNat && c.toNat ≤ 0x200a) || c.toNat = 0x2028 || c.toNat = 0x2029 ||
  c.toNat = 0x202f || c.toNat = 0x205f || c.toNat = 0x3000

/-- The function `strings.TrimSpace`: the string without its leading and its
trailing white space. -/
def TrimSpace (s : List Char) : List Char :=
  ((s.dropWhile isSpace).reverse.dropWhile isSpace).reverse

/-- Whether `s` begins with `sep`. -/
def startsWith : List Char → List Char → Bool
  | _, [] => true
  | [], _ :: _ => false
  | c :: s, d :: sep => c == d && startsWith s sep

/-- The loop of `strings.Split` for a separator that is not empty, reading
the input from left to right: `skip` characters of a separator just found are
still to be passed over, `cur` holds the piece being read, last character
first. -/
def splitFrom (sep : List Char) : Nat → List Char → List Char → List (List Char)
  | _, cur, [] => [cur.reverse]
  | skip + 1, cur, _ :: rest => splitFrom sep skip cur rest
  | 0, cur, c :: rest =>
    if startsWith (c :: rest) sep then cur.reverse :: splitFrom sep (sep.length - 1) [] rest
    else splitFrom sep 0 (c :: cur) rest

/-- The function `strings.Split`: `s` cut at every occurrence of `sep`, found
from left to right without overlap; with an empty `sep`, `s` cut after every
character. -/
def Split (s sep : List Char) : List (List Char) :=
  if sep = [] then s.map (fun c => [c]) else splitFrom sep 0 [] s

/-- The function `strings.Join`. -/
def Join (elems : List (List Char)) (sep : List Char) : List Char :=
  match elems with
  | [] => []
  | [e] => e
  | e :: rest => e ++ sep ++ Join rest sep

/-! ## Package `strconv` -/

/-- The two causes of a `*strconv.NumError`. -/
inductive NumError where
  | ErrSyntax
  | ErrRange
  deriving DecidableEq, Repr

/-- The constant `cutoff` of `strconv.ParseUint` for base 10: the least `n`
with `n * 10` above the largest `uint64`. -/
def cutoff10 : Nat := (2 ^ 64 - 1) / 10 + 1

/-- The loop of `strconv.ParseUint(s, 10, bitSize)` over the bytes of `s`, with
`n` the value read so far and `maxVal = 1<<bitSize - 1`; the result is the
value returned and the error. -/
def parseUintLoop (maxVal : Nat) : List Char → Nat → Nat × Option NumError
  | [], n => (n, none)
  | c :: rest, n =>
    if 48 ≤ c.toNat ∧ c.toNat ≤ 57 then
      if n ≥ cutoff10 then (maxVal, some .ErrRange)
      else if n * 10 + (c.toNat - 48) > maxVal then (maxVal, some .ErrRange)
      else parseUintLoop maxVal rest (n * 10 + (c.toNat - 48))
    else (0, some .ErrSyntax)

/-- The function `strconv.ParseUint(s, 10, bitSize)` for `bitSize` 32 or 64. -/
def ParseUint (s : List Char) (bitSize : Nat) : Nat × Option NumError :=
  if s = [] then (0, some .ErrSyntax) else parseUintLoop (2 ^ bitSize - 1) s 0

/-- The conversion `int64(x)`: `x` modulo `2^64`, as a signed number. -/
def toInt64 (x : Int) : Int := (x + 2 ^ 63) % 2 ^ 64 - 2 ^ 63

/-- The conversion `int32(x)`. -/
def toInt32 (x : Int) : Int := (x + 2 ^ 31) % 2 ^ 32 - 2 ^ 31

/-- The conversion `uint32(x)`. -/
def toUint32 (x : Nat) : Nat := x % 2 ^ 32

/-- The function `strconv.ParseInt(s, 10, bitSize)` for `bitSize` 32 or 64. -/
def ParseInt (s : List Char) (bitSize : Nat) : Int × Option NumError :=
  match s with
  | [] => (0, some .ErrSyntax)
  | c :: rest =>
    let neg := c.toNat = 45
    let digits := if c.toNat = 43 ∨ c.toNat = 45 then rest else c :: rest
    match ParseUint digits bitSize with
    | (_, some .ErrSyntax) => (0, some .ErrSyntax)
    | (un, _) =>
      let cutoff := 2 ^ (bitSize - 1)
      if ¬ neg ∧ un ≥ cutoff then (toInt64 (cutoff - 1 : Nat), some .ErrRange)
      else if neg ∧ un > cutoff then (toInt64 (- toInt64 (cutoff : Nat)), some .ErrRange)
      else
        let n := toInt64 un
        (if neg then toInt64 (- n) else n, none)

/-- The function `strconv.Atoi`, on a platform whose `int` has 64 bits. -/
def Atoi (s : List Char) : Int × Option NumError := ParseInt s 64

/-! ## The type `String` and its methods -/

/-- The error a conversion returns (lines 41, 62, 83, 104, 125): the operands
of `fmt.Errorf`, that is the index of the piece, the piece and the error of
`strconv`. -/
structure ConvError where
  index : Nat
  piece : List Char
  cause : NumError
  deriving DecidableEq, Repr

/-- The method `split` (lines 16-25). -/
def split (s sep : List Char) : Option (List (List Char)) :=
  if s = [] then none
  else if TrimSpace s = [] then none
  else some (Split s sep)

/-- The loop shared by the six conversions (lines 34-44 and its five copies)
from index `i` on: `parse` is the call to `strconv` together with the
conversion of its result, `result` the slice built so far. -/
def convert {α : Type} (parse : List Char → α × Option NumError) :
    List (List Char) → Nat → List α → Option (List α) × Option ConvError
  | [], _, result => (some result, none)
  | piece :: rest, i, result =>
    if TrimSpace piece = [] then convert parse rest (i + 1) result
    else
      match parse (TrimSpace piece) with
      | (vi, none) => convert parse rest (i + 1) (result ++ [vi])
      | (_, some err) => (none, some { index := i, piece := piece, cause := err })

/-- The body shared by the six conversions: lines 29-33 and 45 and their
copies. -/
def toSlice {α : Type} (parse : List Char → α × Option NumError) (s sep : List Char) :
    Option (List α) × Option ConvError :=
  match split s sep with
  | none => (none, none)
  | some vs => if vs.length = 0 then (none, none) else convert parse vs 0 []

/-- The method `ToInt64Slice` (lines 28-46). -/
def ToInt64Slice (s sep : List Char) : Option (List Int) × Option ConvError :=
  toSlice (fun v => ParseInt v 64) s sep

/-- The method `ToIntSlice` (lines 49-67). -/
def ToIntSlice (s sep : List Char) : Option (List Int) × Option ConvError :=
  toSlice Atoi s sep

/-- The method `ToInt32Slice` (lines 70-88): the call is
`strconv.ParseInt(v, 10, 32)` and the result is converted with `int32`. -/
def ToInt32Slice (s sep : List Char) : Option (List Int) × Option ConvError :=
  toSlice (fun v => (toInt32 (ParseInt v 32).1, (ParseInt v 32).2)) s sep

/-- The method `ToUint64Slice` (lines 91-109). -/
def ToUint64Slice (s sep : List Char) : Option (List Nat) × Option ConvError :=
  toSlice (fun v => ParseUint v 64) s sep

/-- The method `ToUint32Slice` (lines 112-130): the call is
`strconv.ParseUint(v, 10, 64)` and the result is converted with `uint32`. -/
def ToUint32Slice (s sep : List Char) : Option (List Nat) × Option ConvError :=
  toSlice (fun v => (toUint32 (ParseUint v 64).1, (ParseUint v 64).2)) s sep

/-- The method `ToStrSlice` (lines 134-148). -/
def ToStrSlice (s sep : List Char) : Option (List (List Char)) × Option ConvError :=
  toSlice (fun v => (v, none)) s sep

/-- The elements of a slice, none for the nil slice. -/
def elems {α : Type} (sl : Option (List α)) : List α := sl.getD []

/-! ## The words of the claims -/

/-- The pieces that are not blank, trimmed: what is left of `vs` once every
piece is trimmed and the empty ones are dropped. -/
def nonblank (vs : List (List Char)) : List (List Char) :=
  (vs.map TrimSpace).filter (fun v => !v.isEmpty)

/-- The number a run of decimal digits denotes, read after the value `n`;
`none` when a character is not one of `0` to `9`. -/
def decimalNat : List Char → Nat → Option Nat
  | [], n => some n
  | c :: rest, n =>
    if 48 ≤ c.toNat ∧ c.toNat ≤ 57 then decimalNat rest (n * 10 + (c.toNat - 48)) else none

/-- The base-10 integer a text denotes: an optional sign `+` or `-`, then
one or more decimal digits. -/
def decimalInt (v : List Char) : Option Int :=
  match v with
  | [] => none
  | c :: rest =>
    let digits := if c.toNat = 43 ∨ c.toNat = 45 then rest else c :: rest
    if digits = [] then none
    else Option.map (fun n : Nat => if c.toNat = 45 then - (n : Int) else (n : Int))
      (decimalNat digits 0)

/-- The decimal digits of `n`, the least significant first; `fuel` bounds
their number. -/
def digitsOf : Nat → Nat → List Nat
  | 0, _ => []
  | fuel + 1, n => if n = 0 then [] else (n % 10) :: digitsOf fuel (n / 10)

/-- The base-10 rendering of a natural number. -/
def formatNat (n : Nat) : List Char :=
  if n = 0 then [Char.ofNat 48] else ((digitsOf n n).reverse).map (fun d => Char.ofNat (48 + d))

/-- The base-10 rendering of an integer, `strconv.FormatInt(x, 10)`: a `-`
for a negative number, then the digits of its magnitude. -/
def FormatInt (x : Int) : List Char :=
  if x < 0 then Char.ofNat 45 :: formatNat x.natAbs else formatNat x.natAbs

end fstypes

namespace grace

/-! # Theorems -/

/-! ## Invariants of `Stop` -/

theorem reached_set {tasks : List StopTask} {i : Nat} {t0 : StopTask} (t1 : StopTask)
    (h : tasks[i]? = some t0) (k j : Nat) :
    reached (tasks.set i t1) k j ↔ if j = i then k ≤ t1.rank else reached tasks k j := by
  have hi : i < tasks.length := (List.getElem?_eq_some_iff.1 h).1
  unfold reached
  rw [List.getElem?_set]
  by_cases hji : j = i
  · subst hji
    simp [hi]
  · have : ¬ i = j := fun e => hji e.symm
    simp [hji, this]

theorem reached_concat (tasks : List StopTask) {k : Nat} (hk : 0 < k) (j : Nat) :
    reached (tasks ++ [StopTask.spawned]) k j ↔ reached tasks k j := by
  unfold reached
  rw [List.getElem?_append]
  by_cases hj : j < tasks.length
  · simp [hj]
  · simp only [hj, if_false]
    have hnone : tasks[j]? = none := List.getElem?_eq_none (by omega)
    constructor
    · rintro ⟨t, ht, hr⟩
      rcases Nat.eq_zero_or_pos (j - tasks.length) with h0 | h0
      · rw [h0] at ht
        simp at ht
        subst ht
        simp [StopTask.rank] at hr
        omega
      · have : ([StopTask.spawned] : List StopTask)[j - tasks.length]? = none :=
          List.getElem?_eq_none (by simp only [List.length_singleton]; omega)
        rw [this] at ht
        cases ht
    · rintro ⟨t, ht, _⟩
      rw [hnone] at ht
      cases ht

theorem reached_lt {tasks : List StopTask} {k i : Nat} (h : reached tasks k i) :
    i < tasks.length := by
  obtain ⟨t, ht, _⟩ := h
  exact (List.getElem?_eq_some_iff.1 ht).1

theorem reached_mono {tasks : List StopTask} {k l i : Nat} (hkl : k ≤ l)
    (h : reached tasks l i) : reached tasks k i := by
  obtain ⟨t, ht, hr⟩ := h
  exact ⟨t, ht, le_trans hkl hr⟩

theorem Stop.inv_init (sp : subProcess) (ctx : Context) : Stop.Inv sp ctx (Stop.init sp) := by
  refine ⟨rfl, Nat.zero_le _, ⟨[], rfl, fun _ => rfl⟩, List.nodup_nil, ?_, ?_, ?_, ?_,
    List.nodup_nil, ?_, ⟨[], List.nodup_nil, ?_, rfl⟩, ?_⟩
  all_goals simp [Stop.init, reached]

theorem Stop.inv_spawn {sp : subProcess} {ctx : Context} {s t : StopState}
    (hs : Stop.Inv sp ctx s) (h : Stop.step sp ctx s .spawn = some t) : Stop.Inv sp ctx t := by
  simp only [Stop.step] at h
  split at h
  · rename_i hg
    cases h
    obtain ⟨hnone, hlt⟩ := hg
    have hnone2 : s.errStop = none := by simpa using hnone
    obtain ⟨D, hD, hDm, hDw⟩ := hs.wg
    refine ⟨?_, ?_, ?_, hs.calls_nodup, ?_, hs.calls_ctx, ?_, ?_, hs.sends_nodup, ?_,
      ⟨D, hD, ?_, ?_⟩, ?_⟩
    · simp [hs.len]
    · exact hlt
    · exact hs.chan
    · intro i
      rw [reached_concat _ (by decide)]
      exact hs.calls_mem i
    · intro i hi
      rw [reached_concat _ (by decide)] at hi
      exact hs.rets i hi
    · intro i e hi
      have : reached (s.tasks ++ [StopTask.spawned]) 2 i := ⟨_, hi, by simp [StopTask.rank]⟩
      rw [reached_concat _ (by decide)] at this
      obtain ⟨u, hu, _⟩ := this
      have hlt2 : i < s.tasks.length := (List.getElem?_eq_some_iff.1 hu).1
      rw [List.getElem?_append_left hlt2] at hi
      exact hs.sending i e hi
    · intro i
      rw [reached_concat _ (by decide)]
      exact hs.sends_mem i
    · intro i
      rw [reached_concat _ (by decide)]
      exact hDm i
    · show s.wg + 1 + (D.length : Int) = ((s.idx + 1 : Nat) : Int)
      push_cast
      omega
    · intro r hr
      rw [hnone2] at hr
      cases hr
  · cases h

theorem covers_of_nodup_length {D : List Nat} {n : Nat} (hD : D.Nodup)
    (hlt : ∀ i ∈ D, i < n) (hlen : D.length = n) : ∀ i, i < n → i ∈ D := by
  intro i hi
  have hsub : D.toFinset ⊆ Finset.range n := by
    intro x hx
    exact Finset.mem_range.2 (hlt x (List.mem_toFinset.1 hx))
  have hcard : (Finset.range n).card ≤ D.toFinset.card := by
    rw [List.toFinset_card_of_nodup hD, Finset.card_range, hlen]
  have heq := Finset.eq_of_subset_of_card_le hsub hcard
  have : i ∈ D.toFinset := by
    rw [heq]
    exact Finset.mem_range.2 hi
  exact List.mem_toFinset.1 this

theorem Stop.running_of_task {sp : subProcess} {ctx : Context} {s : StopState}
    (hs : Stop.Inv sp ctx s) {i : Nat} {t0 : StopTask} (h : s.tasks[i]? = some t0)
    (hr : t0.rank < 4) : s.errStop = none := by
  cases he : s.errStop with
  | none => rfl
  | some r =>
    obtain ⟨_, _, hall, _⟩ := hs.fin r he
    have hi : i < s.idx := by
      rw [← hs.len]
      exact (List.getElem?_eq_some_iff.1 h).1
    obtain ⟨t, ht, h4⟩ := hall i hi
    rw [h] at ht
    cases ht
    omega

theorem Stop.inv_call {sp : subProcess} {ctx : Context} {s t : StopState} {i : Nat}
    (hs : Stop.Inv sp ctx s) (h : Stop.step sp ctx s (.call i) = some t) :
    Stop.Inv sp ctx t := by
  simp only [Stop.step] at h
  split at h
  · rename_i hti
    cases h
    have hnone := Stop.running_of_task hs hti (by decide)
    have hnot : ∀ k, 0 < k → ¬ reached s.tasks k i := by
      rintro k hk ⟨u, hu, hr⟩
      rw [hti] at hu
      cases hu
      simp [StopTask.rank] at hr
      omega
    obtain ⟨D, hD, hDm, hDw⟩ := hs.wg
    refine ⟨?_, hs.le, hs.chan, ?_, ?_, ?_, ?_, ?_, hs.sends_nodup, ?_,
      ⟨D, hD, ?_, hDw⟩, ?_⟩
    · simp [hs.len]
    · simp only [List.map_append, List.map_cons, List.map_nil]
      rw [List.nodup_append]
      refine ⟨hs.calls_nodup, List.nodup_singleton _, ?_⟩
      intro a ha hb
      simp only [List.mem_singleton] at hb
      subst hb
      exact hnot 1 (by decide) ((hs.calls_mem a).1 ha)
    · intro j
      rw [reached_set _ hti]
      simp only [List.map_append, List.map_cons, List.map_nil, List.mem_append,
        List.mem_singleton]
      by_cases hji : j = i
      · simp [hji, StopTask.rank]
      · simp only [hji, or_false, if_false]
        exact hs.calls_mem j
    · intro p hp
      simp only [List.mem_append, List.mem_singleton] at hp
      rcases hp with hp | hp
      · exact hs.calls_ctx p hp
      · subst hp
        rfl
    · intro j hj
      rw [reached_set _ hti] at hj
      by_cases hji : j = i
      · simp [hji, StopTask.rank] at hj
      · simp only [hji, if_false] at hj
        exact hs.rets j hj
    · intro j e hj
      rw [List.getElem?_set] at hj
      by_cases hji : i = j
      · subst hji
        have hi : i < s.tasks.length := (List.getElem?_eq_some_iff.1 hti).1
        simp [hi] at hj
      · simp only [hji, if_false] at hj
        exact hs.sending j e hj
    · intro j
      rw [reached_set _ hti]
      by_cases hji : j = i
      · subst hji
        simp only [if_true, StopTask.rank]
        constructor
        · intro hm
          exact absurd ((hs.sends_mem j).1 hm) (hnot 3 (by decide))
        · intro hm
          omega
      · simp only [hji, if_false]
        exact hs.sends_mem j
    · intro j
      rw [reached_set _ hti]
      by_cases hji : j = i
      · subst hji
        simp only [if_true, StopTask.rank]
        constructor
        · intro hm
          exact absurd ((hDm j).1 hm) (hnot 4 (by decide))
        · intro hm
          omega
      · simp only [hji, if_false]
        exact hDm j
    · intro r hr
      rw [show s.errStop = none from hnone] at hr
      cases hr
  all_goals cases h

theorem reached_self_iff {tasks : List StopTask} {i : Nat} {t0 : StopTask}
    (hti : tasks[i]? = some t0) (k : Nat) : reached tasks k i ↔ k ≤ t0.rank := by
  constructor
  · rintro ⟨u, hu, hr⟩
    rw [hti] at hu
    cases hu
    exact hr
  · intro hr
    exact ⟨t0, hti, hr⟩

theorem mem_iff_reached_set {L : List Nat} {tasks : List StopTask} {i k : Nat}
    {t0 : StopTask} (t1 : StopTask) (hti : tasks[i]? = some t0)
    (hL : ∀ j, j ∈ L ↔ reached tasks k j) (h01 : k ≤ t0.rank ↔ k ≤ t1.rank) :
    ∀ j, j ∈ L ↔ reached (tasks.set i t1) k j := by
  intro j
  rw [reached_set t1 hti]
  by_cases hji : j = i
  · subst hji
    simp only [if_true]
    rw [hL j, reached_self_iff hti, h01]
  · simp only [hji, if_false]
    exact hL j

theorem mem_iff_reached_set_new {L : List Nat} {tasks : List StopTask} {i k : Nat}
    {t0 : StopTask} (t1 : StopTask) (hti : tasks[i]? = some t0)
    (hL : ∀ j, j ∈ L ↔ reached tasks k j) (h0 : ¬ k ≤ t0.rank) (h1 : k ≤ t1.rank) :
    (∀ j, j ∈ L ++ [i] ↔ reached (tasks.set i t1) k j) ∧ (L.Nodup → (L ++ [i]).Nodup) := by
  have hnot : i ∉ L := fun hm => h0 ((reached_self_iff hti k).1 ((hL i).1 hm))
  constructor
  · intro j
    rw [reached_set t1 hti]
    simp only [List.mem_append, List.mem_singleton]
    by_cases hji : j = i
    · simp [hji, h1]
    · simp only [hji, or_false, if_false]
      exact hL j
  · intro hnd
    rw [List.nodup_append]
    refine ⟨hnd, List.nodup_singleton _, ?_⟩
    intro a ha hb
    simp only [List.mem_singleton] at hb
    subst hb
    exact hnot ha

theorem imp_reached_set {P : Nat → Prop} {tasks : List StopTask} {i k : Nat}
    {t0 : StopTask} (t1 : StopTask) (hti : tasks[i]? = some t0)
    (hP : ∀ j, reached tasks k j → P j) (hi : k ≤ t1.rank → P i) :
    ∀ j, reached (tasks.set i t1) k j → P j := by
  intro j hj
  rw [reached_set t1 hti] at hj
  by_cases hji : j = i
  · subst hji
    simp only [if_true] at hj
    exact hi hj
  · simp only [hji, if_false] at hj
    exact hP j hj

theorem sending_set {sp : subProcess} {ctx : Context} {tasks : List StopTask} {i : Nat}
    {t0 : StopTask} (t1 : StopTask) (hti : tasks[i]? = some t0)
    (hS : ∀ j e, tasks[j]? = some (.sending e) → e = sentValue sp ctx j)
    (hi : ∀ e, t1 = .sending e → e = sentValue sp ctx i) :
    ∀ j e, (tasks.set i t1)[j]? = some (.sending e) → e = sentValue sp ctx j := by
  intro j e hj
  rw [List.getElem?_set] at hj
  have hlt : i < tasks.length := (List.getElem?_eq_some_iff.1 hti).1
  by_cases hji : i = j
  · subst hji
    simp only [if_true, hlt, Option.some.injEq] at hj
    exact hi e hj
  · simp only [hji, if_false] at hj
    exact hS j e hj

theorem Stop.inv_ret {sp : subProcess} {ctx : Context} {s t : StopState} {i : Nat}
    (hs : Stop.Inv sp ctx s) (h : Stop.step sp ctx s (.ret i) = some t) :
    Stop.Inv sp ctx t := by
  simp only [Stop.step] at h
  split at h
  · rename_i res hti hres
    have hnone := Stop.running_of_task hs hti (by decide)
    obtain ⟨D, hD, hDm, hDw⟩ := hs.wg
    have key : ∀ e0, res.stop ctx = some e0 →
        Stop.Inv sp ctx { s with tasks := s.tasks.set i (.sending (sentValue sp ctx i)) } := by
      intro e0 he0
      refine ⟨?_, hs.le, hs.chan, hs.calls_nodup, ?_, hs.calls_ctx, ?_, ?_, hs.sends_nodup, ?_,
        ⟨D, hD, ?_, hDw⟩, ?_⟩
      · simp [hs.len]
      · exact mem_iff_reached_set _ hti hs.calls_mem (by simp [StopTask.rank])
      · exact imp_reached_set _ hti hs.rets (fun _ => ⟨res, e0, hres, he0⟩)
      · exact sending_set _ hti hs.sending (fun e he => by cases he; rfl)
      · exact mem_iff_reached_set _ hti hs.sends_mem (by simp [StopTask.rank])
      · exact mem_iff_reached_set _ hti hDm (by simp [StopTask.rank])
      · intro r hr
        rw [show s.errStop = none from hnone] at hr
        cases hr
    split at h
    · rename_i err herr
      cases h
      have hv : sentValue sp ctx i = some (stopErrorf i res.name err) := by
        simp [sentValue, hres, herr]
      rw [← hv]
      exact key _ herr
    · rename_i herr
      cases h
      have hv : sentValue sp ctx i = none := by
        simp [sentValue, hres, herr]
      rw [← hv]
      exact key _ herr
    · cases h
  all_goals cases h

theorem Stop.inv_send {sp : subProcess} {ctx : Context} {s t : StopState} {i : Nat}
    (hs : Stop.Inv sp ctx s) (h : Stop.step sp ctx s (.send i) = some t) :
    Stop.Inv sp ctx t := by
  simp only [Stop.step] at h
  split at h
  · rename_i e hti
    have hnone := Stop.running_of_task hs hti (by simp [StopTask.rank])
    obtain ⟨D, hD, hDm, hDw⟩ := hs.wg
    obtain ⟨buf, hch, hbuf⟩ := hs.chan
    have he : e = sentValue sp ctx i := hs.sending i e hti
    split at h
    · rename_i ch hsend
      cases h
      rw [hch] at hsend
      simp only [chanSend] at hsend
      split at hsend
      · cases hsend
        have hnew := mem_iff_reached_set_new StopTask.deferred hti hs.sends_mem
          (by simp [StopTask.rank]) (by simp [StopTask.rank])
        refine ⟨?_, hs.le, ⟨buf ++ [e], rfl, ?_⟩, hs.calls_nodup, ?_, hs.calls_ctx, ?_, ?_,
          hnew.2 hs.sends_nodup, hnew.1, ⟨D, hD, ?_, hDw⟩, ?_⟩
        · simp [hs.len]
        · intro _
          simp only [List.map_append, List.map_cons, List.map_nil]
          rw [hbuf hnone, he]
        · exact mem_iff_reached_set _ hti hs.calls_mem (by simp [StopTask.rank])
        · exact imp_reached_set _ hti hs.rets
            (fun _ => hs.rets i ⟨_, hti, by simp [StopTask.rank]⟩)
        · exact sending_set _ hti hs.sending (fun e he => by cases he)
        · exact mem_iff_reached_set _ hti hDm (by simp [StopTask.rank])
        · intro r hr
          rw [show s.errStop = none from hnone] at hr
          cases hr
      · cases hsend
    · cases h
  all_goals cases h

theorem Stop.inv_done {sp : subProcess} {ctx : Context} {s t : StopState} {i : Nat}
    (hs : Stop.Inv sp ctx s) (h : Stop.step sp ctx s (.done i) = some t) :
    Stop.Inv sp ctx t := by
  simp only [Stop.step] at h
  split at h
  · rename_i hti
    cases h
    have hnone := Stop.running_of_task hs hti (by decide)
    obtain ⟨D, hD, hDm, hDw⟩ := hs.wg
    have hnew := mem_iff_reached_set_new StopTask.exited hti hDm
      (by simp [StopTask.rank]) (by simp [StopTask.rank])
    refine ⟨?_, hs.le, hs.chan, hs.calls_nodup, ?_, hs.calls_ctx, ?_, ?_, hs.sends_nodup, ?_,
      ⟨D ++ [i], hnew.2 hD, hnew.1, ?_⟩, ?_⟩
    · simp [hs.len]
    · exact mem_iff_reached_set _ hti hs.calls_mem (by simp [StopTask.rank])
    · exact imp_reached_set _ hti hs.rets
        (fun _ => hs.rets i ⟨_, hti, by simp [StopTask.rank]⟩)
    · exact sending_set _ hti hs.sending (fun e he => by cases he)
    · exact mem_iff_reached_set _ hti hs.sends_mem (by simp [StopTask.rank])
    · show s.wg - 1 + ((D ++ [i]).length : Int) = (s.idx : Int)
      simp only [List.length_append, List.length_singleton]
      push_cast
      omega
    · intro r hr
      rw [show s.errStop = none from hnone] at hr
      cases hr
  all_goals cases h

theorem Stop.inv_finish {sp : subProcess} {ctx : Context} {s t : StopState}
    (hs : Stop.Inv sp ctx s) (h : Stop.step sp ctx s .finish = some t) :
    Stop.Inv sp ctx t := by
  simp only [Stop.step] at h
  split at h
  · rename_i hg
    obtain ⟨hnone, hidx, hwg⟩ := hg
    have hnone2 : s.errStop = none := by simpa using hnone
    obtain ⟨D, hD, hDm, hDw⟩ := hs.wg
    obtain ⟨buf, hch, hbuf⟩ := hs.chan
    rw [hch] at h
    cases h
    have hlen : D.length = s.idx := by
      have : (D.length : Int) = (s.idx : Int) := by omega
      exact_mod_cast this
    have hall : ∀ i, i < s.idx → reached s.tasks 4 i := by
      intro i hi
      have hm := covers_of_nodup_length hD
        (fun j hj => by rw [← hs.len]; exact reached_lt ((hDm j).1 hj)) hlen i hi
      exact (hDm i).1 hm
    refine ⟨hs.len, hs.le, ⟨[], rfl, ?_⟩, hs.calls_nodup, hs.calls_mem, hs.calls_ctx, hs.rets,
      hs.sending, hs.sends_nodup, hs.sends_mem, ⟨D, hD, hDm, hDw⟩, ?_⟩
    · intro hc
      cases hc
    · intro r hr
      cases hr
      refine ⟨hidx, hwg, hall, ?_⟩
      rw [hbuf hnone2]
  · cases h

theorem Stop.inv_step {sp : subProcess} {ctx : Context} {s t : StopState} (a : StopAction)
    (hs : Stop.Inv sp ctx s) (h : Stop.step sp ctx s a = some t) : Stop.Inv sp ctx t := by
  cases a with
  | spawn => exact Stop.inv_spawn hs h
  | call i => exact Stop.inv_call hs h
  | ret i => exact Stop.inv_ret hs h
  | send i => exact Stop.inv_send hs h
  | done i => exact Stop.inv_done hs h
  | finish => exact Stop.inv_finish hs h

theorem Stop.inv_run {sp : subProcess} {ctx : Context} (acts : List StopAction) :
    ∀ {s t : StopState}, Stop.Inv sp ctx s → Stop.run sp ctx s acts = some t →
      Stop.Inv sp ctx t := by
  induction acts with
  | nil =>
    intro s t hs h
    simp only [Stop.run] at h
    cases h
    exact hs
  | cons a as ih =>
    intro s t hs h
    simp only [Stop.run] at h
    split at h
    · rename_i u hu
      exact ih (Stop.inv_step a hs hu) h
    · cases h

/-! ## The aggregation of lines 102-112 -/

theorem drain_foldl (acc : String) (buf : List GoError) :
    buf.foldl (fun bd err =>
      match err with
      | some m => bd ++ m ++ ";"
      | none => bd) acc = acc ++ drain buf := by
  induction buf generalizing acc with
  | nil => simp [drain]
  | cons e rest ih =>
    cases e with
    | none =>
      simp only [List.foldl_cons, drain]
      rw [ih, ih ""]
      simp
    | some m =>
      simp only [List.foldl_cons, drain]
      rw [ih, ih ("" ++ m ++ ";")]
      simp [String.append_assoc]

theorem drain_nil : drain [] = "" := rfl

theorem drain_cons_none (buf : List GoError) : drain (none :: buf) = drain buf := by
  simp only [drain, List.foldl_cons]

theorem drain_cons_some (m : String) (buf : List GoError) :
    drain (some m :: buf) = m ++ ";" ++ drain buf := by
  have h := drain_foldl ("" ++ m ++ ";") buf
  simp only [drain, List.foldl_cons] at h ⊢
  rw [h]
  simp

theorem drain_append (a b : List GoError) : drain (a ++ b) = drain a ++ drain b := by
  induction a with
  | nil => simp [drain_nil]
  | cons e rest ih =>
    cases e with
    | none => simp only [List.cons_append, drain_cons_none, ih]
    | some m => simp only [List.cons_append, drain_cons_some, ih, String.append_assoc]

theorem drain_length_eq_zero (buf : List GoError) :
    (drain buf).length = 0 ↔ ∀ e ∈ buf, e = none := by
  induction buf with
  | nil => simp [drain_nil]
  | cons e rest ih =>
    cases e with
    | none => simp [drain_cons_none, ih]
    | some m =>
      simp only [drain_cons_some, String.length_append, List.mem_cons, forall_eq_or_imp]
      constructor
      · intro h
        have : (";" : String).length = 1 := by decide
        omega
      · rintro ⟨h, _⟩
        cases h

theorem errStopOf_eq_none (buf : List GoError) :
    errStopOf (drain buf) = none ↔ ∀ e ∈ buf, e = none := by
  unfold errStopOf
  rw [← drain_length_eq_zero]
  by_cases h : (drain buf).length = 0 <;> simp [h]

theorem errStopOf_of_some {buf : List GoError} {m : String} (h : some m ∈ buf) :
    errStopOf (drain buf) = some (drain buf) := by
  unfold errStopOf
  have hne : ¬ (drain buf).length = 0 := by
    intro h0
    have := (drain_length_eq_zero buf).1 h0 _ h
    cases this
  simp [hne]

/-! ## What holds once `Stop` has returned -/

theorem Stop.sends_perm {sp : subProcess} {ctx : Context} {s : StopState} {r : GoError}
    (hs : Stop.Inv sp ctx s) (hr : s.errStop = some r) :
    s.sends.Perm (List.range sp.resources.length) := by
  obtain ⟨hidx, _, hall, _⟩ := hs.fin r hr
  rw [List.perm_ext_iff_of_nodup hs.sends_nodup (List.nodup_range _)]
  intro i
  rw [List.mem_range, hs.sends_mem]
  constructor
  · intro h
    rw [← hidx, ← hs.len]
    exact reached_lt h
  · intro h
    exact reached_mono (by decide) (hall i (by rw [hidx]; exact h))

theorem Stop.calls_fst_perm {sp : subProcess} {ctx : Context} {s : StopState} {r : GoError}
    (hs : Stop.Inv sp ctx s) (hr : s.errStop = some r) :
    (s.calls.map Prod.fst).Perm (List.range sp.resources.length) := by
  obtain ⟨hidx, _, hall, _⟩ := hs.fin r hr
  rw [List.perm_ext_iff_of_nodup hs.calls_nodup (List.nodup_range _)]
  intro i
  rw [List.mem_range, hs.calls_mem]
  constructor
  · intro h
    rw [← hidx, ← hs.len]
    exact reached_lt h
  · intro h
    exact reached_mono (by decide) (hall i (by rw [hidx]; exact h))

theorem Stop.calls_perm {sp : subProcess} {ctx : Context} {s : StopState} {r : GoError}
    (hs : Stop.Inv sp ctx s) (hr : s.errStop = some r) :
    s.calls.Perm ((List.range sp.resources.length).map (fun i => (i, ctx))) := by
  have h1 := (Stop.calls_fst_perm hs hr).map (fun i => (i, ctx))
  have h2 : (s.calls.map Prod.fst).map (fun i => (i, ctx)) = s.calls := by
    rw [List.map_map]
    conv_rhs => rw [← List.map_id s.calls]
    apply List.map_congr_left
    intro p hp
    have := hs.calls_ctx p hp
    cases p with
    | mk a b =>
      simp only [Function.comp, id]
      simp only at this
      rw [this]
  rw [h2] at h1
  exact h1

theorem Stop.all_return {sp : subProcess} {ctx : Context} {s : StopState} {r : GoError}
    (hs : Stop.Inv sp ctx s) (hr : s.errStop = some r) :
    ∀ i, i < sp.resources.length → stopReturns sp ctx i := by
  obtain ⟨hidx, _, hall, _⟩ := hs.fin r hr
  intro i hi
  exact hs.rets i (reached_mono (by decide) (hall i (by rw [hidx]; exact hi)))

theorem stopReturns_iff (sp : subProcess) (ctx : Context) :
    (∀ i, i < sp.resources.length → stopReturns sp ctx i) ↔
      ∀ res ∈ sp.resources, (res.stop ctx).isSome = true := by
  constructor
  · intro h res hres
    obtain ⟨i, hi, hget⟩ := List.getElem_of_mem hres
    obtain ⟨res2, e, h2, he⟩ := h i hi
    rw [List.getElem?_eq_getElem hi, hget] at h2
    cases h2
    simp [he]
  · intro h i hi
    have hm : sp.resources[i] ∈ sp.resources := List.getElem_mem _
    have := h _ hm
    obtain ⟨e, he⟩ := Option.isSome_iff_exists.1 this
    exact ⟨_, e, List.getElem?_eq_getElem hi, he⟩

theorem sentValue_eq_none_iff {sp : subProcess} {ctx : Context} {i : Nat} {res : Resource}
    (hres : sp.resources[i]? = some res) (hret : (res.stop ctx).isSome = true) :
    sentValue sp ctx i = none ↔ res.stop ctx = some none := by
  obtain ⟨e, he⟩ := Option.isSome_iff_exists.1 hret
  cases e with
  | none => simp [sentValue, hres, he]
  | some m => simp [sentValue, hres, he]

theorem sentValue_of_error {sp : subProcess} {ctx : Context} {i : Nat} {res : Resource}
    {m : String} (hres : sp.resources[i]? = some res) (hm : res.stop ctx = some (some m)) :
    sentValue sp ctx i = some (stopErrorf i res.name m) := by
  simp [sentValue, hres, hm]

/-- Whether `Stop` returns nil, in terms of what the resources answer. -/
theorem Stop.result_none_iff {sp : subProcess} {ctx : Context} {s : StopState} {r : GoError}
    (hs : Stop.Inv sp ctx s) (hr : s.errStop = some r) :
    r = none ↔ ∀ res ∈ sp.resources, res.stop ctx = some none := by
  obtain ⟨_, _, _, hrv⟩ := hs.fin r hr
  have hperm := Stop.sends_perm hs hr
  have hall := (stopReturns_iff sp ctx).1 (Stop.all_return hs hr)
  rw [hrv, errStopOf_eq_none]
  simp only [List.mem_map, forall_exists_index, and_imp, forall_apply_eq_imp_iff₂]
  constructor
  · intro h res hres
    obtain ⟨i, hi, hget⟩ := List.getElem_of_mem hres
    have hi2 : i ∈ s.sends := hperm.mem_iff.2 (List.mem_range.2 hi)
    have hres2 : sp.resources[i]? = some res := by
      rw [List.getElem?_eq_getElem hi, hget]
    exact (sentValue_eq_none_iff hres2 (hall res hres)).1 (h i hi2)
  · intro h i hi
    have hi2 : i < sp.resources.length := List.mem_range.1 (hperm.mem_iff.1 hi)
    have hm : sp.resources[i] ∈ sp.resources := List.getElem_mem _
    exact (sentValue_eq_none_iff (List.getElem?_eq_getElem hi2) (hall _ hm)).2 (h _ hm)

/-! ## `Stop` returns when every resource does -/

theorem concat_set {α : Type} (l : List α) (a b : α) : (l ++ [a]).set l.length b = l ++ [b] := by
  rw [List.set_append_right _ _ (le_refl _)]
  simp

theorem Stop.run_cons {sp : subProcess} {ctx : Context} {s t : StopState} {a : StopAction}
    (h : Stop.step sp ctx s a = some t) (rest : List StopAction) :
    Stop.run sp ctx s (a :: rest) = Stop.run sp ctx t rest := by
  simp only [Stop.run, h]

theorem Stop.step_spawn (sp : subProcess) (ctx : Context) {s : StopState}
    (hnone : s.errStop = none) (hlt : s.idx < sp.resources.length) :
    Stop.step sp ctx s .spawn =
      some { s with idx := s.idx + 1, wg := s.wg + 1, tasks := s.tasks ++ [.spawned] } := by
  simp [Stop.step, hnone, hlt]

theorem Stop.step_call (sp : subProcess) (ctx : Context) {s : StopState} {i : Nat}
    (h : s.tasks[i]? = some .spawned) :
    Stop.step sp ctx s (.call i) =
      some { s with tasks := s.tasks.set i .inStop, calls := s.calls ++ [(i, ctx)] } := by
  simp [Stop.step, h]

theorem Stop.step_ret (sp : subProcess) (ctx : Context) {s : StopState} {i : Nat}
    {res : Resource} {e : GoError} (h : s.tasks[i]? = some .inStop)
    (hres : sp.resources[i]? = some res) (he : res.stop ctx = some e) :
    Stop.step sp ctx s (.ret i) =
      some { s with tasks := s.tasks.set i (.sending (sentValue sp ctx i)) } := by
  cases e with
  | none => simp [Stop.step, h, hres, he, sentValue]
  | some m => simp [Stop.step, h, hres, he, sentValue]

theorem Stop.step_send (sp : subProcess) (ctx : Context) {s : StopState} {i : Nat}
    {e : GoError} {cap : Nat} {buf : List GoError} (h : s.tasks[i]? = some (.sending e))
    (hch : s.errChans = some { cap := cap, buf := buf }) (hb : buf.length < cap) :
    Stop.step sp ctx s (.send i) =
      some { s with errChans := some { cap := cap, buf := buf ++ [e] },
                    tasks := s.tasks.set i .deferred, sends := s.sends ++ [i] } := by
  simp [Stop.step, h, hch, chanSend, hb]

theorem Stop.step_done (sp : subProcess) (ctx : Context) {s : StopState} {i : Nat}
    (h : s.tasks[i]? = some .deferred) :
    Stop.step sp ctx s (.done i) =
      some { s with tasks := s.tasks.set i .exited, wg := s.wg - 1 } := by
  simp [Stop.step, h]

theorem Stop.step_finish (sp : subProcess) (ctx : Context) {s : StopState} {cap : Nat}
    {buf : List GoError} (hnone : s.errStop = none) (hidx : s.idx = sp.resources.length)
    (hwg : s.wg = 0) (hch : s.errChans = some { cap := cap, buf := buf }) :
    Stop.step sp ctx s .finish =
      some { s with errChans := some { cap := cap, buf := [] },
                    errStop := some (errStopOf (drain buf)) } := by
  simp [Stop.step, hnone, hidx, hwg, hch]

theorem Stop.run_block {sp : subProcess} {ctx : Context} (s : StopState) (buf : List GoError)
    (rest : List StopAction) (hnone : s.errStop = none) (hidx : s.idx = s.tasks.length)
    (hlt : s.idx < sp.resources.length)
    (hch : s.errChans = some { cap := sp.resources.length, buf := buf })
    (hbuf : buf.length = s.idx) (hret : stopReturns sp ctx s.idx) :
    ∃ t, Stop.run sp ctx s
        ([.spawn, .call s.idx, .ret s.idx, .send s.idx, .done s.idx] ++ rest) =
          Stop.run sp ctx t rest ∧
      t.errStop = none ∧ t.idx = s.idx + 1 ∧ t.idx = t.tasks.length ∧ t.wg = s.wg ∧
      ∃ buf2, t.errChans = some { cap := sp.resources.length, buf := buf2 } ∧
        buf2.length = t.idx := by
  obtain ⟨res, e, hres, he⟩ := hret
  have hb : buf.length < sp.resources.length := by omega
  have g : ∀ a : StopTask, (s.tasks ++ [a])[s.idx]? = some a := by
    intro a
    rw [hidx]
    exact List.getElem?_concat_length _ _
  have h1 := Stop.step_spawn sp ctx hnone hlt
  have h2 := Stop.step_call sp ctx
    (s := { s with idx := s.idx + 1, wg := s.wg + 1, tasks := s.tasks ++ [.spawned] })
    (i := s.idx) (g _)
  have h3 := Stop.step_ret sp ctx
    (s := { s with idx := s.idx + 1, wg := s.wg + 1, tasks := s.tasks ++ [.inStop],
                   calls := s.calls ++ [(s.idx, ctx)] })
    (i := s.idx) (g _) hres he
  have h4 := Stop.step_send sp ctx
    (s := { s with idx := s.idx + 1, wg := s.wg + 1,
                   tasks := s.tasks ++ [.sending (sentValue sp ctx s.idx)],
                   calls := s.calls ++ [(s.idx, ctx)] })
    (i := s.idx) (g _) hch hb
  have h5 := Stop.step_done sp ctx
    (s := { s with idx := s.idx + 1, wg := s.wg + 1,
                   errChans := some { cap := sp.resources.length,
                                      buf := buf ++ [sentValue sp ctx s.idx] },
                   tasks := s.tasks ++ [.deferred],
                   calls := s.calls ++ [(s.idx, ctx)], sends := s.sends ++ [s.idx] })
    (i := s.idx) (g _)
  have hs2 : (s.tasks ++ [StopTask.spawned]).set s.idx .inStop = s.tasks ++ [.inStop] := by
    rw [hidx]; exact concat_set _ _ _
  have hs3 : (s.tasks ++ [StopTask.inStop]).set s.idx (.sending (sentValue sp ctx s.idx)) =
      s.tasks ++ [.sending (sentValue sp ctx s.idx)] := by
    rw [hidx]; exact concat_set _ _ _
  have hs4 : (s.tasks ++ [StopTask.sending (sentValue sp ctx s.idx)]).set s.idx .deferred =
      s.tasks ++ [.deferred] := by
    rw [hidx]; exact concat_set _ _ _
  have hs5 : (s.tasks ++ [StopTask.deferred]).set s.idx .exited = s.tasks ++ [.exited] := by
    rw [hidx]; exact concat_set _ _ _
  simp only [hs2] at h2
  simp only [hs3] at h3
  simp only [hs4] at h4
  simp only [hs5] at h5
  refine ⟨{ s with idx := s.idx + 1, wg := s.wg + 1 - 1,
                   errChans := some { cap := sp.resources.length,
                                      buf := buf ++ [sentValue sp ctx s.idx] },
                   tasks := s.tasks ++ [.exited],
                   calls := s.calls ++ [(s.idx, ctx)], sends := s.sends ++ [s.idx] }, ?_, ?_⟩
  · rw [List.cons_append, Stop.run_cons h1, List.cons_append, Stop.run_cons h2,
      List.cons_append, Stop.run_cons h3, List.cons_append, Stop.run_cons h4,
      List.cons_append, Stop.run_cons h5, List.nil_append]
  · refine ⟨hnone, rfl, ?_, ?_, ⟨_, rfl, ?_⟩⟩
    · simp [hidx]
    · show s.wg + 1 - 1 = s.wg
      omega
    · simp [hbuf]

theorem Stop.run_inOrder {sp : subProcess} {ctx : Context}
    (hret : ∀ i, i < sp.resources.length → stopReturns sp ctx i) (k : Nat) :
    ∀ (s : StopState) (buf : List GoError), s.errStop = none → s.idx = s.tasks.length →
      s.idx + k = sp.resources.length → s.wg = 0 →
      s.errChans = some { cap := sp.resources.length, buf := buf } → buf.length = s.idx →
      ∃ t, Stop.run sp ctx s (Stop.inOrder s.idx k) = some t ∧ t.errStop.isSome = true := by
  induction k with
  | zero =>
    intro s buf hnone _ hk hwg hch _
    have h := Stop.step_finish sp ctx hnone (by omega) hwg hch
    refine ⟨{ s with errChans := some { cap := sp.resources.length, buf := [] },
                     errStop := some (errStopOf (drain buf)) }, ?_, rfl⟩
    rw [Stop.inOrder, Stop.run_cons h]
    rfl
  | succ k ih =>
    intro s buf hnone hidx hk hwg hch hbuf
    obtain ⟨t, hrun, htn, hti, htl, htw, buf2, htc, htb⟩ :=
      Stop.run_block s buf (Stop.inOrder (s.idx + 1) k) hnone hidx (by omega) hch hbuf
        (hret s.idx (by omega))
    obtain ⟨u, hu, hur⟩ := ih t buf2 htn htl (by omega) (by rw [htw, hwg]) htc htb
    refine ⟨u, ?_, hur⟩
    rw [Stop.inOrder, hrun, ← hti]
    exact hu

/-- When the `Stop` of every resource returns, `Stop` has a schedule on which
it returns. -/
theorem Stop.returns {sp : subProcess} {ctx : Context}
    (hret : ∀ res ∈ sp.resources, (res.stop ctx).isSome = true) :
    ∃ t, Stop.run sp ctx (Stop.init sp) (Stop.inOrder 0 sp.resources.length) = some t ∧
      t.errStop.isSome = true := by
  have h := Stop.run_inOrder ((stopReturns_iff sp ctx).2 hret) sp.resources.length
    (Stop.init sp) [] rfl rfl (by simp [Stop.init]) rfl rfl rfl
  simpa [Stop.init] using h

/-! ## `subProcess.Stop`: the claims -/

theorem occursIn_mid (a sub b : String) : occursIn sub (a ++ sub ++ b) := ⟨a, b, rfl⟩

theorem Stop.result_contains {sp : subProcess} {ctx : Context} {s : StopState} {r : GoError}
    (hs : Stop.Inv sp ctx s) (hr : s.errStop = some r) {k : Nat} {res : Resource} {m : String}
    (hres : sp.resources[k]? = some res) (hm : res.stop ctx = some (some m)) :
    ∃ a b, r = some (a ++ (stopErrorf k res.name m ++ ";") ++ b) := by
  obtain ⟨_, _, _, hrv⟩ := hs.fin r hr
  have hk : k < sp.resources.length := (List.getElem?_eq_some_iff.1 hres).1
  have hmem : k ∈ s.sends := (Stop.sends_perm hs hr).mem_iff.2 (List.mem_range.2 hk)
  obtain ⟨l1, l2, hl⟩ := List.append_of_mem hmem
  have hv := sentValue_of_error hres hm
  have hd : drain (s.sends.map (sentValue sp ctx)) =
      drain (l1.map (sentValue sp ctx)) ++ (stopErrorf k res.name m ++ ";") ++
        drain (l2.map (sentValue sp ctx)) := by
    rw [hl, List.map_append, List.map_cons, drain_append, hv, drain_cons_some]
    simp only [String.append_assoc]
  have hin : some (stopErrorf k res.name m) ∈ s.sends.map (sentValue sp ctx) := by
    rw [← hv]
    exact List.mem_map_of_mem _ hmem
  refine ⟨drain (l1.map (sentValue sp ctx)), drain (l2.map (sentValue sp ctx)), ?_⟩
  rw [hrv, errStopOf_of_some hin, hd]

/-- C4: `Stop` returns when every resource's `Stop` does, and whenever it
returns, on whatever schedule and for whatever resource set (the empty one
included), its result is nil exactly when every resource's `Stop` answered
nil; if some resource's `Stop` answered an error the result is a non-nil
error with a non-empty message. -/
theorem Stop_nil_iff_all_nil (sp : subProcess) (ctx : Context) :
    ((∀ res ∈ sp.resources, (res.stop ctx).isSome = true) →
      ∃ acts s, Stop.run sp ctx (Stop.init sp) acts = some s ∧ s.errStop.isSome = true) ∧
    ∀ (acts : List StopAction) (s : StopState) (r : GoError),
      Stop.run sp ctx (Stop.init sp) acts = some s → s.errStop = some r →
        (r = none ↔ ∀ res ∈ sp.resources, res.stop ctx = some none) ∧
        ((∃ res ∈ sp.resources, ∃ m, res.stop ctx = some (some m)) →
          ∃ msg, r = some msg ∧ msg ≠ "") := by
  refine ⟨fun h => ?_, ?_⟩
  · obtain ⟨t, ht, hr⟩ := Stop.returns h
    exact ⟨_, t, ht, hr⟩
  · intro acts s r hrun hret
    have hs := Stop.inv_run acts (Stop.inv_init sp ctx) hrun
    have hiff := Stop.result_none_iff hs hret
    refine ⟨hiff, ?_⟩
    rintro ⟨res, hres, m, hm⟩
    obtain ⟨k, hk, hget⟩ := List.getElem_of_mem hres
    have hres2 : sp.resources[k]? = some res := by
      rw [List.getElem?_eq_getElem hk, hget]
    obtain ⟨a, b, hab⟩ := Stop.result_contains hs hret hres2 hm
    refine ⟨_, hab, ?_⟩
    intro h0
    have hl := congrArg String.length h0
    simp only [String.length_append] at hl
    have : (";" : String).length = 1 := by decide
    have h00 : ("" : String).length = 0 := by decide
    omega

/-- C4 at `oneFailing` on the schedule `secondFirst`, where `Stop` returns a
non-nil error, and at the empty resource set, where it returns nil. -/
theorem Stop_nil_iff_all_nil_witness :
    Stop.run oneFailing background (Stop.init oneFailing) secondFirst = some oneFailingEnd ∧
    ((some "resource[1] (%!)(string=rpc) Stop error: stuck;" : GoError) = none ↔
      ∀ res ∈ oneFailing.resources, res.stop background = some none) ∧
    (Stop.run { shutDownTimeout := 5, resources := [] } background
      (Stop.init { shutDownTimeout := 5, resources := [] }) [.finish]).map
        (fun s => s.errStop) = some (some none) :=
  ⟨by decide,
    ((Stop_nil_iff_all_nil oneFailing background).2 secondFirst oneFailingEnd _
      (by decide) rfl).1,
    by decide⟩

/-- C5: whenever `Stop` returns, for every resource `k` whose `Stop` answered an
error `m` the message of the returned error holds the line
`resource[k] (%!)(string=NAME) Stop error: m;` and so, as substrings, the
decimal index of `k`, the name its `String()` returns and the message `m`. -/
theorem Stop_error_names_resource (sp : subProcess) (ctx : Context) (acts : List StopAction)
    (s : StopState) (r : GoError) (k : Nat) (res : Resource) (m : String)
    (hrun : Stop.run sp ctx (Stop.init sp) acts = some s) (hret : s.errStop = some r)
    (hres : sp.resources[k]? = some res) (hm : res.stop ctx = some (some m)) :
    ∃ msg, r = some msg ∧
      occursIn ("resource[" ++ toString k ++ "] (%!)(string=" ++ res.name ++
        ") Stop error: " ++ m ++ ";") msg ∧
      occursIn (toString k) msg ∧ occursIn res.name msg ∧ occursIn m msg := by
  have hs := Stop.inv_run acts (Stop.inv_init sp ctx) hrun
  obtain ⟨a, b, hab⟩ := Stop.result_contains hs hret hres hm
  refine ⟨_, hab, ⟨a, b, rfl⟩, ?_, ?_, ?_⟩
  · refine ⟨a ++ "resource[", "] (%!)(string=" ++ res.name ++ ") Stop error: " ++ m ++ ";" ++ b,
      ?_⟩
    simp only [stopErrorf, String.append_assoc]
  · refine ⟨a ++ "resource[" ++ toString k ++ "] (%!)(string=", ") Stop error: " ++ m ++ ";" ++ b,
      ?_⟩
    simp only [stopErrorf, String.append_assoc]
  · refine ⟨a ++ "resource[" ++ toString k ++ "] (%!)(string=" ++ res.name ++ ") Stop error: ",
      ";" ++ b, ?_⟩
    simp only [stopErrorf, String.append_assoc]

/-- C5 at `oneFailing`, whose resource 1, named `rpc`, fails with `stuck`. -/
theorem Stop_error_names_resource_witness :
    ∃ msg, (some "resource[1] (%!)(string=rpc) Stop error: stuck;" : GoError) = some msg ∧
      occursIn ("resource[" ++ toString 1 ++ "] (%!)(string=" ++ "rpc" ++
        ") Stop error: " ++ "stuck" ++ ";") msg ∧
      occursIn (toString 1) msg ∧ occursIn "rpc" msg ∧ occursIn "stuck" msg :=
  Stop_error_names_resource oneFailing background secondFirst oneFailingEnd _ 1
    { name := "rpc", start := none, stop := fun _ => some (some "stuck") } "stuck"
    (by decide) rfl rfl rfl

/-- C6: whenever `Stop(ctx)` returns, on whatever schedule and whatever the
resources answer, the calls `res.Stop` it made are one call for each resource
index, each with `ctx`: the history of calls is a rearrangement of
`(0, ctx), ..., (n - 1, ctx)`, with no index twice.  It does return when every
resource's `Stop` does. -/
theorem Stop_calls_each_once (sp : subProcess) (ctx : Context) :
    ((∀ res ∈ sp.resources, (res.stop ctx).isSome = true) →
      ∃ acts s, Stop.run sp ctx (Stop.init sp) acts = some s ∧ s.errStop.isSome = true) ∧
    ∀ (acts : List StopAction) (s : StopState) (r : GoError),
      Stop.run sp ctx (Stop.init sp) acts = some s → s.errStop = some r →
        s.calls.Perm ((List.range sp.resources.length).map (fun i => (i, ctx))) ∧
        (s.calls.map Prod.fst).Nodup ∧ s.calls.length = sp.resources.length := by
  refine ⟨fun h => ?_, ?_⟩
  · obtain ⟨t, ht, hr⟩ := Stop.returns h
    exact ⟨_, t, ht, hr⟩
  · intro acts s r hrun hret
    have hs := Stop.inv_run acts (Stop.inv_init sp ctx) hrun
    have hp := Stop.calls_perm hs hret
    refine ⟨hp, hs.calls_nodup, ?_⟩
    rw [hp.length_eq]
    simp

/-- C6 at `oneFailing` on the schedule `secondFirst`: both resources are
stopped, once each, though the `Stop` of resource 1 fails. -/
theorem Stop_calls_each_once_witness :
    oneFailingEnd.calls.Perm
        ((List.range oneFailing.resources.length).map (fun i => (i, background))) ∧
      (oneFailingEnd.calls.map Prod.fst).Nodup ∧
      oneFailingEnd.calls.length = oneFailing.resources.length :=
  (Stop_calls_each_once oneFailing background).2 secondFirst oneFailingEnd _ (by decide) rfl

/-- C7, as stated, fails: on the schedule `secondFirst` the message `Stop`
returns for `twoFailing` lists resource 1 before resource 0, which is not the
launch order. -/
theorem Stop_launch_order_counterexample :
    Stop.run twoFailing background (Stop.init twoFailing) secondFirst = some twoFailingEnd ∧
    twoFailingEnd.errStop = some (some
      "resource[1] (%!)(string=rpc) Stop error: stuck;resource[0] (%!)(string=http) Stop error: busy;") ∧
    launchOrderError twoFailing background = some
      "resource[0] (%!)(string=http) Stop error: busy;resource[1] (%!)(string=rpc) Stop error: stuck;" ∧
    twoFailingEnd.errStop ≠ some (launchOrderError twoFailing background) := by
  refine ⟨by decide, rfl, by decide, by decide⟩

theorem drain_map_filter (f : Nat → GoError) (l : List Nat) :
    drain (l.map f) = drain ((l.filter (fun i => (f i).isSome)).map f) := by
  induction l with
  | nil => rfl
  | cons i rest ih =>
    cases hf : f i with
    | none =>
      have hfil : (i :: rest).filter (fun i => (f i).isSome) =
          rest.filter (fun i => (f i).isSome) := by
        simp [List.filter_cons, hf]
      rw [hfil, List.map_cons, hf, drain_cons_none, ih]
    | some m =>
      have hfil : (i :: rest).filter (fun i => (f i).isSome) =
          i :: rest.filter (fun i => (f i).isSome) := by
        simp [List.filter_cons, hf]
      rw [hfil, List.map_cons, List.map_cons, hf, drain_cons_some, drain_cons_some, ih]

/-- C7, amended: whenever `Stop` returns, the message of its result is the
concatenation of the lines of the failing resources, each line the message of
line 92 followed by `;`, in the order in which the goroutines sent on
`errChans`; that order is a rearrangement of the resource indices.  The
result is the launch-order one whenever the goroutines of the failing
resources sent in increasing order of index, and so in particular when all
goroutines did. -/
theorem Stop_send_order (sp : subProcess) (ctx : Context) (acts : List StopAction)
    (s : StopState) (r : GoError)
    (hrun : Stop.run sp ctx (Stop.init sp) acts = some s) (hret : s.errStop = some r) :
    r = errStopOf (drain (s.sends.map (sentValue sp ctx))) ∧
    s.sends.Perm (List.range sp.resources.length) ∧
    (s.sends = List.range sp.resources.length → r = launchOrderError sp ctx) ∧
    (s.sends.filter (fun i => (sentValue sp ctx i).isSome) =
        (List.range sp.resources.length).filter (fun i => (sentValue sp ctx i).isSome) →
      r = launchOrderError sp ctx) := by
  have hs := Stop.inv_run acts (Stop.inv_init sp ctx) hrun
  obtain ⟨_, _, _, hrv⟩ := hs.fin r hret
  refine ⟨hrv, Stop.sends_perm hs hret, ?_, ?_⟩
  · intro h
    rw [hrv, h, launchOrderError]
  · intro h
    rw [hrv, launchOrderError, drain_map_filter (sentValue sp ctx) s.sends, h,
      ← drain_map_filter (sentValue sp ctx) (List.range sp.resources.length)]

/-- C7, amended, on the schedule `secondFirst`, where resource 1 sends before
resource 0: at `twoFailing` the message lists resource 1 first; at
`oneFailing`, where only resource 1 fails, the message is the launch-order
one. -/
theorem Stop_send_order_witness :
    ((some "resource[1] (%!)(string=rpc) Stop error: stuck;resource[0] (%!)(string=http) Stop error: busy;" : GoError) =
      errStopOf (drain (twoFailingEnd.sends.map (sentValue twoFailing background))) ∧
    twoFailingEnd.sends.Perm (List.range twoFailing.resources.length) ∧
    (twoFailingEnd.sends = List.range twoFailing.resources.length →
      (some "resource[1] (%!)(string=rpc) Stop error: stuck;resource[0] (%!)(string=http) Stop error: busy;" : GoError) =
        launchOrderError twoFailing background) ∧
    (twoFailingEnd.sends.filter (fun i => (sentValue twoFailing background i).isSome) =
        (List.range twoFailing.resources.length).filter
          (fun i => (sentValue twoFailing background i).isSome) →
      (some "resource[1] (%!)(string=rpc) Stop error: stuck;resource[0] (%!)(string=http) Stop error: busy;" : GoError) =
        launchOrderError twoFailing background)) ∧
    oneFailingEnd.sends = [1, 0] ∧
    (some "resource[1] (%!)(string=rpc) Stop error: stuck;" : GoError) =
      launchOrderError oneFailing background :=
  ⟨Stop_send_order twoFailing background secondFirst twoFailingEnd _ (by decide) rfl,
    rfl,
    (Stop_send_order oneFailing background secondFirst oneFailingEnd _ (by decide) rfl).2.2.2
      (by decide)⟩

/-! ## Invariants of `Start` -/

theorem chanSend_some {α : Type} {cap : Nat} {buf : List α} {v : α} {c : ChanVar α}
    (h : chanSend (some { cap := cap, buf := buf }) v = some c) :
    buf.length < cap ∧ c = some { cap := cap, buf := buf ++ [v] } := by
  simp only [chanSend] at h
  split at h
  · rename_i hlt
    cases h
    exact ⟨hlt, rfl⟩
  · cases h

theorem chanRecv_some {α : Type} {cap : Nat} {buf : List α} {v : α} {c : ChanVar α}
    (h : chanRecv (some { cap := cap, buf := buf }) = some (v, c)) :
    ∃ rest, buf = v :: rest ∧ c = some { cap := cap, buf := rest } := by
  cases buf with
  | nil => simp [chanRecv] at h
  | cons w rest =>
    simp only [chanRecv, Option.some.injEq, Prod.mk.injEq] at h
    obtain ⟨hv, hc⟩ := h
    subst hv
    exact ⟨rest, rfl, hc.symm⟩

theorem Start.startInv_init (sp : subProcess) (ctx : Context) (now : Int) :
    Start.Inv sp (Start.init ctx now) := by
  refine ⟨rfl, fun _ => rfl, ?_, ?_, fun _ => ⟨rfl, rfl⟩, ?_⟩
  all_goals simp [Start.init, StartPc.early]

theorem Start.startInv_step {sp : subProcess} {s t : StartState} (a : StartAction)
    (hs : Start.Inv sp s) (h : Start.step sp s a = some t) : Start.Inv sp t := by
  obtain ⟨h1, h2, h3, h4, h5, h6⟩ := hs
  cases a <;> simp only [Start.step] at h
  case tick =>
    cases h
    exact ⟨h1, h2, h3, h4, h5, h6⟩
  case cancel =>
    split at h
    · cases h
      exact ⟨h1, h2, h3, h4, h5, h6⟩
    · cases h
  case expire =>
    split at h
    · split at h
      · cases h
        exact ⟨h1, h2, h3, h4, h5, h6⟩
      · cases h
    · cases h
  case signal sig =>
    split at h
    · rename_i hsig
      split at h
      · rename_i c hc
        cases h
        refine ⟨h1, h2, h3, h4, ?_, ?_⟩
        · intro hpc
          have := (h5 hpc).2
          rw [this] at hsig
          cases hsig
        · intro hpc
          obtain ⟨hr, buf, hb, hall⟩ := h6 hpc
          refine ⟨hr, ?_⟩
          rw [hb] at hc
          obtain ⟨_, hc2⟩ := chanSend_some hc
          subst hc2
          refine ⟨buf ++ [sig], rfl, ?_⟩
          intro x hx
          rcases List.mem_append.1 hx with hx | hx
          · exact hall x hx
          · rw [List.mem_singleton.1 hx, ← hr]
            exact hsig
      · cases h
        exact ⟨h1, h2, h3, h4, h5, h6⟩
    · cases h
  case spawn =>
    split at h
    · cases h
      exact ⟨h1, h2, h3, h4, h5, h6⟩
    · cases h
  case notify =>
    split at h
    · rename_i hg
      cases h
      refine ⟨h1, ?_, ?_, ?_, ?_, ?_⟩
      · intro _
        exact h2 (by rw [hg.1]; rfl)
      · intro hc
        cases hc
      · intro r hr
        cases hr
      · intro hc
        cases hc
      · intro _
        exact ⟨rfl, [], rfl, fun x hx => by cases hx⟩
    · cases h
  case startCall i =>
    split at h
    · cases h
      exact ⟨h1, h2, h3, h4, h5, h6⟩
    · cases h
  case startRet i =>
    split at h
    · split at h
      · cases h
        exact ⟨h1, h2, h3, h4, h5, h6⟩
      · cases h
    · cases h
  case sendErr i =>
    split at h
    · rw [h1] at h
      simp [chanSend] at h
    · cases h
  case selCtx =>
    split at h
    · rename_i hg
      cases h
      refine ⟨h1, ?_, ?_, ?_, ?_, ?_⟩
      · intro _
        exact h2 (by rw [hg.1]; rfl)
      · intro hc
        cases hc
      · intro r hr
        cases hr
      · intro hc
        cases hc
      · intro _
        exact h6 (by rw [hg.1]; intro hc; cases hc)
    · cases h
  case selErr =>
    split at h
    · rw [h1] at h
      simp [chanRecv] at h
    · cases h
  case selSig =>
    split at h
    · rename_i hg
      split at h
      · rename_i sig c hc
        cases h
        obtain ⟨hr, buf, hb, hall⟩ := h6 (by rw [hg]; intro hc; cases hc)
        refine ⟨h1, ?_, ?_, ?_, ?_, ?_⟩
        · intro _
          exact h2 (by rw [hg]; rfl)
        · intro hc
          cases hc
        · intro r hr
          cases hr
        · intro hc
          cases hc
        · intro _
          refine ⟨hr, ?_⟩
          rw [hb] at hc
          obtain ⟨rest, hbuf, hc2⟩ := chanRecv_some hc
          subst hc2
          refine ⟨rest, rfl, ?_⟩
          intro x hx
          apply hall
          rw [hbuf]
          exact List.mem_cons_of_mem _ hx
      · cases h
    · cases h
  case derive =>
    split at h
    · rename_i err hpc
      cases h
      refine ⟨h1, ?_, ?_, ?_, ?_, ?_⟩
      · intro hc
        cases hc
      · intro _
        exact ⟨_, _, rfl, Stop.inv_init sp _⟩
      · intro r hr
        cases hr
      · intro hc
        cases hc
      · intro _
        exact h6 (by rw [hpc]; intro hc; cases hc)
    · cases h
  case stop a =>
    split at h
    · rename_i err c st hpc hst
      split at h
      · rename_i st2 hstep
        cases h
        obtain ⟨c0, st0, hst0, hinv⟩ := h3 (by rw [hpc]; rfl)
        rw [hst] at hst0
        cases hst0
        refine ⟨h1, ?_, ?_, ?_, ?_, h6⟩
        · intro hc
          rw [show s.pc = StartPc.stopping err from hpc] at hc
          cases hc
        · intro _
          exact ⟨_, _, rfl, Stop.inv_step a hinv hstep⟩
        · intro r hr
          rw [show s.pc = StartPc.stopping err from hpc] at hr
          cases hr
        · intro hc
          rw [show s.pc = StartPc.stopping err from hpc] at hc
          cases hc
      · cases h
    · cases h
  case ret =>
    split at h
    · rename_i err c st hpc hst
      split at h
      · rename_i hsome
        cases h
        obtain ⟨c0, st0, hst0, hinv⟩ := h3 (by rw [hpc]; rfl)
        rw [hst] at hst0
        cases hst0
        obtain ⟨r2, hr2⟩ := Option.isSome_iff_exists.1 hsome
        refine ⟨h1, ?_, ?_, ?_, ?_, ?_⟩
        · intro hc
          cases hc
        · intro _
          exact ⟨_, _, hst, hinv⟩
        · intro r _
          exact ⟨_, _, r2, hst, hr2⟩
        · intro hc
          cases hc
        · intro _
          exact h6 (by rw [hpc]; intro hc; cases hc)
      · cases h
    · cases h

theorem Start.startInv_run {sp : subProcess} (acts : List StartAction) :
    ∀ {s t : StartState}, Start.Inv sp s → Start.run sp s acts = some t → Start.Inv sp t := by
  induction acts with
  | nil =>
    intro s t hs h
    simp only [Start.run] at h
    cases h
    exact hs
  | cons a as ih =>
    intro s t hs h
    simp only [Start.run] at h
    split at h
    · rename_i u hu
      exact ih (Start.startInv_step a hs hu) h
    · cases h

/-! ## After the `select` -/

theorem Start.start_run_cons {sp : subProcess} {s t : StartState} {a : StartAction}
    (h : Start.step sp s a = some t) (rest : List StartAction) :
    Start.run sp s (a :: rest) = Start.run sp t rest := by
  simp only [Start.run, h]

theorem Start.run_append {sp : subProcess} (as bs : List StartAction) :
    ∀ {s t : StartState}, Start.run sp s as = some t →
      Start.run sp s (as ++ bs) = Start.run sp t bs := by
  induction as with
  | nil =>
    intro s t h
    simp only [Start.run] at h
    cases h
    rfl
  | cons a as ih =>
    intro s t h
    simp only [Start.run] at h
    split at h
    · rename_i u hu
      rw [List.cons_append, Start.start_run_cons hu]
      exact ih h
    · cases h

/-- Once a case of the `select` has set `err`, no move changes it. -/
theorem Start.err_step {sp : subProcess} {s t : StartState} {a : StartAction} {e : GoError}
    (he : s.pc.err? = some e) (h : Start.step sp s a = some t) : t.pc.err? = some e := by
  cases a <;> simp only [Start.step] at h
  case tick => cases h; exact he
  case cancel => split at h <;> cases h; exact he
  case expire =>
    split at h
    · split at h <;> cases h
      exact he
    · cases h
  case signal sig =>
    split at h
    · split at h <;> cases h <;> exact he
    · cases h
  case spawn =>
    split at h
    · rename_i hg
      rw [hg.1] at he
      cases he
    · cases h
  case notify =>
    split at h
    · rename_i hg
      rw [hg.1] at he
      cases he
    · cases h
  case startCall i => split at h <;> cases h; exact he
  case startRet i =>
    split at h
    · split at h <;> cases h
      exact he
    · cases h
  case sendErr i =>
    split at h
    · split at h <;> cases h
      exact he
    · cases h
  case selCtx =>
    split at h
    · rename_i hg
      rw [hg.1] at he
      cases he
    · cases h
  case selErr =>
    split at h
    · rename_i hg
      rw [hg] at he
      cases he
    · cases h
  case selSig =>
    split at h
    · rename_i hg
      rw [hg] at he
      cases he
    · cases h
  case derive =>
    split at h
    · rename_i err hpc
      cases h
      rw [hpc] at he
      exact he
    · cases h
  case stop a =>
    split at h
    · split at h <;> cases h
      exact he
    · cases h
  case ret =>
    split at h
    · rename_i err c st hpc hst
      split at h <;> cases h
      rw [hpc] at he
      exact he
    · cases h

theorem Start.err_run {sp : subProcess} (acts : List StartAction) :
    ∀ {s t : StartState} {e : GoError}, s.pc.err? = some e →
      Start.run sp s acts = some t → t.pc.err? = some e := by
  induction acts with
  | nil =>
    intro s t e he h
    simp only [Start.run] at h
    cases h
    exact he
  | cons a as ih =>
    intro s t e he h
    simp only [Start.run] at h
    split at h
    · rename_i u hu
      exact ih (Start.err_step he hu) h
    · cases h

/-- The moves of the call of `Stop` at line 72, seen from `Start`. -/
theorem Start.run_stop {sp : subProcess} (acts : List StopAction) :
    ∀ {s : StartState} {e : GoError} {c : Context} {st st2 : StopState},
      s.pc = .stopping e → s.stop = some (c, st) → Stop.run sp c st acts = some st2 →
      Start.run sp s (acts.map StartAction.stop) = some { s with stop := some (c, st2) } := by
  induction acts with
  | nil =>
    intro s e c st st2 hpc hst h
    simp only [Stop.run] at h
    cases h
    simp only [List.map_nil, Start.run]
    rw [← hst]
  | cons a as ih =>
    intro s e c st st2 hpc hst h
    simp only [Stop.run] at h
    split at h
    · rename_i u hu
      have hstep : Start.step sp s (.stop a) = some { s with stop := some (c, u) } := by
        simp only [Start.step, hpc, hst, hu]
      rw [List.map_cons, Start.start_run_cons hstep]
      exact ih (s := { s with stop := some (c, u) }) hpc rfl h
    · cases h

/-- Once a case of the `select` has run, `Start` has a schedule on which it
returns the error that case set, provided the `Stop` of every resource returns. -/
theorem Start.returns_of_selected {sp : subProcess} {s : StartState} {e : GoError}
    (hpc : s.pc = .selected e)
    (hret : ∀ res ∈ sp.resources, ∀ c, (res.stop c).isSome = true) :
    ∃ post t, Start.run sp s post = some t ∧ t.pc = .returned e := by
  have h1 : Start.step sp s .derive =
      some { s with pc := .stopping e,
                    stop := some (WithTimeout s.ctx sp.shutDownTimeout s.now, Stop.init sp) } := by
    simp only [Start.step, hpc]
  obtain ⟨st, hst, hsome⟩ :=
    @Stop.returns sp (WithTimeout s.ctx sp.shutDownTimeout s.now)
      (fun res hres => hret res hres _)
  have h2 := Start.run_stop (Stop.inOrder 0 sp.resources.length)
    (s := { s with pc := .stopping e,
                   stop := some (WithTimeout s.ctx sp.shutDownTimeout s.now, Stop.init sp) })
    rfl rfl hst
  have h3 : Start.step sp
      { s with pc := .stopping e,
               stop := some (WithTimeout s.ctx sp.shutDownTimeout s.now, st) } .ret =
      some { s with pc := .returned e,
                    stop := some (WithTimeout s.ctx sp.shutDownTimeout s.now, st) } := by
    simp only [Start.step, hsome, if_true]
  refine ⟨.derive :: ((Stop.inOrder 0 sp.resources.length).map StartAction.stop ++ [.ret]),
    { s with pc := .returned e,
             stop := some (WithTimeout s.ctx sp.shutDownTimeout s.now, st) }, ?_, rfl⟩
  rw [Start.start_run_cons h1, Start.run_append _ _ h2, Start.start_run_cons h3]
  rfl

/-- What holds when `Start` has returned: it returns the error the `select`
set, and the call of `Stop` at line 72 has returned. -/
theorem Start.returned_facts {sp : subProcess} {s t : StartState} {e r : GoError}
    (post : List StartAction) (hs : Start.Inv sp s) (hpc : s.pc.err? = some e)
    (hrun : Start.run sp s post = some t) (hr : t.pc = .returned r) :
    r = e ∧ ∃ c st r2, t.stop = some (c, st) ∧ st.errStop = some r2 ∧ Stop.Inv sp c st := by
  have he := Start.err_run post hpc hrun
  rw [hr] at he
  simp only [StartPc.err?, Option.some.injEq] at he
  have ht := Start.startInv_run post hs hrun
  obtain ⟨c, st, r2, hst, hr2⟩ := ht.ret r hr
  obtain ⟨c2, st2, hst2, hinv⟩ := ht.late (by rw [hr]; rfl)
  rw [hst] at hst2
  cases hst2
  exact ⟨he, c, st, r2, hst, hr2, hinv⟩

/-! ## Runs without a signal, runs without any outside event -/

theorem WithTimeout_err_of_done (parent : Context) (timeout now : Int)
    (h : parent.err.isSome = true) : (WithTimeout parent timeout now).err = parent.err := by
  unfold WithTimeout
  split
  · split
    · rfl
    · simp [timerCtx, h]
  · simp [timerCtx, h]

/-- A context that is done stays done, with the same error. -/
theorem Start.ctx_err_step {sp : subProcess} {s t : StartState} {a : StartAction}
    (hd : s.ctx.err.isSome = true) (h : Start.step sp s a = some t) : t.ctx.err = s.ctx.err := by
  have hn : ¬ s.ctx.err.isNone = true := by
    cases hv : s.ctx.err with
    | none => rw [hv] at hd; cases hd
    | some m => simp
  cases a <;> simp only [Start.step] at h
  case tick => cases h; rfl
  case cancel =>
    split at h
    · rename_i hg
      exact absurd hg hn
    · cases h
  case expire =>
    split at h
    · split at h
      · rename_i hg
        exact absurd hg.1 hn
      · cases h
    · cases h
  case signal sig =>
    split at h
    · split at h <;> cases h <;> rfl
    · cases h
  case spawn => split at h <;> cases h; rfl
  case notify => split at h <;> cases h; rfl
  case startCall i => split at h <;> cases h; rfl
  case startRet i =>
    split at h
    · split at h <;> cases h
      rfl
    · cases h
  case sendErr i =>
    split at h
    · split at h <;> cases h
      rfl
    · cases h
  case selCtx => split at h <;> cases h; rfl
  case selErr =>
    split at h
    · split at h <;> cases h
      rfl
    · cases h
  case selSig =>
    split at h
    · split at h <;> cases h
      rfl
    · cases h
  case derive => split at h <;> cases h; rfl
  case stop a =>
    split at h
    · split at h <;> cases h
      rfl
    · cases h
  case ret =>
    split at h
    · split at h <;> cases h
      rfl
    · cases h

theorem Start.ctx_err_run {sp : subProcess} (acts : List StartAction) :
    ∀ {s t : StartState}, s.ctx.err.isSome = true → Start.run sp s acts = some t →
      t.ctx.err = s.ctx.err := by
  induction acts with
  | nil =>
    intro s t _ h
    simp only [Start.run] at h
    cases h
    rfl
  | cons a as ih =>
    intro s t hd h
    simp only [Start.run] at h
    split at h
    · rename_i u hu
      have h1 := Start.ctx_err_step hd hu
      rw [ih (by rw [h1]; exact hd) h, h1]
    · cases h

theorem Start.quiet_init (ctx : Context) (now : Int) : Start.Quiet (Start.init ctx now) := by
  refine ⟨rfl, ?_, ?_, ?_⟩
  all_goals simp [Start.init, StartPc.err?]

theorem Start.quiet_step {sp : subProcess} {s t : StartState} {a : StartAction}
    (hs : Start.Quiet s) (ha : a.isSignal = false) (h : Start.step sp s a = some t) :
    Start.Quiet t := by
  obtain ⟨h1, h2, h3, h4⟩ := hs
  have hpcnone : ∀ {pc : StartPc}, (pc = .loop ∨ pc = .select) → pc.err? = none := by
    intro pc hpc
    rcases hpc with hpc | hpc <;> rw [hpc] <;> rfl
  have hnostop : s.ctx.err.isNone = true → (∀ e, s.pc.err? = some e → False) ∧
      (∀ c st, s.stop = some (c, st) → False) := by
    intro hn
    have hne : ¬ s.ctx.err.isSome = true := by
      cases hv : s.ctx.err with
      | none => simp
      | some m => rw [hv] at hn; cases hn
    refine ⟨fun e he => ?_, fun c st hst => ?_⟩
    · have := (h3 e he)
      rw [this.1] at this
      exact hne this.2
    · have := h4 c st hst
      rw [this.1] at this
      exact hne this.2
  cases a <;> simp only [Start.step] at h
  case tick => cases h; exact ⟨h1, h2, h3, h4⟩
  case cancel =>
    split at h
    · rename_i hg
      cases h
      obtain ⟨ha1, ha2⟩ := hnostop hg
      exact ⟨h1, h2, fun e he => (ha1 e he).elim, fun c st hst => (ha2 c st hst).elim⟩
    · cases h
  case expire =>
    split at h
    · split at h
      · rename_i hg
        cases h
        obtain ⟨ha1, ha2⟩ := hnostop hg.1
        exact ⟨h1, h2, fun e he => (ha1 e he).elim, fun c st hst => (ha2 c st hst).elim⟩
      · cases h
    · cases h
  case signal sig => cases ha
  case spawn => split at h <;> cases h; exact ⟨h1, h2, h3, h4⟩
  case notify =>
    split at h
    · rename_i hg
      cases h
      refine ⟨h1, ?_, ?_, h4⟩
      · intro c hc
        simp only [makeChan, Option.some.injEq] at hc
        rw [← hc]
      · intro e he
        cases he
    · cases h
  case startCall i => split at h <;> cases h; exact ⟨h1, h2, h3, h4⟩
  case startRet i =>
    split at h
    · split at h <;> cases h
      exact ⟨h1, h2, h3, h4⟩
    · cases h
  case sendErr i =>
    split at h
    · rw [h1] at h
      simp [chanSend] at h
    · cases h
  case selCtx =>
    split at h
    · rename_i hg
      cases h
      refine ⟨h1, h2, ?_, h4⟩
      intro e he
      simp only [StartPc.err?, Option.some.injEq] at he
      rw [← he]
      exact ⟨rfl, hg.2⟩
    · cases h
  case selErr =>
    split at h
    · rw [h1] at h
      simp [chanRecv] at h
    · cases h
  case selSig =>
    split at h
    · split at h
      · rename_i sig c hc
        cases hch : s.ch with
        | none =>
          rw [hch] at hc
          simp [chanRecv] at hc
        | some c0 =>
          have := h2 c0 hch
          rw [hch] at hc
          simp [chanRecv, this] at hc
      · cases h
    · cases h
  case derive =>
    split at h
    · rename_i err hpc
      cases h
      obtain ⟨he1, he2⟩ := h3 err (by rw [hpc]; rfl)
      refine ⟨h1, h2, ?_, ?_⟩
      · intro e he
        simp only [StartPc.err?, Option.some.injEq] at he
        rw [← he]
        exact ⟨he1, he2⟩
      · intro c st hst
        simp only [Option.some.injEq, Prod.mk.injEq] at hst
        rw [← hst.1]
        have hd : s.ctx.err.isSome = true := by rw [← he1]; exact he2
        rw [WithTimeout_err_of_done _ _ _ hd]
        exact ⟨rfl, hd⟩
    · cases h
  case stop a =>
    split at h
    · rename_i err c st hpc hst
      split at h
      · cases h
        refine ⟨h1, h2, ?_, ?_⟩
        · intro e he
          exact h3 e he
        · intro c2 st2 hst2
          simp only [Option.some.injEq, Prod.mk.injEq] at hst2
          rw [← hst2.1]
          exact h4 c st hst
      · cases h
    · cases h
  case ret =>
    split at h
    · rename_i err c st hpc hst
      split at h
      · cases h
        refine ⟨h1, h2, ?_, h4⟩
        intro e he
        simp only [StartPc.err?, Option.some.injEq] at he
        rw [← he]
        exact h3 err (by rw [hpc]; rfl)
      · cases h
    · cases h

theorem Start.quiet_run {sp : subProcess} (acts : List StartAction) :
    ∀ {s t : StartState}, Start.Quiet s → (∀ a ∈ acts, a.isSignal = false) →
      Start.run sp s acts = some t → Start.Quiet t := by
  induction acts with
  | nil =>
    intro s t hs _ h
    simp only [Start.run] at h
    cases h
    exact hs
  | cons a as ih =>
    intro s t hs ha h
    simp only [Start.run] at h
    split at h
    · rename_i u hu
      exact ih (Start.quiet_step hs (ha a (List.mem_cons_self _ _)) hu)
        (fun b hb => ha b (List.mem_cons_of_mem _ hb)) h
    · cases h

theorem Start.waiting_init (ctx : Context) (now : Int) (h : ctx.err = none) :
    Start.Waiting (Start.init ctx now) := by
  refine ⟨rfl, h, ?_, rfl, Or.inl rfl⟩
  simp [Start.init]

theorem Start.waiting_step {sp : subProcess} {s t : StartState} {a : StartAction}
    (hs : Start.Waiting s) (ha : a.isTrigger = false) (h : Start.step sp s a = some t) :
    Start.Waiting t := by
  obtain ⟨h1, h2, h3, h4, h5⟩ := hs
  have hnsel : ∀ e, s.pc ≠ .selected e := by
    intro e he
    rcases h5 with h5 | h5 <;> rw [h5] at he <;> cases he
  have hnstop : ∀ e, s.pc ≠ .stopping e := by
    intro e he
    rcases h5 with h5 | h5 <;> rw [h5] at he <;> cases he
  cases a <;> simp only [Start.step] at h
  case tick => cases h; exact ⟨h1, h2, h3, h4, h5⟩
  case cancel => cases ha
  case expire => cases ha
  case signal sig => cases ha
  case spawn => split at h <;> cases h; exact ⟨h1, h2, h3, h4, h5⟩
  case notify =>
    split at h
    · cases h
      refine ⟨h1, h2, ?_, h4, Or.inr rfl⟩
      intro c hc
      simp only [makeChan, Option.some.injEq] at hc
      rw [← hc]
    · cases h
  case startCall i => split at h <;> cases h; exact ⟨h1, h2, h3, h4, h5⟩
  case startRet i =>
    split at h
    · split at h <;> cases h
      exact ⟨h1, h2, h3, h4, h5⟩
    · cases h
  case sendErr i =>
    split at h
    · rw [h1] at h
      simp [chanSend] at h
    · cases h
  case selCtx =>
    split at h
    · rename_i hg
      rw [h2] at hg
      simp at hg
    · cases h
  case selErr =>
    split at h
    · rw [h1] at h
      simp [chanRecv] at h
    · cases h
  case selSig =>
    split at h
    · split at h
      · rename_i sig c hc
        cases hch : s.ch with
        | none =>
          rw [hch] at hc
          simp [chanRecv] at hc
        | some c0 =>
          have := h3 c0 hch
          rw [hch] at hc
          simp [chanRecv, this] at hc
      · cases h
    · cases h
  case derive => cases h
  case stop a =>
    split at h
    · rename_i err c st hpc hst
      exact absurd hpc (hnstop err)
    · cases h
  case ret =>
    split at h
    · rename_i err c st hpc hst
      exact absurd hpc (hnstop err)
    · cases h

theorem Start.waiting_run {sp : subProcess} (acts : List StartAction) :
    ∀ {s t : StartState}, Start.Waiting s → (∀ a ∈ acts, a.isTrigger = false) →
      Start.run sp s acts = some t → Start.Waiting t := by
  induction acts with
  | nil =>
    intro s t hs _ h
    simp only [Start.run] at h
    cases h
    exact hs
  | cons a as ih =>
    intro s t hs ha h
    simp only [Start.run] at h
    split at h
    · rename_i u hu
      exact ih (Start.waiting_step hs (ha a (List.mem_cons_self _ _)) hu)
        (fun b hb => ha b (List.mem_cons_of_mem _ hb)) h
    · cases h

/-! ## The goroutines of `Start` and the nil channel -/

theorem getElem?_set_other {α : Type} {l : List α} {i j : Nat} {a b c : α}
    (hi : l[i]? = some a) (hj : l[j]? = some b) (hab : a ≠ b) : (l.set j c)[i]? = some a := by
  have hne : j ≠ i := by
    intro e
    subst e
    rw [hi] at hj
    exact hab (Option.some.inj hj)
  rw [List.getElem?_set_ne hne]
  exact hi

/-- A goroutine of `Start` that has reached its send on the nil channel stays
there on every move. -/
theorem Start.stuck_step {sp : subProcess} {s t : StartState} {a : StartAction} {i : Nat}
    {e : GoError} (hc : s.errChan = none) (hi : s.tasks[i]? = some (.sending e))
    (h : Start.step sp s a = some t) : t.tasks[i]? = some (.sending e) := by
  cases a <;> simp only [Start.step] at h
  case tick => cases h; exact hi
  case cancel => split at h <;> cases h; exact hi
  case expire =>
    split at h
    · split at h <;> cases h
      exact hi
    · cases h
  case signal sig =>
    split at h
    · split at h <;> cases h <;> exact hi
    · cases h
  case spawn =>
    split at h
    · cases h
      have hlt : i < s.tasks.length := (List.getElem?_eq_some_iff.1 hi).1
      show (s.tasks ++ [StartTask.spawned])[i]? = _
      rw [List.getElem?_append_left hlt]
      exact hi
    · cases h
  case notify => split at h <;> cases h; exact hi
  case startCall j =>
    split at h
    · rename_i hj
      cases h
      exact getElem?_set_other hi hj (by simp)
    · cases h
  case startRet j =>
    split at h
    · rename_i res hj hres
      split at h <;> cases h
      exact getElem?_set_other hi hj (by simp)
    · cases h
  case sendErr j =>
    split at h
    · rw [hc] at h
      simp [chanSend] at h
    · cases h
  case selCtx => split at h <;> cases h; exact hi
  case selErr =>
    split at h
    · split at h <;> cases h
      exact hi
    · cases h
  case selSig =>
    split at h
    · split at h <;> cases h
      exact hi
    · cases h
  case derive => split at h <;> cases h; exact hi
  case stop a =>
    split at h
    · split at h <;> cases h
      exact hi
    · cases h
  case ret =>
    split at h
    · split at h <;> cases h
      exact hi
    · cases h

theorem Start.stuck_run {sp : subProcess} (acts : List StartAction) :
    ∀ {s t : StartState} {i : Nat} {e : GoError}, Start.Inv sp s →
      s.tasks[i]? = some (.sending e) → Start.run sp s acts = some t →
      t.tasks[i]? = some (.sending e) := by
  induction acts with
  | nil =>
    intro s t i e _ hi h
    simp only [Start.run] at h
    cases h
    exact hi
  | cons a as ih =>
    intro s t i e hs hi h
    simp only [Start.run] at h
    split at h
    · rename_i u hu
      exact ih (Start.startInv_step a hs hu) (Start.stuck_step hs.errChan hi hu) h
    · cases h

/-! ## `subProcess.Start`: the claims -/

/-- C1: the code does not do what the claim says.  While the caller's context
is not done and no signal arrives, whatever the resources' `Start` calls
return, `Start` does not get past its `select`: no case of the `select` can
run, the case `e1 := <-errChan` in particular, because `errChan` is the nil
channel. -/
theorem Start_blocked_despite_outcome (sp : subProcess) (ctx : Context) (now : Int)
    (acts : List StartAction) (s : StartState) (hctx : ctx.err = none)
    (hquiet : ∀ a ∈ acts, a.isTrigger = false)
    (hrun : Start.run sp (Start.init ctx now) acts = some s) :
    (s.pc = .loop ∨ s.pc = .select) ∧ s.stop = none ∧ Start.step sp s .selErr = none ∧
      Start.step sp s .selCtx = none ∧ Start.step sp s .selSig = none := by
  have hw := Start.waiting_run acts (Start.waiting_init ctx now hctx) hquiet hrun
  refine ⟨hw.pc, hw.stop, ?_, ?_, ?_⟩
  · simp [Start.step, hw.errChan, chanRecv]
  · simp [Start.step, hw.ctx]
  · cases hch : s.ch with
    | none => simp [Start.step, hch, chanRecv]
    | some c =>
      have := hw.ch c hch
      simp [Start.step, hch, chanRecv, this]

/-- C1 at `failingStart`: the `Start` of the resource has returned `boom` and
`Start` stays in its `select`. -/
theorem Start_blocked_despite_outcome_witness :
    Start.run failingStart (Start.init background 0) startReturns = some failingStartState ∧
    failingStartState.tasks[0]? = some (.sending (some "boom")) ∧
    ((failingStartState.pc = .loop ∨ failingStartState.pc = .select) ∧
      failingStartState.stop = none ∧
      Start.step failingStart failingStartState .selErr = none ∧
      Start.step failingStart failingStartState .selCtx = none ∧
      Start.step failingStart failingStartState .selSig = none) :=
  ⟨by decide, by decide,
    Start_blocked_despite_outcome failingStart background 0 startReturns failingStartState rfl
      (by decide) (by decide)⟩

/-- C2: the code does not do what the claim says.  In every state `Start` can
be in, `errChan` is the nil channel, no goroutine can send on it, and a
goroutine that has reached its send stays there on every continuation. -/
theorem Start_errChan_nil (sp : subProcess) (ctx : Context) (now : Int)
    (acts : List StartAction) (s : StartState)
    (hrun : Start.run sp (Start.init ctx now) acts = some s) :
    s.errChan = none ∧ (∀ i, Start.step sp s (.sendErr i) = none) ∧
      ∀ (i : Nat) (e : GoError), s.tasks[i]? = some (StartTask.sending e) →
        ∀ post t, Start.run sp s post = some t →
          t.tasks[i]? = some (StartTask.sending e) := by
  have hs := Start.startInv_run acts (Start.startInv_init sp ctx now) hrun
  refine ⟨hs.errChan, ?_, ?_⟩
  · intro i
    simp only [Start.step, hs.errChan, chanSend]
    split <;> rfl
  · intro i e hi post t hpost
    exact Start.stuck_run post hs hi hpost

/-- C2 at `failingStart`: after the `Start` of the resource has returned, its
goroutine cannot send, also not once the caller has cancelled the context and
`Start` has gone on to line 69. -/
theorem Start_errChan_nil_witness :
    failingStartState.errChan = none ∧
    (∀ i, Start.step failingStart failingStartState (.sendErr i) = none) ∧
      ∀ (i : Nat) (e : GoError), failingStartState.tasks[i]? = some (StartTask.sending e) →
        ∀ post t, Start.run failingStart failingStartState post = some t →
          t.tasks[i]? = some (StartTask.sending e) :=
  Start_errChan_nil failingStart background 0 startReturns failingStartState (by decide)

/-- C3: the code does not do what the claim says.  On a run on which no signal
is delivered, so that the `select` can only have been left through the case
`<-ctx.Done()`, the context handed to `Stop` at line 72 is already done when
`Stop` is called: it carries the error of the caller's context. -/
theorem Start_stop_context_done (sp : subProcess) (ctx : Context) (now : Int)
    (acts : List StartAction) (s : StartState) (c : Context) (st : StopState)
    (hnosig : ∀ a ∈ acts, a.isSignal = false)
    (hrun : Start.run sp (Start.init ctx now) acts = some s)
    (hstop : s.stop = some (c, st)) :
    c.err.isSome = true ∧ c.err = s.ctx.err := by
  have hq := Start.quiet_run acts (Start.quiet_init ctx now) hnosig hrun
  obtain ⟨h1, h2⟩ := hq.stop c st hstop
  exact ⟨h2, h1⟩

/-- C3 at `oneFailing` with a shutdown timeout of 5: after the caller cancels,
`Stop` is called with a context whose error is already `context canceled`. -/
theorem Start_stop_context_done_witness :
    Start.run oneFailing (Start.init background 0) (cancelled ++ [.derive]) =
        some cancelledDerived ∧
      cancelledStopCtx.err.isSome = true ∧ cancelledStopCtx.err = cancelledDerived.ctx.err :=
  ⟨by decide,
    Start_stop_context_done oneFailing background 0 (cancelled ++ [.derive]) cancelledDerived
      cancelledStopCtx (Stop.init oneFailing) (by decide) (by decide) rfl⟩

/-- C8: for resources whose `Start` calls all block, (a) when `Start` waits in
its `select` and the caller's context is done, `Start` has a schedule on which
it returns the error of that context, provided the `Stop` calls of the
resources return; (b) on any run on which no signal is delivered before a
case of the `select` runs, whatever `Start` returns is the error of the
caller's context, which is not nil, and by then `Stop` has returned after
calling the `Stop` of every resource once: the history of those calls is a
rearrangement of `(0, c), ..., (n - 1, c)`, with no index twice. -/
theorem Start_returns_ctx_err (sp : subProcess) (ctx : Context) (now : Int)
    (hblock : ∀ res ∈ sp.resources, res.start = none) :
    (∀ (pre : List StartAction) (s1 : StartState),
      Start.run sp (Start.init ctx now) pre = some s1 → s1.pc = .select →
      s1.ctx.err.isSome = true →
      (∀ res ∈ sp.resources, ∀ c, (res.stop c).isSome = true) →
      ∃ post s2, Start.run sp s1 post = some s2 ∧ s2.pc = .returned s1.ctx.err) ∧
    (∀ (pre post : List StartAction) (s1 s2 : StartState) (e r : GoError),
      (∀ a ∈ pre, a.isSignal = false) →
      Start.run sp (Start.init ctx now) pre = some s1 → s1.pc = .selected e →
      Start.run sp s1 post = some s2 → s2.pc = .returned r →
      r = s2.ctx.err ∧ r.isSome = true ∧
      ∃ c st, s2.stop = some (c, st) ∧ st.errStop.isSome = true ∧
        st.calls.Perm ((List.range sp.resources.length).map (fun i => (i, c))) ∧
        (st.calls.map Prod.fst).Nodup) := by
  have _ := hblock -- not needed: a resource outcome is never received
  refine ⟨?_, ?_⟩
  · intro pre s1 _ hpc hdone hret
    have hstep : Start.step sp s1 .selCtx = some { s1 with pc := .selected s1.ctx.err } := by
      simp [Start.step, hpc, hdone]
    obtain ⟨post, t, hrun, ht⟩ :=
      @Start.returns_of_selected sp { s1 with pc := .selected s1.ctx.err } s1.ctx.err rfl hret
    exact ⟨.selCtx :: post, t, by rw [Start.start_run_cons hstep]; exact hrun, ht⟩
  · intro pre post s1 s2 e r hnosig h1 hsel h2 hr
    have hq := Start.quiet_run pre (Start.quiet_init ctx now) hnosig h1
    have hs := Start.startInv_run pre (Start.startInv_init sp ctx now) h1
    obtain ⟨he1, he2⟩ := hq.err e (by rw [hsel]; rfl)
    obtain ⟨hre, c, st, r2, hst, hr2, hinv⟩ :=
      Start.returned_facts post hs (by rw [hsel]; rfl) h2 hr
    have hd : s1.ctx.err.isSome = true := by rw [← he1]; exact he2
    have hstable := Start.ctx_err_run post hd h2
    refine ⟨?_, ?_, c, st, hst, ?_, Stop.calls_perm hinv hr2, hinv.calls_nodup⟩
    · rw [hre, he1, hstable]
    · rw [hre]; exact he2
    · rw [hr2]; rfl

/-- C8 at `oneFailing`, whose two resources block in `Start`: the caller
cancels, `Start` returns `context canceled`, and both resources were stopped
once. -/
theorem Start_returns_ctx_err_witness :
    Start.run oneFailing (Start.init background 0) cancelled = some cancelledState ∧
    Start.run oneFailing cancelledState stopAndReturn = some cancelledEnd ∧
    ((some Canceled : GoError) = cancelledEnd.ctx.err ∧
      (some Canceled : GoError).isSome = true ∧
      ∃ c st, cancelledEnd.stop = some (c, st) ∧ st.errStop.isSome = true ∧
        st.calls.Perm ((List.range oneFailing.resources.length).map (fun i => (i, c))) ∧
        (st.calls.map Prod.fst).Nodup) :=
  ⟨by decide, by decide,
    (Start_returns_ctx_err oneFailing background 0 (by decide)).2 cancelled stopAndReturn
      cancelledState cancelledEnd (some Canceled) (some Canceled) (by decide) (by decide) rfl
      (by decide) rfl⟩

/-! ## What `Start` returns does not depend on `Stop` -/

theorem Start.late_step {sp : subProcess} {s t : StartState} {a : StartAction}
    (hl : s.pc.early = false) (h : Start.step sp s a = some t) : t.pc.early = false := by
  have hnl : s.pc ≠ .loop := by intro hc; rw [hc] at hl; cases hl
  have hns : s.pc ≠ .select := by intro hc; rw [hc] at hl; cases hl
  cases a <;> simp only [Start.step] at h
  case tick => cases h; exact hl
  case cancel => split at h <;> cases h; exact hl
  case expire =>
    split at h
    · split at h <;> cases h
      exact hl
    · cases h
  case signal sig =>
    split at h
    · split at h <;> cases h <;> exact hl
    · cases h
  case spawn => split at h <;> cases h; exact hl
  case notify =>
    split at h
    · rename_i hg
      exact absurd hg.1 hnl
    · cases h
  case startCall i => split at h <;> cases h; exact hl
  case startRet i =>
    split at h
    · split at h <;> cases h
      exact hl
    · cases h
  case sendErr i =>
    split at h
    · split at h <;> cases h
      exact hl
    · cases h
  case selCtx =>
    split at h
    · rename_i hg
      exact absurd hg.1 hns
    · cases h
  case selErr =>
    split at h
    · rename_i hg
      exact absurd hg hns
    · cases h
  case selSig =>
    split at h
    · rename_i hg
      exact absurd hg hns
    · cases h
  case derive => split at h <;> cases h; rfl
  case stop a =>
    split at h
    · split at h <;> cases h
      exact hl
    · cases h
  case ret =>
    split at h
    · split at h <;> cases h
      rfl
    · cases h

theorem Start.late_run {sp : subProcess} (acts : List StartAction) :
    ∀ {s t : StartState}, StartPc.early s.pc = false → Start.run sp s acts = some t →
      t.pc.early = false := by
  induction acts with
  | nil =>
    intro s t hl h
    simp only [Start.run] at h
    cases h
    exact hl
  | cons a as ih =>
    intro s t hl h
    simp only [Start.run] at h
    split at h
    · rename_i u hu
      exact ih (Start.late_step hl hu) h
    · cases h

theorem sameButStop_length {sp1 sp2 : subProcess} (h : sameButStop sp1 sp2) :
    sp1.resources.length = sp2.resources.length := by
  have := congrArg List.length h.2
  simpa using this

theorem sameButStop_start {sp1 sp2 : subProcess} (h : sameButStop sp1 sp2) (i : Nat) :
    (sp1.resources[i]?).map (fun r => r.start) = (sp2.resources[i]?).map (fun r => r.start) := by
  have h1 := congrArg (fun l => (l[i]?).map Prod.snd) h.2
  simp only [List.getElem?_map, Option.map_map] at h1
  exact h1

/-- Before the call of `Stop`, a move does not look at what the `Stop` calls
of the resources answer. -/
theorem Start.step_congr {sp1 sp2 : subProcess} (hsame : sameButStop sp1 sp2) (s : StartState)
    (a : StartAction) (ha : ∀ x, a ≠ .stop x) : Start.step sp1 s a = Start.step sp2 s a := by
  have hlen := sameButStop_length hsame
  have hinit : Stop.init sp1 = Stop.init sp2 := by simp [Stop.init, hlen]
  cases a
  case stop x => exact absurd rfl (ha x)
  case startRet i =>
    have hst := sameButStop_start hsame i
    simp only [Start.step]
    cases h1 : sp1.resources[i]? with
    | none =>
      cases h2 : sp2.resources[i]? with
      | none => rfl
      | some r2 => rw [h1, h2] at hst; cases hst
    | some r1 =>
      cases h2 : sp2.resources[i]? with
      | none => rw [h1, h2] at hst; cases hst
      | some r2 =>
        rw [h1, h2] at hst
        simp only [Option.map_some', Option.some.injEq] at hst
        cases ht : s.tasks[i]? with
        | none => rfl
        | some tk =>
          cases tk <;> simp only [hst]
  all_goals simp only [Start.step, hlen, hsame.1, hinit]

theorem Start.run_congr {sp1 sp2 : subProcess} (hsame : sameButStop sp1 sp2)
    (acts : List StartAction) :
    ∀ {s t : StartState}, Start.run sp1 s acts = some t → t.pc.early = true →
      Start.run sp2 s acts = some t := by
  induction acts with
  | nil =>
    intro s t h _
    simp only [Start.run] at h ⊢
    exact h
  | cons a as ih =>
    intro s t h hearly
    simp only [Start.run] at h
    split at h
    · rename_i u hu
      have hns : ∀ x, a ≠ .stop x := by
        intro x hx
        subst hx
        simp only [Start.step] at hu
        split at hu
        · rename_i err c st hpc hst
          split at hu
          · cases hu
            have hl : StartPc.early s.pc = false := by rw [hpc]; rfl
            have : t.pc.early = false := by
              refine Start.late_run as ?_ h
              exact hl
            rw [this] at hearly
            cases hearly
          · cases hu
        · cases hu
      rw [Start.step_congr hsame s a hns] at hu
      rw [Start.start_run_cons hu]
      exact ih h hearly
    · cases h

/-- C9: take two coordinators that differ at most in what the `Stop` calls of
their resources answer, and a run up to the moment a case of the `select` has
set `err` to `e` (the trigger).  That run is a run of both, and however each
then goes on, whatever `Start` returns is `e`: the two results are equal and
do not depend on what `Stop` did. -/
theorem Start_result_is_trigger (sp1 sp2 : subProcess) (ctx : Context) (now : Int)
    (pre post1 post2 : List StartAction) (s1 t1 t2 : StartState) (e r1 r2 : GoError)
    (hsame : sameButStop sp1 sp2)
    (hpre : Start.run sp1 (Start.init ctx now) pre = some s1) (hsel : s1.pc = .selected e)
    (hpost1 : Start.run sp1 s1 post1 = some t1) (hr1 : t1.pc = .returned r1)
    (hpost2 : Start.run sp2 s1 post2 = some t2) (hr2 : t2.pc = .returned r2) :
    Start.run sp2 (Start.init ctx now) pre = some s1 ∧ r1 = e ∧ r2 = e ∧ r1 = r2 := by
  have he : s1.pc.err? = some e := by rw [hsel]; rfl
  have h1 := Start.err_run post1 he hpost1
  have h2 := Start.err_run post2 he hpost2
  rw [hr1] at h1
  rw [hr2] at h2
  simp only [StartPc.err?, Option.some.injEq] at h1 h2
  refine ⟨Start.run_congr hsame pre hpre (by rw [hsel]; rfl), h1, h2, ?_⟩
  rw [h1, h2]

/-- C9 at `oneFailing` and `twoFailing`, which differ in what the `Stop` of
resource 0 answers: after the caller cancels, `Stop` returns different errors
and `Start` returns `context canceled` in both. -/
theorem Start_result_is_trigger_witness :
    (cancelledEnd.stop.map (fun p => p.2.errStop) ≠
      cancelledEndTwo.stop.map (fun p => p.2.errStop)) ∧
    (Start.run twoFailing (Start.init background 0) cancelled = some cancelledState ∧
      (some Canceled : GoError) = some Canceled ∧ (some Canceled : GoError) = some Canceled ∧
      (some Canceled : GoError) = some Canceled) :=
  ⟨by decide,
    Start_result_is_trigger oneFailing twoFailing background 0 cancelled stopAndReturn
      stopAndReturn cancelledState cancelledEnd cancelledEndTwo (some Canceled) (some Canceled)
      (some Canceled) ⟨rfl, rfl⟩ (by decide) rfl (by decide) rfl (by decide) rfl⟩

/-! ## A signal while `Start` waits -/

/-- C10: let `Start` wait in its `select` with the caller's context not done,
no resource outcome to receive and no signal pending, and let one of
`SIGINT`, `SIGTERM`, `SIGQUIT` be delivered.  Then of the cases of the `select`
only `sig := <-ch` can run, it sets `err` to the error with message
`exit by signal(NAME)`, and from there on, for each of the three signals alike,
(a) whatever `Start` returns is that error, and by then `Stop` has returned
after calling the `Stop` of every resource once, and (b) `Start` has a schedule
on which it returns, provided the `Stop` calls of the resources return. -/
theorem Start_exit_by_signal (sp : subProcess) (ctx : Context) (now : Int)
    (pre : List StartAction) (s0 : StartState) (sig : Signal)
    (hsig : sig = .SIGINT ∨ sig = .SIGTERM ∨ sig = .SIGQUIT)
    (hpre : Start.run sp (Start.init ctx now) pre = some s0) (hpc : s0.pc = .select)
    (hctx : s0.ctx.err = none) (hnoerr : Start.step sp s0 .selErr = none)
    (hnosig : Start.step sp s0 .selSig = none) :
    ∃ s1 s2, Start.step sp s0 (.signal sig) = some s1 ∧
      Start.step sp s1 .selCtx = none ∧ Start.step sp s1 .selErr = none ∧
      Start.step sp s1 .selSig = some s2 ∧
      s2.pc = .selected (some ("exit by signal(" ++ sig.text ++ ")")) ∧
      (∀ (post : List StartAction) (s3 : StartState) (r : GoError),
        Start.run sp s2 post = some s3 → s3.pc = .returned r →
        r = some ("exit by signal(" ++ sig.text ++ ")") ∧
        ∃ c st, s3.stop = some (c, st) ∧ st.errStop.isSome = true ∧
          st.calls.Perm ((List.range sp.resources.length).map (fun i => (i, c))) ∧
          (st.calls.map Prod.fst).Nodup) ∧
      ((∀ res ∈ sp.resources, ∀ c, (res.stop c).isSome = true) →
        ∃ post s3, Start.run sp s2 post = some s3 ∧
          s3.pc = .returned (some ("exit by signal(" ++ sig.text ++ ")"))) := by
  have _ := hnoerr -- not needed: `errChan` is nil in every state
  have hs := Start.startInv_run pre (Start.startInv_init sp ctx now) hpre
  obtain ⟨hrelay, buf, hch, _⟩ := hs.sub (by rw [hpc]; intro hc; cases hc)
  have hbuf : buf = [] := by
    cases buf with
    | nil => rfl
    | cons v rest => simp [Start.step, hpc, hch, chanRecv] at hnosig
  subst hbuf
  have hmem : sig ∈ s0.relay := by
    rw [hrelay]
    rcases hsig with h | h | h <;> rw [h] <;> decide
  have hstep1 : Start.step sp s0 (.signal sig) =
      some { s0 with ch := some { cap := 1, buf := [sig] } } := by
    simp [Start.step, hmem, hch, chanSend]
  have hstep2 : Start.step sp { s0 with ch := some { cap := 1, buf := [sig] } } .selSig =
      some { s0 with ch := some { cap := 1, buf := [] },
                     pc := .selected (some (signalErrorf sig)) } := by
    simp [Start.step, hpc, chanRecv]
  have hs1 := Start.startInv_step _ hs hstep1
  have hs2 := Start.startInv_step _ hs1 hstep2
  refine ⟨_, _, hstep1, ?_, ?_, hstep2, rfl, ?_, ?_⟩
  · simp [Start.step, hctx]
  · simp [Start.step, hs.errChan, chanRecv]
  · intro post s3 r hrun hr
    obtain ⟨hre, c, st, r2, hst, hr2, hinv⟩ :=
      Start.returned_facts post hs2 (e := some (signalErrorf sig)) rfl hrun hr
    exact ⟨hre, c, st, hst, by rw [hr2]; rfl, Stop.calls_perm hinv hr2, hinv.calls_nodup⟩
  · intro hret
    exact Start.returns_of_selected rfl hret

/-- C10 at `oneFailing` for `SIGTERM`: `Start` returns the error
`exit by signal(terminated)` after both resources were stopped. -/
theorem Start_exit_by_signal_witness :
    Start.run oneFailing (Start.init background 0)
      (untilSelect ++ [.signal .SIGTERM, .selSig] ++ stopAndReturn) = some signalledEnd ∧
    ∃ s1 s2, Start.step oneFailing waitingState (.signal .SIGTERM) = some s1 ∧
      Start.step oneFailing s1 .selCtx = none ∧ Start.step oneFailing s1 .selErr = none ∧
      Start.step oneFailing s1 .selSig = some s2 ∧
      s2.pc = .selected (some ("exit by signal(" ++ Signal.SIGTERM.text ++ ")")) ∧
      (∀ (post : List StartAction) (s3 : StartState) (r : GoError),
        Start.run oneFailing s2 post = some s3 → s3.pc = .returned r →
        r = some ("exit by signal(" ++ Signal.SIGTERM.text ++ ")") ∧
        ∃ c st, s3.stop = some (c, st) ∧ st.errStop.isSome = true ∧
          st.calls.Perm ((List.range oneFailing.resources.length).map (fun i => (i, c))) ∧
          (st.calls.map Prod.fst).Nodup) ∧
      ((∀ res ∈ oneFailing.resources, ∀ c, (res.stop c).isSome = true) →
        ∃ post s3, Start.run oneFailing s2 post = some s3 ∧
          s3.pc = .returned (some ("exit by signal(" ++ Signal.SIGTERM.text ++ ")"))) :=
  ⟨by decide,
    Start_exit_by_signal oneFailing background 0 untilSelect waitingState .SIGTERM
      (Or.inr (Or.inl rfl)) (by decide) rfl rfl (by decide) (by decide)⟩


/-! ## The inherited descriptors -/

theorem Start.bound_init (sp : subProcess) (ctx : Context) (now : Int) :
    Start.Bound sp (Start.init ctx now) := by
  refine ⟨rfl, rfl, Nat.zero_le _, ?_⟩
  intro h
  exact absurd rfl h

theorem Start.bound_step {sp : subProcess} {s t : StartState} {a : StartAction}
    (hs : Start.Bound sp s) (h : Start.step sp s a = some t) : Start.Bound sp t := by
  obtain ⟨h1, h2, h3, h4⟩ := hs
  cases a <;> simp only [Start.step] at h
  case tick => cases h; exact ⟨h1, h2, h3, h4⟩
  case cancel => split at h <;> cases h; exact ⟨h1, h2, h3, h4⟩
  case expire =>
    split at h
    · split at h <;> cases h
      exact ⟨h1, h2, h3, h4⟩
    · cases h
  case signal sig =>
    split at h
    · split at h <;> cases h <;> exact ⟨h1, h2, h3, h4⟩
    · cases h
  case spawn =>
    split at h
    · rename_i hg
      cases h
      refine ⟨?_, ?_, hg.2, ?_⟩
      · show s.files ++ [(s.idx, 3 + s.idx)] = _
        rw [h1, List.range_succ, List.map_append]
        rfl
      · show (s.tasks ++ [StartTask.spawned]).length = s.idx + 1
        rw [List.length_append, h2]
        rfl
      · intro hpc
        exact absurd hg.1 hpc
    · cases h
  case notify =>
    split at h
    · rename_i hg
      cases h
      exact ⟨h1, h2, h3, fun _ => hg.2⟩
    · cases h
  case startCall i =>
    split at h
    · cases h
      exact ⟨h1, by simpa using h2, h3, h4⟩
    · cases h
  case startRet i =>
    split at h
    · split at h <;> cases h
      exact ⟨h1, by simpa using h2, h3, h4⟩
    · cases h
  case sendErr i =>
    split at h
    · split at h <;> cases h
      exact ⟨h1, by simpa using h2, h3, h4⟩
    · cases h
  case selCtx =>
    split at h
    · rename_i hg
      cases h
      exact ⟨h1, h2, h3, fun _ => h4 (by rw [hg.1]; intro hc; cases hc)⟩
    · cases h
  case selErr =>
    split at h
    · rename_i hg
      split at h <;> cases h
      exact ⟨h1, h2, h3, fun _ => h4 (by rw [hg]; intro hc; cases hc)⟩
    · cases h
  case selSig =>
    split at h
    · rename_i hg
      split at h <;> cases h
      exact ⟨h1, h2, h3, fun _ => h4 (by rw [hg]; intro hc; cases hc)⟩
    · cases h
  case derive =>
    split at h
    · rename_i err hpc
      cases h
      exact ⟨h1, h2, h3, fun _ => h4 (by rw [hpc]; intro hc; cases hc)⟩
    · cases h
  case stop a =>
    split at h
    · split at h <;> cases h
      exact ⟨h1, h2, h3, h4⟩
    · cases h
  case ret =>
    split at h
    · rename_i err c st hpc hst
      split at h <;> cases h
      exact ⟨h1, h2, h3, fun _ => h4 (by rw [hpc]; intro hc; cases hc)⟩
    · cases h

theorem Start.bound_run {sp : subProcess} (acts : List StartAction) :
    ∀ {s t : StartState}, Start.Bound sp s → Start.run sp s acts = some t →
      Start.Bound sp t := by
  induction acts with
  | nil =>
    intro s t hs h
    simp only [Start.run] at h
    cases h
    exact hs
  | cons a as ih =>
    intro s t hs h
    simp only [Start.run] at h
    split at h
    · rename_i u hu
      exact ih (Start.bound_step hs hu) h
    · cases h

/-- C11: in every state `Start` can be in, the calls of `SetFile` made so far
are, in order, one for each of the resources `0, ..., idx - 1` the loop has
got to, resource `i` with the file of descriptor `3 + i`; a goroutine exists
only for a resource already bound, so the `Start` of resource `i` can be called
only after resource `i` was bound to `3 + i`; no descriptor is 0, 1 or 2, no
descriptor and no resource occurs twice; and once the loop is over every
resource of the set is bound. -/
theorem Start_binds_descriptors (sp : subProcess) (ctx : Context) (now : Int)
    (acts : List StartAction) (s : StartState)
    (hrun : Start.run sp (Start.init ctx now) acts = some s) :
    s.files = (List.range s.idx).map (fun i => (i, 3 + i)) ∧
    (∀ i t, Start.step sp s (.startCall i) = some t → (i, 3 + i) ∈ s.files) ∧
    (∀ p ∈ s.files, p.2 = 3 + p.1 ∧ 3 ≤ p.2) ∧
    (s.files.map Prod.snd).Nodup ∧ (s.files.map Prod.fst).Nodup ∧
    (s.pc ≠ .loop → s.files = (List.range sp.resources.length).map (fun i => (i, 3 + i))) := by
  have hb := Start.bound_run acts (Start.bound_init sp ctx now) hrun
  refine ⟨hb.files, ?_, ?_, ?_, ?_, ?_⟩
  · intro i t ht
    simp only [Start.step] at ht
    split at ht
    · rename_i hi
      have hlt : i < s.idx := by
        rw [← hb.len]
        exact (List.getElem?_eq_some_iff.1 hi).1
      rw [hb.files]
      exact List.mem_map.2 ⟨i, List.mem_range.2 hlt, rfl⟩
    · cases ht
  · intro p hp
    rw [hb.files] at hp
    obtain ⟨i, _, hi⟩ := List.mem_map.1 hp
    rw [← hi]
    exact ⟨rfl, Nat.le_add_right 3 i⟩
  · rw [hb.files, List.map_map]
    apply List.Nodup.map
    · intro a b hab
      simp only [Function.comp] at hab
      omega
    · exact List.nodup_range _
  · rw [hb.files, List.map_map]
    apply List.Nodup.map
    · intro a b hab
      exact hab
    · exact List.nodup_range _
  · intro hpc
    rw [hb.files, hb.past hpc]

/-- C11 at `oneFailing`, whose two resources are bound to the descriptors 3
and 4. -/
theorem Start_binds_descriptors_witness :
    waitingState.files = [(0, 3), (1, 4)] ∧
    (waitingState.files = (List.range waitingState.idx).map (fun i => (i, 3 + i)) ∧
    (∀ i t, Start.step oneFailing waitingState (.startCall i) = some t →
      (i, 3 + i) ∈ waitingState.files) ∧
    (∀ p ∈ waitingState.files, p.2 = 3 + p.1 ∧ 3 ≤ p.2) ∧
    (waitingState.files.map Prod.snd).Nodup ∧ (waitingState.files.map Prod.fst).Nodup ∧
    (waitingState.pc ≠ .loop →
      waitingState.files = (List.range oneFailing.resources.length).map (fun i => (i, 3 + i)))) :=
  ⟨rfl, Start_binds_descriptors oneFailing background 0 untilSelect waitingState (by decide)⟩

/-! ## The signal subscription -/

/-- C13, as stated, fails: before the call nothing is relayed to `ch`, and
after `Start` of `oneFailing` has returned `context canceled` the three signals
still are; a `SIGTERM` delivered then is put in `ch`. -/
theorem Start_subscription_counterexample :
    (Start.init background 0).relay = [] ∧
    Start.run oneFailing (Start.init background 0) (cancelled ++ stopAndReturn) =
      some cancelledEnd ∧
    cancelledEnd.pc = .returned (some Canceled) ∧
    cancelledEnd.relay = [.SIGINT, .SIGTERM, .SIGQUIT] ∧
    cancelledEnd.relay ≠ (Start.init background 0).relay ∧
    Start.step oneFailing cancelledEnd (.signal .SIGTERM) =
      some { cancelledEnd with ch := some { cap := 1, buf := [.SIGTERM] } } := by
  refine ⟨rfl, by decide, rfl, rfl, by decide, by decide⟩

/-- C13, amended: `Start` has no call that undoes `signal.Notify`.  From
lines 55-56 on, and so whenever `Start` has returned, `SIGINT`, `SIGTERM` and
`SIGQUIT` are relayed to the channel `ch` of that call, which nothing
receives from any more: a signal delivered after the return is still taken by
the subscription (put in `ch`, or dropped when `ch` is full). -/
theorem Start_subscription_stays (sp : subProcess) (ctx : Context) (now : Int)
    (acts : List StartAction) (s : StartState) (r : GoError)
    (hrun : Start.run sp (Start.init ctx now) acts = some s) (hret : s.pc = .returned r) :
    (Start.init ctx now).relay = [] ∧ s.relay = notifySignals ∧
    (∃ buf, s.ch = some { cap := 1, buf := buf }) ∧
    ∀ sig ∈ notifySignals, ∃ t, Start.step sp s (.signal sig) = some t ∧
      t.relay = notifySignals ∧ t.pc = .returned r := by
  have hs := Start.startInv_run acts (Start.startInv_init sp ctx now) hrun
  obtain ⟨hrelay, buf, hch, _⟩ := hs.sub (by rw [hret]; intro hc; cases hc)
  refine ⟨rfl, hrelay, ⟨buf, hch⟩, ?_⟩
  intro sig hsig
  have hmem : sig ∈ s.relay := by rw [hrelay]; exact hsig
  simp only [Start.step, hmem, if_true]
  cases hsend : chanSend s.ch sig with
  | none => exact ⟨s, rfl, hrelay, hret⟩
  | some c => exact ⟨_, rfl, hrelay, hret⟩

/-- C13, amended, at `oneFailing` after the caller cancelled. -/
theorem Start_subscription_stays_witness :
    (Start.init background 0).relay = [] ∧ cancelledEnd.relay = notifySignals ∧
    (∃ buf, cancelledEnd.ch = some { cap := 1, buf := buf }) ∧
    ∀ sig ∈ notifySignals, ∃ t, Start.step oneFailing cancelledEnd (.signal sig) = some t ∧
      t.relay = notifySignals ∧ t.pc = .returned (some Canceled) :=
  Start_subscription_stays oneFailing background 0 (cancelled ++ stopAndReturn) cancelledEnd
    (some Canceled) (by decide) rfl

end grace

namespace fstypes

/-! # Theorems about `fstypes` -/

/-! ## `strings.TrimSpace` -/

theorem TrimSpace_eq_nil_iff (s : List Char) :
    TrimSpace s = [] ↔ ∀ c ∈ s, isSpace c = true := by
  unfold TrimSpace
  rw [List.reverse_eq_nil_iff, List.dropWhile_eq_nil_iff]
  constructor
  · intro h
    have hnil : s.dropWhile isSpace = [] := by
      cases hl : s.dropWhile isSpace with
      | nil => rfl
      | cons c rest =>
        have h1 := List.head?_dropWhile_not isSpace s
        rw [hl] at h1
        simp only [List.head?_cons] at h1
        have h2 := h c (by rw [hl]; simp)
        rw [h1] at h2
        cases h2
    exact List.dropWhile_eq_nil_iff.1 hnil
  · intro h c hc
    have hnil : s.dropWhile isSpace = [] := List.dropWhile_eq_nil_iff.2 h
    rw [hnil] at hc
    simp at hc

theorem TrimSpace_getLast (s : List Char) (c : Char) (h : (TrimSpace s).getLast? = some c) :
    isSpace c = false := by
  unfold TrimSpace at h
  rw [List.getLast?_reverse] at h
  have h1 := List.head?_dropWhile_not isSpace (s.dropWhile isSpace).reverse
  rw [h] at h1
  exact h1

theorem TrimSpace_head (s : List Char) (c : Char) (h : (TrimSpace s).head? = some c) :
    isSpace c = false := by
  unfold TrimSpace at h
  rw [List.head?_reverse] at h
  have hsuf := List.dropWhile_suffix (l := (s.dropWhile isSpace).reverse) isSpace
  have hne : (s.dropWhile isSpace).reverse.dropWhile isSpace ≠ [] := by
    intro h0
    rw [h0] at h
    cases h
  have hlast := hsuf.getLast hne
  rw [List.getLast?_eq_getLast _ hne, hlast] at h
  have hne2 : s.dropWhile isSpace ≠ [] := by
    intro h0
    exact hsuf.ne_nil hne (by rw [h0]; rfl)
  rw [List.getLast_reverse] at h
  have h1 := List.head_dropWhile_not isSpace s hne2
  simp only [Option.some.injEq] at h
  rw [← h]
  exact h1

theorem TrimSpace_of_no_space (s : List Char) (h : ∀ c ∈ s, isSpace c = false) :
    TrimSpace s = s := by
  have key : ∀ l : List Char, (∀ c ∈ l, isSpace c = false) → l.dropWhile isSpace = l := by
    intro l hl
    cases l with
    | nil => rfl
    | cons c rest =>
      have := hl c (List.mem_cons_self _ _)
      simp [List.dropWhile_cons, this]
  unfold TrimSpace
  rw [key s h, key s.reverse (fun c hc => h c (List.mem_reverse.1 hc)), List.reverse_reverse]

theorem nonblank_mem {vs : List (List Char)} {v : List Char} (h : v ∈ nonblank vs) :
    v ≠ [] ∧ ∃ piece ∈ vs, TrimSpace piece = v := by
  unfold nonblank at h
  rw [List.mem_filter] at h
  obtain ⟨hm, hne⟩ := h
  obtain ⟨piece, hp, hv⟩ := List.mem_map.1 hm
  refine ⟨?_, piece, hp, hv⟩
  intro h0
  rw [h0] at hne
  simp at hne

theorem nonblank_nil : nonblank [] = [] := rfl

theorem nonblank_cons_blank {piece : List Char} (vs : List (List Char))
    (h : TrimSpace piece = []) : nonblank (piece :: vs) = nonblank vs := by
  simp [nonblank, h]

theorem nonblank_cons {piece : List Char} (vs : List (List Char))
    (h : TrimSpace piece ≠ []) : nonblank (piece :: vs) = TrimSpace piece :: nonblank vs := by
  have : (TrimSpace piece).isEmpty = false := by
    cases hv : TrimSpace piece with
    | nil => exact absurd hv h
    | cons c rest => rfl
  simp [nonblank, this]

theorem nonblank_eq_nil_of_blank {vs : List (List Char)}
    (h : ∀ piece ∈ vs, TrimSpace piece = []) : nonblank vs = [] := by
  induction vs with
  | nil => rfl
  | cons p rest ih =>
    rw [nonblank_cons_blank _ (h p (List.mem_cons_self _ _))]
    exact ih (fun q hq => h q (List.mem_cons_of_mem _ hq))

/-! ## `strings.Split` -/

theorem splitFrom_chars (sep : List Char) (input : List Char) :
    ∀ (skip : Nat) (cur piece : List Char), piece ∈ splitFrom sep skip cur input →
      ∀ c ∈ piece, c ∈ cur ∨ c ∈ input := by
  induction input with
  | nil =>
    intro skip cur piece hp c hc
    simp only [splitFrom, List.mem_singleton] at hp
    subst hp
    exact Or.inl (List.mem_reverse.1 hc)
  | cons d rest ih =>
    intro skip cur piece hp c hc
    cases skip with
    | succ k =>
      simp only [splitFrom] at hp
      rcases ih k cur piece hp c hc with h | h
      · exact Or.inl h
      · exact Or.inr (List.mem_cons_of_mem _ h)
    | zero =>
      simp only [splitFrom] at hp
      split at hp
      · rcases List.mem_cons.1 hp with h | h
        · subst h
          exact Or.inl (List.mem_reverse.1 hc)
        · rcases ih _ [] piece h c hc with h2 | h2
          · cases h2
          · exact Or.inr (List.mem_cons_of_mem _ h2)
      · rcases ih 0 (d :: cur) piece hp c hc with h | h
        · rcases List.mem_cons.1 h with h2 | h2
          · subst h2
            exact Or.inr (List.mem_cons_self _ _)
          · exact Or.inl h2
        · exact Or.inr (List.mem_cons_of_mem _ h)

/-- Every character of a piece of `Split s sep` is a character of `s`. -/
theorem Split_chars {s sep piece : List Char} (hp : piece ∈ Split s sep) :
    ∀ c ∈ piece, c ∈ s := by
  intro c hc
  unfold Split at hp
  split at hp
  · obtain ⟨d, hd, hpd⟩ := List.mem_map.1 hp
    subst hpd
    rw [List.mem_singleton.1 hc]
    exact hd
  · rcases splitFrom_chars sep s 0 [] piece hp c hc with h | h
    · cases h
    · exact h

/-- A string with nothing but white space has only blank pieces. -/
theorem nonblank_Split_of_blank {s : List Char} (sep : List Char) (h : TrimSpace s = []) :
    nonblank (Split s sep) = [] := by
  apply nonblank_eq_nil_of_blank
  intro piece hp
  rw [TrimSpace_eq_nil_iff] at h ⊢
  intro c hc
  exact h c (Split_chars hp c hc)

theorem splitFrom_single_ne {c d : Char} (cur rest : List Char) (hcd : c ≠ d) :
    splitFrom [d] 0 cur (c :: rest) = splitFrom [d] 0 (c :: cur) rest := by
  have h : startsWith (c :: rest) [d] = false := by
    simp [startsWith, hcd]
  rw [splitFrom, h]
  simp

theorem splitFrom_single_eq (d : Char) (cur rest : List Char) :
    splitFrom [d] 0 cur (d :: rest) = cur.reverse :: splitFrom [d] 0 [] rest := by
  have h : startsWith (d :: rest) [d] = true := by
    simp [startsWith]
  rw [splitFrom, h]
  simp

theorem splitFrom_single_no_sep (d : Char) (p : List Char) (hd : d ∉ p) :
    ∀ cur : List Char, splitFrom [d] 0 cur p = [cur.reverse ++ p] := by
  induction p with
  | nil =>
    intro cur
    simp [splitFrom]
  | cons c rest ih =>
    intro cur
    have hcd : c ≠ d := fun h => hd (by rw [h]; exact List.mem_cons_self _ _)
    have hrest : d ∉ rest := fun h => hd (List.mem_cons_of_mem _ h)
    rw [splitFrom_single_ne _ _ hcd, ih hrest]
    simp

theorem splitFrom_single_sep (d : Char) (p rest : List Char) (hd : d ∉ p) :
    ∀ cur : List Char, splitFrom [d] 0 cur (p ++ d :: rest) =
      (cur.reverse ++ p) :: splitFrom [d] 0 [] rest := by
  induction p with
  | nil =>
    intro cur
    rw [List.nil_append, splitFrom_single_eq]
    simp
  | cons c p2 ih =>
    intro cur
    have hcd : c ≠ d := fun h => hd (by rw [h]; exact List.mem_cons_self _ _)
    have hrest : d ∉ p2 := fun h => hd (List.mem_cons_of_mem _ h)
    rw [List.cons_append, splitFrom_single_ne _ _ hcd, ih hrest]
    simp

/-- Cutting at `d` what was joined with `d` gives the pieces back, when no
piece holds `d`. -/
theorem Split_Join_single (d : Char) (pieces : List (List Char)) (hne : pieces ≠ [])
    (hd : ∀ p ∈ pieces, d ∉ p) : Split (Join pieces [d]) [d] = pieces := by
  have hsep : ¬ ([d] = ([] : List Char)) := by simp
  unfold Split
  rw [if_neg hsep]
  induction pieces with
  | nil => exact absurd rfl hne
  | cons p rest ih =>
    cases rest with
    | nil =>
      simp only [Join]
      rw [splitFrom_single_no_sep d p (hd p (List.mem_cons_self _ _))]
      simp
    | cons q rest2 =>
      have hj : Join (p :: q :: rest2) [d] = p ++ d :: Join (q :: rest2) [d] := by
        simp [Join]
      rw [hj, splitFrom_single_sep d p _ (hd p (List.mem_cons_self _ _))]
      rw [ih (by simp) (fun x hx => hd x (List.mem_cons_of_mem _ hx))]
      simp

/-! ## The loop of the conversions -/

theorem convert_spec {α : Type} (parse : List Char → α × Option NumError)
    (vs : List (List Char)) : ∀ (i : Nat) (result : List α),
    ((convert parse vs i result).2 ≠ none ↔ ∃ v ∈ nonblank vs, (parse v).2 ≠ none) ∧
    ((convert parse vs i result).2 ≠ none → (convert parse vs i result).1 = none) ∧
    ((convert parse vs i result).2 = none →
      (convert parse vs i result).1 =
        some (result ++ (nonblank vs).map (fun v => (parse v).1))) := by
  induction vs with
  | nil =>
    intro i result
    simp [convert, nonblank_nil]
  | cons piece rest ih =>
    intro i result
    by_cases hb : TrimSpace piece = []
    · have hc : convert parse (piece :: rest) i result = convert parse rest (i + 1) result := by
        simp [convert, hb]
      rw [hc, nonblank_cons_blank _ hb]
      exact ih (i + 1) result
    · rw [nonblank_cons _ hb]
      cases hp : parse (TrimSpace piece) with
      | mk vi e =>
        cases e with
        | none =>
          have hc : convert parse (piece :: rest) i result =
              convert parse rest (i + 1) (result ++ [vi]) := by
            simp [convert, hb, hp]
          rw [hc]
          obtain ⟨h1, h2, h3⟩ := ih (i + 1) (result ++ [vi])
          refine ⟨?_, h2, ?_⟩
          · rw [h1]
            simp [hp]
          · intro h
            rw [h3 h]
            simp [hp]
        | some err =>
          have hc : convert parse (piece :: rest) i result =
              (none, some { index := i, piece := piece, cause := err }) := by
            simp [convert, hb, hp]
          rw [hc]
          refine ⟨?_, fun _ => rfl, ?_⟩
          · simp [hp]
          · intro h
            cases h

theorem TrimSpace_nil : TrimSpace [] = [] := rfl

theorem split_none {s sep : List Char} (h : split s sep = none) : TrimSpace s = [] := by
  unfold split at h
  split at h
  · rename_i hs
    rw [hs]
    rfl
  · split at h
    · assumption
    · cases h

theorem split_some {s sep : List Char} {vs : List (List Char)} (h : split s sep = some vs) :
    vs = Split s sep ∧ TrimSpace s ≠ [] := by
  unfold split at h
  split at h
  · cases h
  · split at h
    · cases h
    · rename_i hne
      cases h
      exact ⟨rfl, hne⟩

/-- What each of the six conversions does, in terms of the trimmed pieces of
`s` that are not empty: it fails exactly when `parse` fails on one of them,
the slice is nil when it fails, and otherwise the slice holds what `parse`
gives for each of them, in order. -/
theorem toSlice_spec {α : Type} (parse : List Char → α × Option NumError)
    (s sep : List Char) :
    ((toSlice parse s sep).2 ≠ none ↔ ∃ v ∈ nonblank (Split s sep), (parse v).2 ≠ none) ∧
    ((toSlice parse s sep).2 ≠ none → (toSlice parse s sep).1 = none) ∧
    ((toSlice parse s sep).2 = none →
      elems (toSlice parse s sep).1 = (nonblank (Split s sep)).map (fun v => (parse v).1)) := by
  unfold toSlice
  cases hs : split s sep with
  | none =>
    have hb := nonblank_Split_of_blank sep (split_none hs)
    simp [hb, elems]
  | some vs =>
    obtain ⟨hvs, _⟩ := split_some hs
    subst hvs
    by_cases hlen : (Split s sep).length = 0
    · have hnil : Split s sep = [] := List.length_eq_zero.1 hlen
      simp [hnil, nonblank_nil, elems]
    · simp only [hlen, if_false]
      obtain ⟨h1, h2, h3⟩ := convert_spec parse (Split s sep) 0 []
      refine ⟨h1, h2, ?_⟩
      intro h
      rw [h3 h]
      simp [elems]

/-- A string that is empty or holds only white space gives the nil slice and
no error. -/
theorem toSlice_blank {α : Type} (parse : List Char → α × Option NumError)
    (s sep : List Char) (h : TrimSpace s = []) : toSlice parse s sep = (none, none) := by
  unfold toSlice split
  by_cases hs : s = []
  · simp [hs]
  · simp [hs, h]

/-! ## `strconv.ParseUint` and `strconv.ParseInt` -/

theorem decimalNat_ge : ∀ (cs : List Char) (n m : Nat), decimalNat cs n = some m → n ≤ m := by
  intro cs
  induction cs with
  | nil =>
    intro n m h
    simp only [decimalNat, Option.some.injEq] at h
    omega
  | cons c rest ih =>
    intro n m h
    simp only [decimalNat] at h
    split at h
    · have := ih _ _ h
      omega
    · cases h

theorem parseUintLoop_spec (maxVal : Nat) (hmax : maxVal ≤ 2 ^ 64 - 1) :
    ∀ (cs : List Char) (n : Nat), n ≤ maxVal →
      ((parseUintLoop maxVal cs n).2 = none →
        decimalNat cs n = some (parseUintLoop maxVal cs n).1 ∧
          (parseUintLoop maxVal cs n).1 ≤ maxVal) ∧
      (∀ m, decimalNat cs n = some m → m ≤ maxVal → parseUintLoop maxVal cs n = (m, none)) ∧
      ((parseUintLoop maxVal cs n).2 = some .ErrRange →
        (parseUintLoop maxVal cs n).1 = maxVal) := by
  intro cs
  induction cs with
  | nil =>
    intro n hn
    refine ⟨?_, ?_, ?_⟩
    · intro _
      exact ⟨rfl, hn⟩
    · intro m hm _
      simp only [decimalNat, Option.some.injEq] at hm
      rw [← hm]
      rfl
    · intro h
      simp only [parseUintLoop] at h
      cases h
  | cons c rest ih =>
    intro n hn
    by_cases hd : 48 ≤ c.toNat ∧ c.toNat ≤ 57
    · have hdn : decimalNat (c :: rest) n = decimalNat rest (n * 10 + (c.toNat - 48)) := by
        simp only [decimalNat, hd, and_self, if_true]
      by_cases hc : n ≥ cutoff10
      · have hl : parseUintLoop maxVal (c :: rest) n = (maxVal, some .ErrRange) := by
          simp only [parseUintLoop, hd, and_self, if_true, hc]
        refine ⟨?_, ?_, ?_⟩
        · intro h
          rw [hl] at h
          cases h
        · intro m hm hle
          rw [hdn] at hm
          have := decimalNat_ge _ _ _ hm
          unfold cutoff10 at hc
          omega
        · intro _
          rw [hl]
      · by_cases hov : n * 10 + (c.toNat - 48) > maxVal
        · have hl : parseUintLoop maxVal (c :: rest) n = (maxVal, some .ErrRange) := by
            simp only [parseUintLoop, hd, and_self, if_true, hc, if_false, hov]
          refine ⟨?_, ?_, ?_⟩
          · intro h
            rw [hl] at h
            cases h
          · intro m hm hle
            rw [hdn] at hm
            have := decimalNat_ge _ _ _ hm
            omega
          · intro _
            rw [hl]
        · have hl : parseUintLoop maxVal (c :: rest) n =
              parseUintLoop maxVal rest (n * 10 + (c.toNat - 48)) := by
            simp only [parseUintLoop, hd, and_self, if_true, hc, if_false, hov]
          rw [hl, hdn]
          exact ih _ (by omega)
    · have hl : parseUintLoop maxVal (c :: rest) n = (0, some .ErrSyntax) := by
        simp only [parseUintLoop, hd, if_false]
      have hdn : decimalNat (c :: rest) n = none := by
        simp only [decimalNat, hd, if_false]
      refine ⟨?_, ?_, ?_⟩
      · intro h
        rw [hl] at h
        cases h
      · intro m hm
        rw [hdn] at hm
        cases hm
      · intro h
        rw [hl] at h
        cases h

theorem two_pow_le_64 {bits : Nat} (hb : bits ≤ 64) : 2 ^ bits - 1 ≤ 2 ^ 64 - 1 := by
  have := Nat.pow_le_pow_right (show 0 < 2 by decide) hb
  omega

/-- `ParseUint` succeeds exactly on a non-empty run of decimal digits whose
value fits `bitSize` bits, and then returns that value; on a range error it
returns the largest value. -/
theorem ParseUint_spec (s : List Char) (bits : Nat) (hb : bits ≤ 64) :
    ((ParseUint s bits).2 = none →
      s ≠ [] ∧ decimalNat s 0 = some (ParseUint s bits).1 ∧ (ParseUint s bits).1 < 2 ^ bits) ∧
    (∀ m, s ≠ [] → decimalNat s 0 = some m → m < 2 ^ bits → ParseUint s bits = (m, none)) ∧
    ((ParseUint s bits).2 = some .ErrRange → (ParseUint s bits).1 = 2 ^ bits - 1) := by
  have hpos : 0 < 2 ^ bits := Nat.two_pow_pos bits
  obtain ⟨h1, h2, h3⟩ := parseUintLoop_spec (2 ^ bits - 1) (two_pow_le_64 hb) s 0 (Nat.zero_le _)
  by_cases hs : s = []
  · have hl : ParseUint s bits = (0, some .ErrSyntax) := by
      simp only [ParseUint, hs, if_true]
    refine ⟨?_, ?_, ?_⟩
    · intro h
      rw [hl] at h
      cases h
    · intro m hne
      exact absurd hs hne
    · intro h
      rw [hl] at h
      cases h
  · have hl : ParseUint s bits = parseUintLoop (2 ^ bits - 1) s 0 := by
      simp only [ParseUint, hs, if_false]
    rw [hl]
    refine ⟨?_, ?_, h3⟩
    · intro h
      obtain ⟨ha, hb2⟩ := h1 h
      exact ⟨hs, ha, by omega⟩
    · intro m _ hm hlt
      exact h2 m hm (by omega)

theorem ParseInt_of_digits (c : Char) (rest digits : List Char) (bits : Nat) (neg : Prop)
    [Decidable neg] (hneg : neg ↔ c.toNat = 45)
    (hdigits : digits = if c.toNat = 43 ∨ c.toNat = 45 then rest else c :: rest) :
    ParseInt (c :: rest) bits =
      match ParseUint digits bits with
      | (_, some .ErrSyntax) => (0, some .ErrSyntax)
      | (un, _) =>
        if ¬ neg ∧ un ≥ 2 ^ (bits - 1) then
          (toInt64 ((2 ^ (bits - 1) - 1 : Nat) : Int), some .ErrRange)
        else if neg ∧ un > 2 ^ (bits - 1) then
          (toInt64 (- toInt64 ((2 ^ (bits - 1) : Nat) : Int)), some .ErrRange)
        else (if neg then toInt64 (- toInt64 un) else toInt64 un, none) := by
  subst hdigits
  simp only [ParseInt, hneg]

/-- The range check at the end of `ParseInt`, for a magnitude `un` and a
cutoff of at most `2^63`. -/
theorem rangeCheck_spec (cutoff un : Nat) (hc : cutoff ≤ 2 ^ 63) (hc0 : 0 < cutoff)
    (neg : Prop) [Decidable neg]
    (r : Int × Option NumError)
    (hr : r = if ¬ neg ∧ un ≥ cutoff then (toInt64 ((cutoff - 1 : Nat) : Int), some .ErrRange)
      else if neg ∧ un > cutoff then (toInt64 (- toInt64 ((cutoff : Nat) : Int)), some .ErrRange)
      else (if neg then toInt64 (- toInt64 un) else toInt64 un, none)) :
    (r.2 = none → r.1 = (if neg then - (un : Int) else (un : Int)) ∧
      - (cutoff : Int) ≤ (if neg then - (un : Int) else (un : Int)) ∧
      (if neg then - (un : Int) else (un : Int)) < cutoff) ∧
    (- (cutoff : Int) ≤ (if neg then - (un : Int) else (un : Int)) →
      (if neg then - (un : Int) else (un : Int)) < cutoff →
      r = (if neg then - (un : Int) else (un : Int), none)) := by
  by_cases hng : neg
  · simp only [hng, not_true_eq_false, false_and, if_false, true_and, if_true] at hr ⊢
    by_cases hgt : un > cutoff
    · rw [if_pos hgt] at hr
      refine ⟨?_, ?_⟩
      · intro h
        rw [hr] at h
        cases h
      · intro h1 _
        omega
    · rw [if_neg hgt] at hr
      have hv : toInt64 (- toInt64 (un : Int)) = - (un : Int) := by
        unfold toInt64
        omega
      rw [hv] at hr
      refine ⟨?_, ?_⟩
      · intro _
        refine ⟨?_, ?_, ?_⟩
        · rw [hr]
        · omega
        · omega
      · intro _ _
        exact hr
  · simp only [hng, not_false_eq_true, true_and, false_and, if_false] at hr ⊢
    by_cases hge : un ≥ cutoff
    · rw [if_pos hge] at hr
      refine ⟨?_, ?_⟩
      · intro h
        rw [hr] at h
        cases h
      · intro _ h2
        omega
    · rw [if_neg hge] at hr
      have hv : toInt64 (un : Int) = (un : Int) := by
        unfold toInt64
        omega
      rw [hv] at hr
      refine ⟨?_, ?_⟩
      · intro _
        refine ⟨?_, ?_, ?_⟩
        · rw [hr]
        · omega
        · omega
      · intro _ _
        exact hr

/-- What `ParseInt` gives in terms of the digits after the sign. -/
theorem ParseInt_cases (bits : Nat) (hb : bits = 32 ∨ bits = 64) (c : Char)
    (rest digits : List Char) (neg : Prop) [Decidable neg] (hneg : neg ↔ c.toNat = 45)
    (hdigits : digits = if c.toNat = 43 ∨ c.toNat = 45 then rest else c :: rest) :
    ((ParseInt (c :: rest) bits).2 = none →
      ∃ n : Nat, digits ≠ [] ∧ decimalNat digits 0 = some n ∧
        (ParseInt (c :: rest) bits).1 = (if neg then - (n : Int) else (n : Int)) ∧
        - ((2 ^ (bits - 1) : Nat) : Int) ≤ (if neg then - (n : Int) else (n : Int)) ∧
        (if neg then - (n : Int) else (n : Int)) < ((2 ^ (bits - 1) : Nat) : Int)) ∧
    (∀ n : Nat, digits ≠ [] → decimalNat digits 0 = some n →
      - ((2 ^ (bits - 1) : Nat) : Int) ≤ (if neg then - (n : Int) else (n : Int)) →
      (if neg then - (n : Int) else (n : Int)) < ((2 ^ (bits - 1) : Nat) : Int) →
      ParseInt (c :: rest) bits = (if neg then - (n : Int) else (n : Int), none)) := by
  have hb64 : bits ≤ 64 := by rcases hb with h | h <;> omega
  have hcut : 2 ^ (bits - 1) ≤ 2 ^ 63 :=
    Nat.pow_le_pow_right (by decide) (by rcases hb with h | h <;> omega)
  have hdouble : 2 ^ bits = 2 * 2 ^ (bits - 1) := by
    rcases hb with h | h <;> subst h <;> norm_num
  obtain ⟨h1, h2, h3⟩ := ParseUint_spec digits bits hb64
  have hP := ParseInt_of_digits c rest digits bits neg hneg hdigits
  cases hp : ParseUint digits bits with
  | mk un e =>
    rw [hp] at h1 h3 hP
    simp only at h1 h3
    have hlt_of : ∀ n : Nat,
        - ((2 ^ (bits - 1) : Nat) : Int) ≤ (if neg then - (n : Int) else (n : Int)) →
        (if neg then - (n : Int) else (n : Int)) < ((2 ^ (bits - 1) : Nat) : Int) →
        n < 2 ^ bits := by
      intro n hlo hhi
      by_cases hng : neg <;> simp only [hng, if_true, if_false] at hlo hhi <;> omega
    cases e with
    | some err =>
      cases err with
      | ErrSyntax =>
        simp only at hP
        refine ⟨?_, ?_⟩
        · intro h
          rw [hP] at h
          cases h
        · intro n hne hn hlo hhi
          have := h2 n hne hn (hlt_of n hlo hhi)
          rw [hp] at this
          cases this
      | ErrRange =>
        have hun : un = 2 ^ bits - 1 := h3 rfl
        simp only at hP
        obtain ⟨hr1, _⟩ := rangeCheck_spec (2 ^ (bits - 1)) un hcut (Nat.two_pow_pos _) neg _ hP
        refine ⟨?_, ?_⟩
        · intro h
          exfalso
          obtain ⟨_, hlo, hhi⟩ := hr1 h
          have hpos : 2 ≤ 2 ^ (bits - 1) := by
            rcases hb with h | h <;> subst h <;> norm_num
          by_cases hng : neg <;> simp only [hng, if_true, if_false] at hlo hhi <;> omega
        · intro n hne hn hlo hhi
          have := h2 n hne hn (hlt_of n hlo hhi)
          rw [hp] at this
          cases this
    | none =>
      obtain ⟨hne, hdn, hlt⟩ := h1 rfl
      simp only at hP
      obtain ⟨hr1, hr2⟩ := rangeCheck_spec (2 ^ (bits - 1)) un hcut (Nat.two_pow_pos _) neg _ hP
      refine ⟨?_, ?_⟩
      · intro h
        obtain ⟨hv, hlo, hhi⟩ := hr1 h
        exact ⟨un, hne, hdn, hv, hlo, hhi⟩
      · intro n _ hn hlo hhi
        rw [hdn] at hn
        cases hn
        exact hr2 hlo hhi

theorem decimalInt_cons (c : Char) (rest : List Char) :
    decimalInt (c :: rest) =
      if (if c.toNat = 43 ∨ c.toNat = 45 then rest else c :: rest) = [] then none
      else Option.map (fun n : Nat => if c.toNat = 45 then - (n : Int) else (n : Int))
        (decimalNat (if c.toNat = 43 ∨ c.toNat = 45 then rest else c :: rest) 0) := rfl

/-- `ParseInt` succeeds exactly on the texts that denote a base-10 integer
within the range of `bitSize` bits, and returns that integer. -/
theorem ParseInt_spec (v : List Char) (bits : Nat) (hb : bits = 32 ∨ bits = 64) :
    ((ParseInt v bits).2 = none →
      ∃ z, decimalInt v = some z ∧ (ParseInt v bits).1 = z ∧
        - ((2 ^ (bits - 1) : Nat) : Int) ≤ z ∧ z < ((2 ^ (bits - 1) : Nat) : Int)) ∧
    (∀ z, decimalInt v = some z → - ((2 ^ (bits - 1) : Nat) : Int) ≤ z →
      z < ((2 ^ (bits - 1) : Nat) : Int) → ParseInt v bits = (z, none)) := by
  cases v with
  | nil =>
    refine ⟨?_, ?_⟩
    · intro h
      simp only [ParseInt] at h
      cases h
    · intro z hz
      simp only [decimalInt] at hz
      cases hz
  | cons c rest =>
    obtain ⟨h1, h2⟩ := ParseInt_cases bits hb c rest
      (if c.toNat = 43 ∨ c.toNat = 45 then rest else c :: rest) (c.toNat = 45) Iff.rfl rfl
    rw [decimalInt_cons]
    generalize (if c.toNat = 43 ∨ c.toNat = 45 then rest else c :: rest) = digits at h1 h2 ⊢
    refine ⟨?_, ?_⟩
    · intro h
      obtain ⟨n, hne, hn, hv, hlo, hhi⟩ := h1 h
      refine ⟨_, ?_, hv, hlo, hhi⟩
      rw [if_neg hne, hn]
      rfl
    · intro z hz hlo hhi
      by_cases hne : digits = []
      · rw [if_pos hne] at hz
        cases hz
      · rw [if_neg hne] at hz
        cases hn : decimalNat digits 0 with
        | none =>
          rw [hn] at hz
          cases hz
        | some n =>
          rw [hn] at hz
          simp only [Option.map_some', Option.some.injEq] at hz
          subst hz
          exact h2 n hne hn hlo hhi

/-! ## The conversions: the claims -/

theorem mem_nonblank_iff (vs : List (List Char)) (v : List Char) :
    v ∈ nonblank vs ↔ v ≠ [] ∧ ∃ piece ∈ vs, TrimSpace piece = v := by
  constructor
  · exact nonblank_mem
  · rintro ⟨hne, piece, hp, hv⟩
    unfold nonblank
    rw [List.mem_filter]
    refine ⟨List.mem_map.2 ⟨piece, hp, hv⟩, ?_⟩
    cases v with
    | nil => exact absurd rfl hne
    | cons c rest => rfl

/-- C12: `ToStrSlice` never returns an error, and the slice it returns holds,
in order, the pieces of `s` cut at `sep`, each trimmed of white space, without
those that are empty once trimmed; so every element is non-empty and neither
begins nor ends with white space.  For `a, c,` cut at `,` that is `a` and
`c`. -/
theorem ToStrSlice_trimmed_pieces (s sep : List Char) :
    (ToStrSlice s sep).2 = none ∧
    elems (ToStrSlice s sep).1 =
      ((Split s sep).map TrimSpace).filter (fun v => !v.isEmpty) ∧
    (∀ v ∈ elems (ToStrSlice s sep).1, v ≠ [] ∧ (∃ piece ∈ Split s sep, TrimSpace piece = v) ∧
      (∀ c, v.head? = some c → isSpace c = false) ∧
      (∀ c, v.getLast? = some c → isSpace c = false)) ∧
    ToStrSlice "a, c,".data ",".data = (some ["a".data, "c".data], none) := by
  obtain ⟨h1, _, h3⟩ := toSlice_spec (fun v => (v, (none : Option NumError))) s sep
  have herr : (ToStrSlice s sep).2 = none := by
    by_contra hne
    obtain ⟨v, _, hv⟩ := h1.1 hne
    exact hv rfl
  have hel : elems (ToStrSlice s sep).1 = nonblank (Split s sep) := by
    have := h3 herr
    simp only [List.map_id'] at this
    exact this
  refine ⟨herr, hel, ?_, by decide⟩
  intro v hv
  rw [hel] at hv
  obtain ⟨hne, piece, hp, hpv⟩ := nonblank_mem hv
  refine ⟨hne, ⟨piece, hp, hpv⟩, ?_, ?_⟩
  · intro c hc
    rw [← hpv] at hc
    exact TrimSpace_head piece c hc
  · intro c hc
    rw [← hpv] at hc
    exact TrimSpace_getLast piece c hc

theorem convert_map {α β : Type} (parse : List Char → α × Option NumError) (f : α → β)
    (vs : List (List Char)) : ∀ (i : Nat) (result : List α),
    convert (fun v => (f (parse v).1, (parse v).2)) vs i (result.map f) =
      ((convert parse vs i result).1.map (List.map f), (convert parse vs i result).2) := by
  induction vs with
  | nil =>
    intro i result
    simp [convert]
  | cons piece rest ih =>
    intro i result
    by_cases hb : TrimSpace piece = []
    · simp only [convert, hb, if_true]
      exact ih (i + 1) result
    · cases hp : parse (TrimSpace piece) with
      | mk vi e =>
        cases e with
        | none =>
          have h := ih (i + 1) (result ++ [vi])
          simp only [List.map_append, List.map_cons, List.map_nil] at h
          simp only [convert, hb, if_false, hp]
          exact h
        | some err =>
          simp only [convert, hb, if_false, hp, Option.map_none']

theorem toSlice_map {α β : Type} (parse : List Char → α × Option NumError) (f : α → β)
    (s sep : List Char) :
    toSlice (fun v => (f (parse v).1, (parse v).2)) s sep =
      ((toSlice parse s sep).1.map (List.map f), (toSlice parse s sep).2) := by
  unfold toSlice
  cases split s sep with
  | none => rfl
  | some vs =>
    by_cases hlen : vs.length = 0
    · simp [hlen]
    · simp only [hlen, if_false]
      exact convert_map parse f vs 0 []

/-- C15: the code does not do what the claim says.  `ToUint32Slice` parses
with 64 bits and then keeps the low 32 bits: it fails exactly when
`ToUint64Slice` does, and its elements are those of `ToUint64Slice` modulo
`2^32`.  For `4294967296` it returns 0 where `ToUint64Slice` returns
4294967296. -/
theorem ToUint32Slice_truncates :
    (∀ s sep : List Char, ToUint32Slice s sep =
      ((ToUint64Slice s sep).1.map (List.map (fun x => x % 2 ^ 32)),
        (ToUint64Slice s sep).2)) ∧
    ToUint32Slice "4294967296".data ",".data = (some [0], none) ∧
    ToUint64Slice "4294967296".data ",".data = (some [4294967296], none) := by
  refine ⟨?_, by decide, by decide⟩
  intro s sep
  exact toSlice_map (fun v => ParseUint v 64) toUint32 s sep

/-- C16: `ToInt32Slice` returns an error exactly when some piece of `s` cut at
`sep` is, once trimmed, not empty and not a base-10 integer between `-2^31`
and `2^31 - 1`; when it returns an error the slice it returns is nil. -/
theorem ToInt32Slice_error_iff (s sep : List Char) :
    ((ToInt32Slice s sep).2 ≠ none ↔
      ∃ piece ∈ Split s sep, TrimSpace piece ≠ [] ∧
        ¬ ∃ z : Int, decimalInt (TrimSpace piece) = some z ∧ - 2 ^ 31 ≤ z ∧ z ≤ 2 ^ 31 - 1) ∧
    ((ToInt32Slice s sep).2 ≠ none → (ToInt32Slice s sep).1 = none) := by
  obtain ⟨h1, h2, _⟩ :=
    toSlice_spec (fun v => (toInt32 (ParseInt v 32).1, (ParseInt v 32).2)) s sep
  have hparse : ∀ v : List Char, (ParseInt v 32).2 ≠ none ↔
      ¬ ∃ z : Int, decimalInt v = some z ∧ - 2 ^ 31 ≤ z ∧ z ≤ 2 ^ 31 - 1 := by
    intro v
    obtain ⟨p1, p2⟩ := ParseInt_spec v 32 (Or.inl rfl)
    constructor
    · rintro hne ⟨z, hz, hlo, hhi⟩
      have := p2 z hz (by norm_num; omega) (by norm_num; omega)
      rw [this] at hne
      exact hne rfl
    · intro hno hnone
      apply hno
      obtain ⟨z, hz, _, hlo, hhi⟩ := p1 hnone
      refine ⟨z, hz, ?_, ?_⟩
      · norm_num at hlo
        omega
      · norm_num at hhi
        omega
  refine ⟨?_, h2⟩
  unfold ToInt32Slice
  rw [h1]
  constructor
  · rintro ⟨v, hv, hne⟩
    obtain ⟨hvne, piece, hp, hpv⟩ := nonblank_mem hv
    refine ⟨piece, hp, by rw [hpv]; exact hvne, ?_⟩
    rw [hpv]
    exact (hparse v).1 hne
  · rintro ⟨piece, hp, hne, hno⟩
    exact ⟨TrimSpace piece, (mem_nonblank_iff _ _).2 ⟨hne, piece, hp, rfl⟩,
      (hparse _).2 hno⟩

/-- C17: when `ToInt64Slice` returns no error, the slice it returns holds, in
order, the integers denoted by the pieces of `s` cut at `sep`, trimmed, that
are not empty once trimmed, one element for each such piece and nothing
else, each of them what `ParseInt` gives for it; an empty `s` and an `s` of
white space only give the nil slice and no error. -/
theorem ToInt64Slice_values (s sep : List Char) (hok : (ToInt64Slice s sep).2 = none) :
    elems (ToInt64Slice s sep).1 =
      (((Split s sep).map TrimSpace).filter (fun v => !v.isEmpty)).map
        (fun v => (ParseInt v 64).1) ∧
    List.Forall₂ (fun v z => decimalInt v = some z ∧ - 2 ^ 63 ≤ z ∧ z ≤ 2 ^ 63 - 1)
      (((Split s sep).map TrimSpace).filter (fun v => !v.isEmpty))
      (elems (ToInt64Slice s sep).1) ∧
    (TrimSpace s = [] → ToInt64Slice s sep = (none, none)) := by
  obtain ⟨h1, _, h3⟩ := toSlice_spec (fun v => ParseInt v 64) s sep
  have hel := h3 hok
  refine ⟨hel, ?_, fun hb => toSlice_blank _ s sep hb⟩
  have hall : ∀ v ∈ nonblank (Split s sep), (ParseInt v 64).2 = none := by
    intro v hv
    by_contra hne
    exact (h1.2 ⟨v, hv, hne⟩) hok
  show List.Forall₂ _ (nonblank (Split s sep)) _
  rw [show elems (ToInt64Slice s sep).1 =
    (nonblank (Split s sep)).map (fun v => (ParseInt v 64).1) from hel]
  rw [List.forall₂_map_right_iff, List.forall₂_same]
  intro v hv
  obtain ⟨z, hz, hval, hlo, hhi⟩ := (ParseInt_spec v 64 (Or.inr rfl)).1 (hall v hv)
  rw [hval]
  refine ⟨hz, ?_, ?_⟩
  · norm_num at hlo
    omega
  · norm_num at hhi
    omega

/-- C17 at `1, -2,,+3` cut at `,`: the values 1, -2 and 3, and at a string of
two blanks: the nil slice. -/
theorem ToInt64Slice_values_witness :
    ToInt64Slice "1, -2,,+3".data ",".data = (some [1, -2, 3], none) ∧
    ToInt64Slice "  ".data ",".data = (none, none) ∧
    (elems (ToInt64Slice "1, -2,,+3".data ",".data).1 =
      (((Split "1, -2,,+3".data ",".data).map TrimSpace).filter (fun v => !v.isEmpty)).map
        (fun v => (ParseInt v 64).1) ∧
    List.Forall₂ (fun v z => decimalInt v = some z ∧ - 2 ^ 63 ≤ z ∧ z ≤ 2 ^ 63 - 1)
      (((Split "1, -2,,+3".data ",".data).map TrimSpace).filter (fun v => !v.isEmpty))
      (elems (ToInt64Slice "1, -2,,+3".data ",".data).1) ∧
    (TrimSpace "1, -2,,+3".data = [] →
      ToInt64Slice "1, -2,,+3".data ",".data = (none, none))) :=
  ⟨by decide, by decide, ToInt64Slice_values "1, -2,,+3".data ",".data (by decide)⟩

/-! ## Rendering and reading back -/

theorem digitChar_toNat : ∀ d, d < 10 → (Char.ofNat (48 + d)).toNat = 48 + d := by
  decide

theorem digitsOf_lt : ∀ (fuel n d : Nat), d ∈ digitsOf fuel n → d < 10 := by
  intro fuel
  induction fuel with
  | zero =>
    intro n d h
    simp [digitsOf] at h
  | succ k ih =>
    intro n d h
    simp only [digitsOf] at h
    split at h
    · cases h
    · rcases List.mem_cons.1 h with h1 | h1
      · rw [h1]
        exact Nat.mod_lt _ (by decide)
      · exact ih _ _ h1

theorem digitsOf_value : ∀ (fuel n : Nat), n ≤ fuel →
    (digitsOf fuel n).foldr (fun d a => a * 10 + d) 0 = n := by
  intro fuel
  induction fuel with
  | zero =>
    intro n h
    have : n = 0 := by omega
    subst this
    rfl
  | succ k ih =>
    intro n h
    simp only [digitsOf]
    split
    · rename_i h0
      rw [h0]
      rfl
    · rename_i h0
      simp only [List.foldr_cons]
      rw [ih (n / 10) (by omega)]
      omega

theorem digitsOf_ne_nil (n : Nat) (h : n ≠ 0) : digitsOf n n ≠ [] := by
  cases n with
  | zero => exact absurd rfl h
  | succ k => simp [digitsOf]

theorem decimalNat_map_digits : ∀ (l : List Nat) (acc : Nat), (∀ d ∈ l, d < 10) →
    decimalNat (l.map (fun d => Char.ofNat (48 + d))) acc =
      some (l.foldl (fun a d => a * 10 + d) acc) := by
  intro l
  induction l with
  | nil =>
    intro acc _
    rfl
  | cons d rest ih =>
    intro acc h
    have hd : d < 10 := h d (List.mem_cons_self _ _)
    have hc := digitChar_toNat d hd
    simp only [List.map_cons, decimalNat, List.foldl_cons]
    rw [hc]
    have hdig : 48 ≤ 48 + d ∧ 48 + d ≤ 57 := by omega
    rw [if_pos hdig]
    have : 48 + d - 48 = d := by omega
    rw [this]
    exact ih _ (fun x hx => h x (List.mem_cons_of_mem _ hx))

/-- Reading the rendering of `n` gives `n`. -/
theorem decimalNat_formatNat (n : Nat) : decimalNat (formatNat n) 0 = some n := by
  unfold formatNat
  by_cases h0 : n = 0
  · subst h0
    decide
  · rw [if_neg h0, decimalNat_map_digits _ _
      (fun d hd => digitsOf_lt n n d (List.mem_reverse.1 hd)), List.foldl_reverse]
    exact congrArg some (digitsOf_value n n (le_refl n))

theorem formatNat_chars (n : Nat) : ∀ c ∈ formatNat n, 48 ≤ c.toNat ∧ c.toNat ≤ 57 := by
  intro c hc
  unfold formatNat at hc
  by_cases h0 : n = 0
  · rw [if_pos h0] at hc
    rw [List.mem_singleton.1 hc]
    decide
  · rw [if_neg h0] at hc
    obtain ⟨d, hd, hdc⟩ := List.mem_map.1 hc
    have hlt := digitsOf_lt n n d (List.mem_reverse.1 hd)
    rw [← hdc, digitChar_toNat d hlt]
    omega

theorem formatNat_ne_nil (n : Nat) : formatNat n ≠ [] := by
  unfold formatNat
  by_cases h0 : n = 0
  · rw [if_pos h0]
    simp
  · rw [if_neg h0]
    intro h
    have h1 := List.map_eq_nil_iff.1 h
    exact digitsOf_ne_nil n h0 (List.reverse_eq_nil_iff.1 h1)

theorem FormatInt_chars (x : Int) : ∀ c ∈ FormatInt x, 45 ≤ c.toNat ∧ c.toNat ≤ 57 := by
  intro c hc
  unfold FormatInt at hc
  split at hc
  · rcases List.mem_cons.1 hc with h | h
    · rw [h]
      decide
    · have := formatNat_chars _ c h
      omega
  · have := formatNat_chars _ c hc
    omega

theorem FormatInt_ne_nil (x : Int) : FormatInt x ≠ [] := by
  unfold FormatInt
  split
  · simp
  · exact formatNat_ne_nil _

theorem isSpace_of_range {c : Char} (h : 45 ≤ c.toNat ∧ c.toNat ≤ 57) : isSpace c = false := by
  unfold isSpace
  simp only [Bool.or_eq_false_iff, decide_eq_false_iff_not, Bool.and_eq_false_iff,
    Bool.or_eq_false_iff]
  omega

/-- The rendering of an integer denotes that integer. -/
theorem decimalInt_FormatInt (x : Int) : decimalInt (FormatInt x) = some x := by
  unfold FormatInt
  by_cases hx : x < 0
  · rw [if_pos hx]
    have h45 : (Char.ofNat 45).toNat = 45 := by decide
    rw [decimalInt_cons]
    simp only [h45, or_true, if_true]
    rw [if_neg (formatNat_ne_nil _), decimalNat_formatNat]
    simp only [Option.map_some', Option.some.injEq]
    omega
  · rw [if_neg hx]
    cases hf : formatNat x.natAbs with
    | nil => exact absurd hf (formatNat_ne_nil _)
    | cons c rest =>
      have hc := formatNat_chars x.natAbs c (by rw [hf]; exact List.mem_cons_self _ _)
      have h43 : ¬ (c.toNat = 43 ∨ c.toNat = 45) := by omega
      have h45 : ¬ c.toNat = 45 := by omega
      rw [decimalInt_cons, if_neg h43, if_neg (by simp), ← hf, decimalNat_formatNat]
      simp only [Option.map_some', h45, if_false, Option.some.injEq]
      omega

theorem ParseInt_FormatInt (x : Int) (hlo : - 2 ^ 63 ≤ x) (hhi : x ≤ 2 ^ 63 - 1) :
    ParseInt (FormatInt x) 64 = (x, none) := by
  apply (ParseInt_spec (FormatInt x) 64 (Or.inr rfl)).2 x (decimalInt_FormatInt x)
  · norm_num
    omega
  · norm_num
    omega

theorem TrimSpace_FormatInt (x : Int) : TrimSpace (FormatInt x) = FormatInt x :=
  TrimSpace_of_no_space _ (fun c hc => isSpace_of_range (FormatInt_chars x c hc))

theorem convert_FormatInt (xs : List Int) (hrange : ∀ x ∈ xs, - 2 ^ 63 ≤ x ∧ x ≤ 2 ^ 63 - 1) :
    ∀ (i : Nat) (result : List Int),
      convert (fun v => ParseInt v 64) (xs.map FormatInt) i result = (some (result ++ xs), none) := by
  induction xs with
  | nil =>
    intro i result
    simp [convert]
  | cons x rest ih =>
    intro i result
    have hx := hrange x (List.mem_cons_self _ _)
    simp only [List.map_cons, convert, TrimSpace_FormatInt, FormatInt_ne_nil, if_false,
      ParseInt_FormatInt x hx.1 hx.2]
    rw [ih (fun y hy => hrange y (List.mem_cons_of_mem _ hy))]
    simp

theorem Join_chars (elems : List (List Char)) (d : Char) :
    ∀ c ∈ Join elems [d], c = d ∨ ∃ e ∈ elems, c ∈ e := by
  induction elems with
  | nil =>
    intro c hc
    simp [Join] at hc
  | cons e rest ih =>
    intro c hc
    cases rest with
    | nil =>
      simp only [Join] at hc
      exact Or.inr ⟨e, List.mem_cons_self _ _, hc⟩
    | cons e2 rest2 =>
      simp only [Join, List.mem_append, List.mem_singleton] at hc
      rcases hc with (h | h) | h
      · exact Or.inr ⟨e, List.mem_cons_self _ _, h⟩
      · exact Or.inl h
      · rcases ih c h with h2 | ⟨e3, he3, hc3⟩
        · exact Or.inl h2
        · exact Or.inr ⟨e3, List.mem_cons_of_mem _ he3, hc3⟩

theorem Join_ne_nil (e : List Char) (rest : List (List Char)) (sep : List Char)
    (he : e ≠ []) : Join (e :: rest) sep ≠ [] := by
  cases rest with
  | nil => simpa [Join] using he
  | cons e2 rest2 =>
    simp only [Join]
    intro h
    have := List.append_eq_nil.1 h
    exact he (List.append_eq_nil.1 this.1).1

/-- C18: for every non-empty list `xs` of integers of 64 bits, `ToInt64Slice`
with separator `,` applied to the base-10 renderings of `xs` joined with `,`
returns `xs` and no error. -/
theorem ToInt64Slice_roundtrip (xs : List Int) (hne : xs ≠ [])
    (hrange : ∀ x ∈ xs, - 2 ^ 63 ≤ x ∧ x ≤ 2 ^ 63 - 1) :
    ToInt64Slice (Join (xs.map FormatInt) ",".data) ",".data = (some xs, none) := by
  have hcomma : ",".data = [Char.ofNat 44] := by decide
  rw [hcomma]
  have hpieces : xs.map FormatInt ≠ [] := by
    intro h
    exact hne (List.map_eq_nil_iff.1 h)
  have hnosep : ∀ p ∈ xs.map FormatInt, Char.ofNat 44 ∉ p := by
    intro p hp hmem
    obtain ⟨x, _, hx⟩ := List.mem_map.1 hp
    rw [← hx] at hmem
    have := FormatInt_chars x _ hmem
    have h44 : (Char.ofNat 44).toNat = 44 := by decide
    omega
  have hsplit := Split_Join_single (Char.ofNat 44) (xs.map FormatInt) hpieces hnosep
  have hnospace : ∀ c ∈ Join (xs.map FormatInt) [Char.ofNat 44], isSpace c = false := by
    intro c hc
    rcases Join_chars _ _ c hc with h | ⟨e, he, hce⟩
    · rw [h]
      decide
    · obtain ⟨x, _, hx⟩ := List.mem_map.1 he
      rw [← hx] at hce
      exact isSpace_of_range (FormatInt_chars x c hce)
  have hjne : Join (xs.map FormatInt) [Char.ofNat 44] ≠ [] := by
    cases xs with
    | nil => exact absurd rfl hne
    | cons x rest => exact Join_ne_nil _ _ _ (FormatInt_ne_nil x)
  have htrim : TrimSpace (Join (xs.map FormatInt) [Char.ofNat 44]) ≠ [] := by
    rw [TrimSpace_of_no_space _ hnospace]
    exact hjne
  have hlen : ¬ (xs.map FormatInt).length = 0 := by
    intro h
    exact hpieces (List.length_eq_zero.1 h)
  unfold ToInt64Slice toSlice split
  rw [if_neg hjne, if_neg htrim, hsplit]
  simp only [hlen, if_false]
  rw [convert_FormatInt xs hrange 0 []]
  simp

/-- C18 at the list 12, -3, 0, the least and the largest integer of 64 bits. -/
theorem ToInt64Slice_roundtrip_witness :
    Join ([12, -3, 0, -9223372036854775808, 9223372036854775807].map FormatInt) ",".data =
      "12,-3,0,-9223372036854775808,9223372036854775807".data ∧
    ToInt64Slice
      (Join ([12, -3, 0, -9223372036854775808, 9223372036854775807].map FormatInt) ",".data)
      ",".data = (some [12, -3, 0, -9223372036854775808, 9223372036854775807], none) :=
  ⟨by decide,
    ToInt64Slice_roundtrip [12, -3, 0, -9223372036854775808, 9223372036854775807]
      (by decide) (by decide)⟩

/-- C16 at `1,2147483648`, whose second piece is above `2^31 - 1`: an error and
the nil slice; `2147483647,-2147483648` is converted. -/
theorem ToInt32Slice_error_iff_witness :
    (ToInt32Slice "1,2147483648".data ",".data).1 = none ∧
    ToInt32Slice "1,2147483648".data ",".data =
      (none, some { index := 1, piece := "2147483648".data, cause := .ErrRange }) ∧
    ToInt32Slice "2147483647,-2147483648".data ",".data =
      (some [2147483647, -2147483648], none) :=
  ⟨(ToInt32Slice_error_iff "1,2147483648".data ",".data).2 (by decide), by decide, by decide⟩

end fstypes
